import Mathlib

/-!
Verification of the fragment-marker transformer of this repository
(`transformer-fragments.js`, with auxiliary parsing code from
`plugin-utils.js`).

The tree manipulated by the transformer is a mutable object graph: nodes
carry `parent` / `nextSibling` pointers and an ordered `children` array,
and the operations (`splitText`, `splitElement`, `wrapNodes`, the `pre`
driver) mutate it in place.  We embed this with an explicit store mapping
numeric node ids to node records; JavaScript object identity becomes id
equality, and every mutation is explicit state passing on the store.
`Array.prototype.slice` / `splice` / `indexOf` and `String.prototype.slice`
are modelled with their exact JavaScript semantics (negative indices
included); strings are `List Char`.

Operations that can throw in JavaScript (reading a field of `undefined`)
are modelled with `JRes.crash`; `wrapNodes` returning `null` is
`JRes.fail`.  Loops whose termination relies on the tree being finite are
given explicit fuel; theorems about them take the successful run as a
hypothesis, so no termination argument is ever assumed.
-/

/-- JavaScript index normalisation shared by `slice` and `splice`:
a negative index counts from the end (clamped at 0), a non-negative one is
clamped at the length. -/
def jsIdx (len : Nat) (i : Int) : Nat :=
  if i < 0 then (i + len).toNat else min i.toNat len

/-- JavaScript `Array.prototype.slice(start, end)` / `String.prototype.slice`. -/
def jsSlice (l : List α) (start fin : Int) : List α :=
  (l.take (jsIdx l.length fin)).drop (jsIdx l.length start)

/-- JavaScript `slice(start)` with the end argument omitted. -/
def jsSliceFrom (l : List α) (start : Int) : List α :=
  l.drop (jsIdx l.length start)

/-- JavaScript `Array.prototype.splice(start, deleteCount, ...items)`
(result array, not the removed elements). -/
def jsSplice (l : List α) (start : Int) (del : Nat) (items : List α) : List α :=
  (l.take (jsIdx l.length start)) ++ items ++ l.drop (jsIdx l.length start + del)

/-- JavaScript `Array.prototype.indexOf`: first index or `-1`. -/
def jsIndexOf [DecidableEq α] (l : List α) (a : α) : Int :=
  match l.findIdx? (fun x => x = a) with
  | some n => (n : Int)
  | none => -1

/-! ## Data model

`hast` nodes are a union of text / element / comment; elements carry a tag
name, optional properties and children.  The transformer only ever writes
the property `index` on elements it creates, so the property map is
modelled by that single optional entry. -/

inductive NKind where
  | text
  | element
  | comment
deriving DecidableEq, Repr

structure TNode where
  kind : NKind
  value : List Char := []
  tagName : List Char := []
  propIndex : Option (List Char) := none
  parent : Option Nat := none
  nextSibling : Option Nat := none
  children : List Nat := []
deriving DecidableEq, Repr

/-- The heap: an association list from node ids to node records, plus the
next fresh id.  A well-formed store keeps every key below `nextId`. -/
structure Store where
  nodes : List (Nat × TNode)
  nextId : Nat
deriving DecidableEq, Repr

def Store.get (t : Store) (id : Nat) : Option TNode :=
  (t.nodes.find? (fun p => p.1 = id)).map (fun p => p.2)

def Store.set (t : Store) (id : Nat) (nd : TNode) : Store :=
  { t with nodes := (id, nd) :: t.nodes.filter (fun p => ¬ p.1 = id) }

/-- Allocate a fresh node (JavaScript object creation). -/
def Store.alloc (t : Store) (nd : TNode) : Store × Nat :=
  ({ nodes := (t.nextId, nd) :: t.nodes.filter (fun p => ¬ p.1 = t.nextId),
     nextId := t.nextId + 1 }, t.nextId)

/-- Field assignment `obj.f = v` on an existing object; a missing id is a
no-op (unreachable when the id is live, since JavaScript objects cannot
dangle). -/
def Store.modify (t : Store) (id : Nat) (f : TNode → TNode) : Store :=
  match t.get id with
  | some nd => t.set id (f nd)
  | none => t

theorem Store.get_set_self (t : Store) (id : Nat) (nd : TNode) :
    (t.set id nd).get id = some nd := by
  simp [Store.get, Store.set, List.find?]

theorem find?_filter_ne {α : Type} {l : List (Nat × α)} {id j : Nat} (h : j ≠ id) :
    (l.filter (fun p => ¬ p.1 = id)).find? (fun p => p.1 = j) =
      l.find? (fun p => p.1 = j) := by
  rw [List.find?_filter]
  congr 1
  funext a
  by_cases hj : a.1 = j
  · simp [hj, h]
  · simp [hj]

theorem Store.get_set_ne (t : Store) {id j : Nat} (nd : TNode) (h : j ≠ id) :
    (t.set id nd).get j = t.get j := by
  unfold Store.get Store.set
  simp only [List.find?_cons]
  have hid : (decide (((id, nd) : Nat × TNode).1 = j)) = false := by
    simp
    exact fun e => h e.symm
  rw [hid]
  rw [find?_filter_ne h]

theorem Store.get_alloc_self (t : Store) (nd : TNode) :
    (t.alloc nd).1.get (t.alloc nd).2 = some nd := by
  simp [Store.get, Store.alloc, List.find?]

theorem Store.get_alloc_ne (t : Store) (nd : TNode) {j : Nat} (h : j ≠ t.nextId) :
    (t.alloc nd).1.get j = t.get j := by
  unfold Store.get Store.alloc
  simp only [List.find?_cons]
  have hid : (decide (((t.nextId, nd) : Nat × TNode).1 = j)) = false := by
    simp
    exact fun e => h e.symm
  rw [hid]
  rw [find?_filter_ne h]

/-- Result of an operation translated from JavaScript: `crash` models a
thrown `TypeError` (reading a field of `undefined`) or fuel exhaustion,
`fail` models an explicit `return null`. -/
inductive JRes (α : Type) where
  | crash
  | fail
  | ok (a : α)
deriving DecidableEq, Repr

/-! ## Node splitter

`splitText` partitions a text node's value at `index` into at most two new
text nodes (empty parts dropped), splices them into the parent's child
array in place of the original and rethreads `nextSibling` pointers;
`splitElement` does the same to an element's child list, reparenting the
children of each part.  Both are literal translations of
`transformer-fragments.js`. -/

/-- The parent-side update both splitters end with: fix the previous
sibling's `nextSibling` (`nodes[0] ?? old.nextSibling`) and splice the new
nodes into the parent's child array in place of the split node.  `nd` is
the record the split node had when the splitter read it. -/
def spliceIntoParent (t1 : Store) (nd : TNode) (id : Nat) (ids : List Nat) :
    JRes (Store × List Nat) :=
  match nd.parent with
  | none => JRes.ok (t1, ids)
  | some p =>
    match t1.get p with
    | none => JRes.crash
    | some pnd =>
      let idx := jsIndexOf pnd.children id
      let newSib : Option Nat :=
        match ids.head? with
        | some i => some i
        | none => nd.nextSibling
      let t2 :=
        if 0 < idx then
          match pnd.children.get? (idx.toNat - 1) with
          | some prev => t1.modify prev (fun x => { x with nextSibling := newSib })
          | none => t1
        else t1
      JRes.ok (t2.modify p (fun x => { x with children := jsSplice x.children idx 1 ids }), ids)

/-- Allocate the 0–2 replacement text nodes and thread their
`nextSibling` pointers (`texts.map(...)` plus the `forEach`). -/
def allocTextParts (t : Store) (nd : TNode) : List (List Char) → Store × List Nat
  | [] => (t, [])
  | [v] =>
    let a := t.alloc { kind := NKind.text, value := v, parent := nd.parent,
                       nextSibling := nd.nextSibling }
    (a.1, [a.2])
  | v0 :: v1 :: _ =>
    let a := t.alloc { kind := NKind.text, value := v0, parent := nd.parent,
                       nextSibling := some (t.nextId + 1) }
    let b := a.1.alloc { kind := NKind.text, value := v1, parent := nd.parent,
                         nextSibling := nd.nextSibling }
    (b.1, [a.2, b.2])

def splitText (t : Store) (id : Nat) (index : Int) : JRes (Store × List Nat) :=
  match t.get id with
  | none => JRes.crash
  | some nd =>
    let texts := ([jsSlice nd.value 0 index, jsSliceFrom nd.value index]).filter
      (fun s => s ≠ [])
    let st := allocTextParts t nd texts
    spliceIntoParent st.1 nd id st.2

def reparent (t : Store) (cs : List Nat) (owner : Nat) : Store :=
  cs.foldl (fun acc c => acc.modify c (fun x => { x with parent := some owner })) t

/-- Allocate the 0–2 replacement element nodes (copies of `nd` except for
`children`/`nextSibling`), thread their sibling pointers and repoint their
children's `parent` links. -/
def allocElementParts (t : Store) (nd : TNode) : List (List Nat) → Store × List Nat
  | [] => (t, [])
  | [cs] =>
    let a := t.alloc { nd with nextSibling := nd.nextSibling, children := cs }
    (reparent a.1 cs a.2, [a.2])
  | cs0 :: cs1 :: _ =>
    let a := t.alloc { nd with nextSibling := some (t.nextId + 1), children := cs0 }
    let b := a.1.alloc { nd with nextSibling := nd.nextSibling, children := cs1 }
    (reparent (reparent b.1 cs0 a.2) cs1 b.2, [a.2, b.2])

def splitElement (t : Store) (id : Nat) (index : Int) : JRes (Store × List Nat) :=
  match t.get id with
  | none => JRes.crash
  | some nd =>
    let parts := ([jsSlice nd.children 0 index, jsSliceFrom nd.children index]).filter
      (fun l => l.length ≠ 0)
    let st := allocElementParts t nd parts
    spliceIntoParent st.1 nd id st.2

/-! ## Node wrapper -/

/-- The precondition scan of `wrapNodes`
(`children.some((node, index) => node.parent !== parent || ...)`), with the
violation outcome inverted: `some true` means no violation.  `none` marks a
child id with no node record, which cannot arise from JavaScript objects. -/
def wrapCheckOk (t : Store) (par : Option Nat) : List Nat → Option Bool
  | [] => some true
  | [c] =>
    match t.get c with
    | none => none
    | some cnd => some (cnd.parent = par)
  | c :: c' :: rest =>
    match t.get c with
    | none => none
    | some cnd =>
      if cnd.parent = par ∧ cnd.nextSibling = some c' then wrapCheckOk t par (c' :: rest)
      else some false

def wrapNodes (t : Store) (tag : List Char) (cs : List Nat) : JRes (Store × Nat) :=
  match cs with
  | [] => JRes.crash
  | c0 :: _ =>
    match cs.getLast? with
    | none => JRes.crash
    | some lastC =>
      match t.get lastC with
      | none => JRes.crash
      | some lastNd =>
        match wrapCheckOk t lastNd.parent cs with
        | none => JRes.crash
        | some false => JRes.fail
        | some true =>
          let a := t.alloc { kind := NKind.element, tagName := tag,
                             parent := lastNd.parent, nextSibling := lastNd.nextSibling,
                             children := cs }
          let t1 := a.1
          let w := a.2
          let t2 :=
            match lastNd.parent with
            | none => t1
            | some p =>
              match t1.get p with
              | none => t1
              | some pnd =>
                let index := jsIndexOf pnd.children c0
                let t2a :=
                  if 0 < index then
                    match pnd.children.get? (index.toNat - 1) with
                    | some prev => t1.modify prev (fun x => { x with nextSibling := some w })
                    | none => t1
                  else t1
                t2a.modify p (fun x => { x with children := jsSplice x.children index cs.length [w] })
          let t3 := reparent t2 cs w
          let t4 := t3.modify lastC (fun x => { x with nextSibling := none })
          JRes.ok (t4, w)

/-! ## Building the internal tree (`buildTree`)

`pre` first deep-clones the hast tree the host hands in, adding `parent`
and `nextSibling` links (`structuredClone` of everything but `children`).
The clone allocates a fresh object per visited node.  The recursion is
fueled because the source lives in the store. -/

def fixChain (t : Store) : List Nat → Store
  | [] => t
  | [k] => t.modify k (fun x => { x with nextSibling := none })
  | k :: k' :: rest =>
    fixChain (t.modify k (fun x => { x with nextSibling := some k' })) (k' :: rest)

/-- Clone the list `srcs` of source nodes (and, recursively, their
children) in order, linking clones to `parent`.  A single structurally
fueled function so that concrete runs reduce definitionally; both
recursive calls (into the children and along the sibling list) tick the
fuel once. -/
def buildList (fuel : Nat) (t : Store) (srcs : List Nat) (parent : Option Nat) :
    JRes (Store × List Nat) :=
  match fuel with
  | 0 => JRes.crash
  | fuel + 1 =>
    match srcs with
    | [] => JRes.ok (t, [])
    | s :: rest =>
      match t.get s with
      | none => JRes.crash
      | some snd =>
        let a := t.alloc { kind := snd.kind, value := snd.value, tagName := snd.tagName,
                           propIndex := snd.propIndex, parent := parent, nextSibling := none,
                           children := [] }
        let t1 := a.1
        let nid := a.2
        let afterNode : JRes Store :=
          if snd.kind = NKind.element then
            match buildList fuel t1 snd.children (some nid) with
            | JRes.crash => JRes.crash
            | JRes.fail => JRes.fail
            | JRes.ok (t2, kids) =>
              let t3 := t2.modify nid (fun x => { x with children := kids })
              JRes.ok (fixChain t3 kids)
          else JRes.ok t1
        match afterNode with
        | JRes.crash => JRes.crash
        | JRes.fail => JRes.fail
        | JRes.ok t4 =>
          match buildList fuel t4 rest parent with
          | JRes.crash => JRes.crash
          | JRes.fail => JRes.fail
          | JRes.ok (t5, nids) => JRes.ok (t5, nid :: nids)

/-- `buildTree(node, parent)`: clone one source node. -/
def buildTree (fuel : Nat) (t : Store) (src : Nat) (parent : Option Nat) :
    JRes (Store × Nat) :=
  match buildList fuel t [src] parent with
  | JRes.crash => JRes.crash
  | JRes.fail => JRes.fail
  | JRes.ok (t2, ids) =>
    match ids with
    | [nid] => JRes.ok (t2, nid)
    | _ => JRes.crash

/-! ## Text offset locator -/

/-- Inner climb of the `getTextNodes` generator: from a node with no child
and no sibling, climb parents until a next sibling exists (`some next`) or
the root is reached again (`none` = generator exhausted). -/
def climbUp (t : Store) (root : Nat) : Nat → Nat → JRes (Option Nat)
  | 0, _ => JRes.crash
  | fuel + 1, node =>
    if node = root then JRes.ok none
    else
      match t.get node with
      | none => JRes.crash
      | some nd =>
        match nd.parent with
        | none => JRes.crash
        | some par =>
          match t.get par with
          | none => JRes.crash
          | some pnd =>
            match pnd.nextSibling with
            | some sib => JRes.ok (some sib)
            | none => climbUp t root fuel par

/-- Depth-first, left-to-right walk yielding the text nodes
(the `getTextNodes` generator, run eagerly; no mutation happens while the
generator is being consumed, so this is equivalent). -/
def getTextNodesGo (t : Store) (root : Nat) : Nat → Nat → JRes (List (Nat × TNode))
  | 0, _ => JRes.crash
  | fuel + 1, node =>
    match t.get node with
    | none => JRes.crash
    | some nd =>
      let acc := if nd.kind = NKind.text then [(node, nd)] else []
      let step : JRes (Option Nat) :=
        match nd.children with
        | c :: _ => JRes.ok (some c)
        | [] =>
          match nd.nextSibling with
          | some sib => JRes.ok (some sib)
          | none => climbUp t root fuel node
      match step with
      | JRes.crash => JRes.crash
      | JRes.fail => JRes.fail
      | JRes.ok none => JRes.ok acc
      | JRes.ok (some nxt) =>
        match getTextNodesGo t root fuel nxt with
        | JRes.crash => JRes.crash
        | JRes.fail => JRes.fail
        | JRes.ok rest => JRes.ok (acc ++ rest)

def getTextNodes (t : Store) (root : Nat) (fuel : Nat) : JRes (List (Nat × TNode)) :=
  getTextNodesGo t root fuel root

def getTextNodeAtIndexGo (index : Int) (prevLength : Int) :
    List (Nat × TNode) → Option (Nat × Int)
  | [] => none
  | (id, nd) :: rest =>
    if prevLength + nd.value.length > index then some (id, index - prevLength)
    else getTextNodeAtIndexGo index (prevLength + (nd.value.length : Int)) rest

def getTextNodeAtIndex (index : Int) (texts : List (Nat × TNode)) : Option (Nat × Int) :=
  getTextNodeAtIndexGo index 0 texts

/-! ## Ancestor resolver -/

def includesNode (t : Store) : Nat → Nat → Nat → JRes Bool
  | 0, _, _ => JRes.crash
  | fuel + 1, anc, node =>
    if node = anc then JRes.ok true
    else
      match t.get node with
      | none => JRes.crash
      | some nd =>
        match nd.parent with
        | none => JRes.ok false
        | some p => includesNode t fuel anc p

/-- One `reduce` step of `getCommonAncestor`: climb the accumulator while
it does not contain `node`. -/
def climbCommon (t : Store) (fuelI : Nat) (node : Nat) : Nat → Option Nat → JRes (Option Nat)
  | 0, _ => JRes.crash
  | _ + 1, none => JRes.ok none
  | fuel + 1, some anc =>
    match includesNode t fuelI anc node with
    | JRes.crash => JRes.crash
    | JRes.fail => JRes.fail
    | JRes.ok true => JRes.ok (some anc)
    | JRes.ok false =>
      match t.get anc with
      | none => JRes.crash
      | some and => climbCommon t fuelI node fuel and.parent

/-- `getCommonAncestor(a, b)` — the source's rest-parameter `reduce`,
instantiated at the two-node call sites of the driver. -/
def getCommonAncestor (t : Store) (fuel : Nat) (a b : Nat) : JRes (Option Nat) :=
  climbCommon t fuel b fuel (some a)

/-! ## Directive extractor

`fragmentRE = /\{#(\d*(?:\.\d+)?)\{([\s\S]*?)(?<!\\)\}#\}/g`.

The regex engine's behaviour on this pattern is deterministic: after
`{#`, the longest digit run, optionally followed by `.` and a further
nonempty digit run, must be followed immediately by `{` (backtracking
cannot produce any other successful division, because every shorter
division leaves a digit or a dot where `{` is required); the lazy content
group ends at the first `}#}` whose preceding character is not a
backslash. -/

/-- Scan for the first `}#}` not preceded by `\`; `prev` is the character
immediately before the current position (the opening `{` at entry).
Returns the content consumed and the input after the closer. -/
def scanContent (prev : Char) : List Char → Option (List Char × List Char)
  | [] => none
  | c :: rest =>
    if c = '}' ∧ rest.take 2 = ['#', '}'] ∧ prev ≠ '\\' then some ([], rest.drop 2)
    else
      match scanContent c rest with
      | some (content, after) => some (c :: content, after)
      | none => none

/-- The token group `\d*(?:\.\d+)?` followed by the literal `{`: the
maximal digit run, optionally extended by `.` and a further nonempty
maximal digit run, must be followed immediately by `{` (no other
backtracking division can succeed). -/
def matchTokenBrace (s : List Char) : Option (List Char × List Char) :=
  let d := s.takeWhile Char.isDigit
  match s.drop d.length with
  | c :: r =>
    if c = '{' then some (d, r)
    else
      if c = '.' then
        let e := r.takeWhile Char.isDigit
        if e.length ≠ 0 then
          match r.drop e.length with
          | c2 :: r2 => if c2 = '{' then some (d ++ '.' :: e, r2) else none
          | [] => none
        else none
      else none
  | [] => none

/-- Match `fragmentRE` at the start of the input: `some (token, content,
rest)` on success. -/
def matchMarker : List Char → Option (List Char × List Char × List Char)
  | c1 :: c2 :: s =>
    if c1 = '{' ∧ c2 = '#' then
      match matchTokenBrace s with
      | none => none
      | some (tok, r) =>
        match scanContent '{' r with
        | some (content, rest) => some (tok, content, rest)
        | none => none
    else none
  | _ => none

/-- One entry of the module-scoped `fragments` array: a `RegExpExecArray`
restricted to the fields the transformer reads (`index`, `[0]` the whole
match, `[1]` the order token, `[2]` the content). -/
structure Frag where
  index : Int
  whole : List Char
  token : List Char
  content : List Char
deriving DecidableEq, Repr

/-- `code.matchAll(fragmentRE)`: scan left to right, resuming after each
match (all matches are nonempty, so `lastIndex` always advances). -/
def fragMatchAllGo : Nat → Nat → List Char → List Frag
  | 0, _, _ => []
  | fuel + 1, pos, s =>
    match s with
    | [] => []
    | _ :: rest =>
      match matchMarker s with
      | some (tok, content, after) =>
        let len := s.length - after.length
        { index := (pos : Int), whole := s.take len, token := tok, content := content } ::
          fragMatchAllGo fuel (pos + len) after
      | none => fragMatchAllGo fuel (pos + 1) rest

def fragMatchAll (s : List Char) : List Frag :=
  fragMatchAllGo s.length 0 s

/-- The marker-stripping loop of `preprocess`: walks the match array in
order, first subtracting the running `indexShift` from the stored `index`
(mutating the match record), then replacing the whole match with its
content in the working string, then growing the shift. -/
def preprocessGo (cleaned : List Char) (shift : Int) : List Frag → List Char × List Frag
  | [] => (cleaned, [])
  | f :: fs =>
    let idx := f.index - shift
    let cleaned1 :=
      jsSlice cleaned 0 idx ++ f.content ++ jsSliceFrom cleaned (idx + f.whole.length)
    let r := preprocessGo cleaned1 (shift + ((f.whole.length : Int) - (f.content.length : Int))) fs
    (r.1, { f with index := idx } :: r.2)

/-- `preprocess(code)`: returns the cleaned code and the adjusted match
array that the `pre` hook later reads. -/
def preprocess (code : List Char) : List Char × List Frag :=
  preprocessGo code 0 (fragMatchAll code)

/-! ## Fragment resolution driver (`pre`)

The driver also returns a ghost log of `(fragment, wrapper id)` pairs, one
per successful `wrapNodes` call; the log records nothing the JavaScript
does not compute and does not influence the store. -/

def pFragmentTag : List Char := "p-fragment".toList

/-- Fuel ample for one full generator walk: the walk enters and leaves
each node at most once in each direction and every id is below `nextId`. -/
def textWalkFuel (t : Store) : Nat := 4 * (t.nextId + 1) + 4

/-- Upper bound for parent-chain climbs. -/
def chainFuel (t : Store) : Nat := t.nextId + 1

/-- The same-node case of the driver (marker start and end resolved to one
text node). -/
def preSameNode (t : Store) (textId : Nat) (sIdx eIdx : Int) (f : Frag) :
    JRes (Store × List (Frag × Nat)) :=
  match splitText t textId (eIdx + 1) with
  | JRes.crash => JRes.crash
  | JRes.fail => JRes.fail
  | JRes.ok (t1, nodes1) =>
    match nodes1.head? with
    | none => JRes.crash
    | some beforeId =>
      match splitText t1 beforeId sIdx with
      | JRes.crash => JRes.crash
      | JRes.fail => JRes.fail
      | JRes.ok (t2, nodes2) =>
        match nodes2.get? 1 with
        | none => JRes.ok (t2, [])
        | some middleId =>
          match wrapNodes t2 pFragmentTag [middleId] with
          | JRes.crash => JRes.crash
          | JRes.fail => if f.token ≠ [] then JRes.crash else JRes.ok (t2, [])
          | JRes.ok (t3, w) =>
            let t4 :=
              if f.token ≠ [] then t3.modify w (fun x => { x with propIndex := some f.token })
              else t3
            JRes.ok (t4, [(f, w)])

/-- Climb from the start leaf: while the current node's parent is not the
common ancestor, split the parent's child list at the current node's index
and continue from the second part. -/
def climbSplitStart (t : Store) (ca : Option Nat) : Nat → Nat → JRes (Store × Nat)
  | 0, _ => JRes.crash
  | fuel + 1, cur =>
    match t.get cur with
    | none => JRes.crash
    | some nd =>
      if nd.parent = ca then JRes.ok (t, cur)
      else
        match nd.parent with
        | none => JRes.crash
        | some pa =>
          match t.get pa with
          | none => JRes.crash
          | some pnd =>
            match splitElement t pa (jsIndexOf pnd.children cur) with
            | JRes.crash => JRes.crash
            | JRes.fail => JRes.fail
            | JRes.ok (t1, ns) =>
              match ns.get? 1 with
              | none => JRes.crash
              | some nxt => climbSplitStart t1 ca fuel nxt

/-- Climb from the end leaf: split at the current node's index plus one
and continue from the first part. -/
def climbSplitEnd (t : Store) (ca : Option Nat) : Nat → Nat → JRes (Store × Nat)
  | 0, _ => JRes.crash
  | fuel + 1, cur =>
    match t.get cur with
    | none => JRes.crash
    | some nd =>
      if nd.parent = ca then JRes.ok (t, cur)
      else
        match nd.parent with
        | none => JRes.crash
        | some pa =>
          match t.get pa with
          | none => JRes.crash
          | some pnd =>
            match splitElement t pa (jsIndexOf pnd.children cur + 1) with
            | JRes.crash => JRes.crash
            | JRes.fail => JRes.fail
            | JRes.ok (t1, ns) =>
              match ns.head? with
              | none => JRes.crash
              | some nxt => climbSplitEnd t1 ca fuel nxt

/-- The cross-node case of the driver. -/
def preCrossNode (t : Store) (sId : Nat) (sIdx : Int) (eId : Nat) (eIdx : Int)
    (f : Frag) : JRes (Store × List (Frag × Nat)) :=
  match getCommonAncestor t (chainFuel t) sId eId with
  | JRes.crash => JRes.crash
  | JRes.fail => JRes.fail
  | JRes.ok ca =>
    let startTextRes : JRes (Store × Nat) :=
      if 0 < sIdx then
        match splitText t sId sIdx with
        | JRes.crash => JRes.crash
        | JRes.fail => JRes.fail
        | JRes.ok (t1, ns) =>
          match ns.get? 1 with
          | none => JRes.crash
          | some x => JRes.ok (t1, x)
      else JRes.ok (t, sId)
    match startTextRes with
    | JRes.crash => JRes.crash
    | JRes.fail => JRes.fail
    | JRes.ok (ta, startText) =>
      match climbSplitStart ta ca (chainFuel ta) startText with
      | JRes.crash => JRes.crash
      | JRes.fail => JRes.fail
      | JRes.ok (tb, startAnc) =>
        match tb.get eId with
        | none => JRes.crash
        | some endNd =>
          let endTextRes : JRes (Store × Nat) :=
            if eIdx < (endNd.value.length : Int) - 1 then
              match splitText tb eId eIdx with
              | JRes.crash => JRes.crash
              | JRes.fail => JRes.fail
              | JRes.ok (t1, ns) =>
                match ns.head? with
                | none => JRes.crash
                | some x => JRes.ok (t1, x)
            else JRes.ok (tb, eId)
          match endTextRes with
          | JRes.crash => JRes.crash
          | JRes.fail => JRes.fail
          | JRes.ok (tc, endText) =>
            match climbSplitEnd tc ca (chainFuel tc) endText with
            | JRes.crash => JRes.crash
            | JRes.fail => JRes.fail
            | JRes.ok (td, endAnc) =>
              match ca with
              | none => JRes.crash
              | some caId =>
                match td.get caId with
                | none => JRes.crash
                | some cand =>
                  let toBeWrapped := jsSlice cand.children
                    (jsIndexOf cand.children startAnc)
                    (jsIndexOf cand.children endAnc + 1)
                  match wrapNodes td pFragmentTag toBeWrapped with
                  | JRes.crash => JRes.crash
                  | JRes.fail => if f.token ≠ [] then JRes.crash else JRes.ok (td, [])
                  | JRes.ok (te, w) =>
                    let tf :=
                      if f.token ≠ [] then
                        te.modify w (fun x => { x with propIndex := some f.token })
                      else te
                    JRes.ok (tf, [(f, w)])

/-- One iteration of the driver's fragment loop. -/
def preBody (t : Store) (rootId : Nat) (f : Frag) : JRes (Store × List (Frag × Nat)) :=
  match getTextNodes t rootId (textWalkFuel t) with
  | JRes.crash => JRes.crash
  | JRes.fail => JRes.fail
  | JRes.ok texts =>
    match getTextNodeAtIndex f.index texts with
    | none => JRes.ok (t, [])
    | some (sId, sIdx) =>
      match getTextNodes t rootId (textWalkFuel t) with
      | JRes.crash => JRes.crash
      | JRes.fail => JRes.fail
      | JRes.ok texts2 =>
        match getTextNodeAtIndex (f.index + (f.content.length : Int) - 1) texts2 with
        | none => JRes.ok (t, [])
        | some (eId, eIdx) =>
          if sId = eId then preSameNode t sId sIdx eIdx f
          else preCrossNode t sId sIdx eId eIdx f

def preLoop (t : Store) (rootId : Nat) : List Frag → JRes (Store × List (Frag × Nat))
  | [] => JRes.ok (t, [])
  | f :: fs =>
    match preBody t rootId f with
    | JRes.crash => JRes.crash
    | JRes.fail => JRes.fail
    | JRes.ok (t1, log1) =>
      match preLoop t1 rootId fs with
      | JRes.crash => JRes.crash
      | JRes.fail => JRes.fail
      | JRes.ok (t2, log2) => JRes.ok (t2, log1 ++ log2)

/-- The `pre` hook: clone the host tree with `buildTree`, then resolve
each fragment against the (mutating) clone; returns the new tree's root
and the ghost wrapper log. -/
def pre (t : Store) (srcRoot : Nat) (frags : List Frag) :
    JRes (Store × Nat × List (Frag × Nat)) :=
  match buildTree (2 * t.nextId + 2) t srcRoot none with
  | JRes.crash => JRes.crash
  | JRes.fail => JRes.fail
  | JRes.ok (t1, rootId) =>
    match preLoop t1 rootId frags with
    | JRes.crash => JRes.crash
    | JRes.fail => JRes.fail
    | JRes.ok (t2, log) => JRes.ok (t2, rootId, log)

/-! ## Property-list parser (`plugin-utils.js`)

`SELECTOR_RE = /\[ *([\w-]+)(?: *= *('[^']*'|"[^"]*"|[^\]\s]+))? *\]|\.([\w-]+)|#([\w-]+)/g`.

As with the fragment regex, backtracking is deterministic: every greedy
run (`' *'`, `[\w-]+`, `[^\]\s]+`) is followed by a character its own
class excludes, so a shorter take can never rescue a failed continuation;
the three value alternatives are tried in order, each maximal. -/

def wordDash (c : Char) : Bool := c.isAlphanum || c = '_' || c = '-'

/-- Consume `' *]'`; returns the number of characters consumed. -/
def closeBracketLen (r : List Char) : Option Nat :=
  let sp := r.takeWhile (fun c => c = ' ')
  match r.drop sp.length with
  | c :: _ => if c = ']' then some (sp.length + 1) else none
  | [] => none

/-- Parse one quoted-value alternative `q[^q]*q` at the start of `r4`. -/
def quotedAlt (q : Char) (r4 : List Char) : Option (List Char × List Char) :=
  match r4 with
  | c :: r5 =>
    if c = q then
      let inner := r5.takeWhile (fun x => ¬ x = q)
      match r5.drop inner.length with
      | c2 :: r6 => if c2 = q then some (q :: (inner ++ [q]), r6) else none
      | [] => none
    else none
  | [] => none

/-- The first branch `\[ *([\w-]+)(?: *= *(V))? *\]` of the selector
regex, matched at the start of the input.  Returns the total length
consumed, the name capture and the value capture. -/
def matchAttr : List Char → Option (Nat × List Char × Option (List Char))
  | c0 :: r0 =>
    if c0 = '[' then
      let sp1 := r0.takeWhile (fun c => c = ' ')
      let r1 := r0.drop sp1.length
      let name := r1.takeWhile (fun c => wordDash c)
      if name.length = 0 then none
      else
        let r2 := r1.drop name.length
        let tryAlt : Option (List Char × List Char) → Option (List Char × Nat) := fun alt =>
          match alt with
          | some (v, rest) =>
            match closeBracketLen rest with
            | some k => some (v, v.length + k)
            | none => none
          | none => none
        let withValue : Option (List Char × Nat) :=
          let sp2 := r2.takeWhile (fun c => c = ' ')
          match r2.drop sp2.length with
          | c3 :: r3 =>
            if c3 = '=' then
              let sp3 := r3.takeWhile (fun c => c = ' ')
              let r4 := r3.drop sp3.length
              let alt3 : Option (List Char × List Char) :=
                let run := r4.takeWhile (fun c => ¬ (c = ']' ∨ c.isWhitespace))
                if run.length = 0 then none
                else some (run, r4.drop run.length)
              let res :=
                match tryAlt (quotedAlt '\'' r4) with
                | some r => some r
                | none =>
                  match tryAlt (quotedAlt '"' r4) with
                  | some r => some r
                  | none => tryAlt alt3
              match res with
              | some (v, k) => some (v, sp2.length + 1 + sp3.length + k)
              | none => none
            else none
          | [] => none
        match withValue with
        | some (v, k) => some (1 + sp1.length + name.length + k, name, some v)
        | none =>
          match closeBracketLen r2 with
          | some k => some (1 + sp1.length + name.length + k, name, none)
          | none => none
    else none
  | [] => none

structure SelMatch where
  index : Nat
  length : Nat
  attrName : Option (List Char)
  value : Option (List Char)
  className : Option (List Char)
  idCap : Option (List Char)
deriving DecidableEq, Repr

/-- Match the selector regex at the start of the input. -/
def matchSelectorAt (s : List Char) : Option (Nat × SelMatch) :=
  match matchAttr s with
  | some (len, name, v) =>
    some (len, { index := 0, length := len, attrName := some name, value := v,
                 className := none, idCap := none })
  | none =>
    match s with
    | c :: r =>
      if c = '.' then
        let cls := r.takeWhile (fun x => wordDash x)
        if cls.length = 0 then none
        else some (cls.length + 1, { index := 0, length := cls.length + 1, attrName := none,
                                     value := none, className := some cls, idCap := none })
      else if c = '#' then
        let i := r.takeWhile (fun x => wordDash x)
        if i.length = 0 then none
        else some (i.length + 1, { index := 0, length := i.length + 1, attrName := none,
                                   value := none, className := none, idCap := some i })
      else none
    | [] => none

def selectorMatchAllGo : Nat → Nat → List Char → List SelMatch
  | 0, _, _ => []
  | fuel + 1, pos, s =>
    match s with
    | [] => []
    | _ :: rest =>
      match matchSelectorAt s with
      | some (len, m) =>
        { m with index := pos } :: selectorMatchAllGo fuel (pos + len) (s.drop len)
      | none => selectorMatchAllGo fuel (pos + 1) rest

def selectorMatchAll (s : List Char) : List SelMatch :=
  selectorMatchAllGo s.length 0 s

/-- JavaScript object property assignment on a plain object literal
(string keys; insertion order preserved). -/
def objSet (props : List (List Char × List Char)) (k v : List Char) :
    List (List Char × List Char) :=
  if props.any (fun p => p.1 = k) then props.map (fun p => if p.1 = k then (k, v) else p)
  else props ++ [(k, v)]

def objGet (props : List (List Char × List Char)) (k : List Char) : Option (List Char) :=
  (props.find? (fun p => p.1 = k)).map (fun p => p.2)

/-- `value.replace(/^['"]|['"]$/g, '')`: remove one leading and one
trailing quote character of the original string, each independently. -/
def stripQuotes (v : List Char) : List Char :=
  match v with
  | [] => []
  | [c] => if c = '\'' ∨ c = '"' then [] else [c]
  | _ =>
    let v1 :=
      if v.head? = some '\'' ∨ v.head? = some '"' then v.drop 1 else v
    let lastQ : Bool :=
      match v.getLast? with
      | some c => c = '\'' || c = '"'
      | none => false
    if lastQ then v1.dropLast else v1

/-- The match-consuming loop of `getProperties`, including the two
`lastIndex` gap checks that bail out to `{}` on malformed input. -/
def getPropertiesGo (strLen : Nat) (lastIndex : Nat)
    (props : List (List Char × List Char)) :
    List SelMatch → List (List Char × List Char)
  | [] => if lastIndex < strLen then [] else props
  | m :: ms =>
    if lastIndex < m.index then []
    else
      let props1 :=
        match m.attrName with
        | some name =>
          let v :=
            match m.value with
            | some v => if v ≠ [] then stripQuotes v else []
            | none => []
          objSet props name v
        | none =>
          match m.className with
          | some cls =>
            match objGet props ("class".toList) with
            | some old =>
              if old ≠ [] then objSet props ("class".toList) (old ++ ' ' :: cls)
              else objSet props ("class".toList) cls
            | none => objSet props ("class".toList) cls
          | none =>
            match m.idCap with
            | some i => objSet props ("id".toList) i
            | none => props
      getPropertiesGo strLen (m.index + m.length) props1 ms

def getProperties (s : List Char) : List (List Char × List Char) :=
  getPropertiesGo s.length 0 [] (selectorMatchAll s)

/-! ## Basic lemmas on the JavaScript helpers and the store -/

theorem jsIdx_natCast (len n : Nat) : jsIdx len (n : Int) = min n len := by
  unfold jsIdx
  simp

theorem take_min_length (l : List α) (n : Nat) : l.take (min n l.length) = l.take n := by
  rcases le_total n l.length with h | h
  · rw [min_eq_left h]
  · rw [min_eq_right h, List.take_length, List.take_of_length_le h]

theorem drop_min_length (l : List α) (n : Nat) : l.drop (min n l.length) = l.drop n := by
  rcases le_total n l.length with h | h
  · rw [min_eq_left h]
  · rw [min_eq_right h, List.drop_length, List.drop_of_length_le h]

theorem jsSlice_zero_natCast (l : List α) (n : Nat) : jsSlice l 0 (n : Int) = l.take n := by
  unfold jsSlice
  rw [jsIdx_natCast]
  norm_num [jsIdx, take_min_length]

theorem jsSliceFrom_natCast (l : List α) (n : Nat) : jsSliceFrom l (n : Int) = l.drop n := by
  unfold jsSliceFrom
  rw [jsIdx_natCast, drop_min_length]

theorem Store.get_modify_ne (t : Store) {id j : Nat} (f : TNode → TNode) (h : j ≠ id) :
    (t.modify id f).get j = t.get j := by
  unfold Store.modify
  cases hg : t.get id with
  | none => rfl
  | some nd => rw [Store.get_set_ne _ _ h]

theorem Store.get_modify_map {β : Type} (t : Store) (id : Nat) (f : TNode → TNode) (j : Nat)
    (g : TNode → β) (hf : ∀ nd, g (f nd) = g nd) :
    ((t.modify id f).get j).map g = (t.get j).map g := by
  unfold Store.modify
  cases h : t.get id with
  | none => rfl
  | some nd =>
    by_cases hj : j = id
    · subst hj
      rw [Store.get_set_self, h]
      simp [hf]
    · rw [Store.get_set_ne _ _ hj]

theorem reparent_get_map {β : Type} (cs : List Nat) (t : Store) (owner : Nat) (j : Nat)
    (g : TNode → β) (hg : ∀ x v, g { x with parent := v } = g x) :
    ((reparent t cs owner).get j).map g = (t.get j).map g := by
  induction cs generalizing t with
  | nil => rfl
  | cons c cs ih =>
    unfold reparent at ih ⊢
    rw [List.foldl_cons]
    rw [ih]
    exact Store.get_modify_map t c _ j g (fun nd => hg nd (some owner))

theorem spliceIntoParent_ids (t1 : Store) (nd : TNode) (id : Nat) (ids : List Nat)
    {t' : Store} {ids' : List Nat}
    (hs : spliceIntoParent t1 nd id ids = JRes.ok (t', ids')) : ids' = ids := by
  unfold spliceIntoParent at hs
  cases hp : nd.parent with
  | none =>
    rw [hp] at hs
    cases hs
    rfl
  | some p =>
    rw [hp] at hs
    dsimp only at hs
    cases hq : t1.get p with
    | none => rw [hq] at hs; cases hs
    | some pnd =>
      rw [hq] at hs
      dsimp only at hs
      cases hs
      rfl

theorem spliceIntoParent_get_map {β : Type} (t1 : Store) (nd : TNode) (id : Nat)
    (ids : List Nat) {t' : Store} {ids' : List Nat} (g : TNode → β)
    (hg1 : ∀ x v, g { x with nextSibling := v } = g x)
    (hg2 : ∀ x cs, g { x with children := cs } = g x)
    (hs : spliceIntoParent t1 nd id ids = JRes.ok (t', ids')) :
    ∀ j, (t'.get j).map g = (t1.get j).map g := by
  unfold spliceIntoParent at hs
  cases hp : nd.parent with
  | none =>
    rw [hp] at hs
    cases hs
    intro j
    rfl
  | some p =>
    rw [hp] at hs
    dsimp only at hs
    cases hq : t1.get p with
    | none => rw [hq] at hs; cases hs
    | some pnd =>
      rw [hq] at hs
      dsimp only at hs
      cases hs
      intro j
      rw [Store.get_modify_map _ _ _ _ g (fun x => hg2 x _)]
      split
      · split
        · rw [Store.get_modify_map _ _ _ _ g (fun x => hg1 x _)]
        · rfl
      · rfl

/-- Variant for projections that do look at `children`: needs the parent
pointer to avoid `j`. -/
theorem spliceIntoParent_get_withp {β : Type} (t1 : Store) (nd : TNode) (id : Nat)
    (ids : List Nat) {t' : Store} {ids' : List Nat} (j : Nat) (g : TNode → β)
    (hg1 : ∀ x v, g { x with nextSibling := v } = g x)
    (hp : ∀ p, nd.parent = some p → p ≠ j)
    (hs : spliceIntoParent t1 nd id ids = JRes.ok (t', ids')) :
    ((t'.get j).map g) = ((t1.get j).map g) := by
  unfold spliceIntoParent at hs
  cases hpp : nd.parent with
  | none =>
    rw [hpp] at hs
    cases hs
    rfl
  | some p =>
    rw [hpp] at hs
    dsimp only at hs
    cases hq : t1.get p with
    | none => rw [hq] at hs; cases hs
    | some pnd =>
      rw [hq] at hs
      dsimp only at hs
      cases hs
      rw [Store.get_modify_ne _ _ (Ne.symm (hp p hpp))]
      split
      · split
        · rw [Store.get_modify_map _ _ _ _ g (fun x => hg1 x _)]
        · rfl
      · rfl

theorem Store.get_alloc_at (t : Store) (nd : TNode) :
    (t.alloc nd).1.get t.nextId = some nd := Store.get_alloc_self t nd

theorem Store.get_alloc_eq (t : Store) (nd : TNode) {j : Nat} (h : j = t.nextId) :
    (t.alloc nd).1.get j = some nd := h ▸ Store.get_alloc_self t nd

/-! ## Claim C7 — split contents

The claim as frozen fails on a node with empty content: both parts of the
partition are empty, the `filter(Boolean)` drops both, and the splitter
returns no node at all (removing the original from its parent), instead of
"exactly one resulting node whose content equals the original". -/

/-- A well-formed two-node tree whose text child has the empty value. -/
def c7Store : Store :=
  { nodes := [(0, { kind := NKind.element, tagName := "c".toList, children := [1] }),
              (1, { kind := NKind.text, value := [], parent := some 0 })],
    nextId := 2 }

/-- C7 counterexample: splitting the empty text node of `c7Store` at index
0 — which is both index 0 and the node's full content length — produces an
empty replacement list (the returned ids are `[]`), not exactly one node
carrying the original content; the original node is simply removed from
its parent's child list. -/
theorem c7_counterexample :
    splitText c7Store 1 (0 : Int) =
      JRes.ok ({ nodes := [(0, { kind := NKind.element, tagName := "c".toList, children := [] }),
                           (1, { kind := NKind.text, value := [], parent := some 0 })],
                 nextId := 2 }, []) := by
  decide

/-- C7 (amended): for every node in a store and every split index, when
the index is 0 or the node's full content length the split produces no
empty sibling — exactly one node carrying the whole original content when
that content is nonempty, and no node at all when the content is empty —
and when the index is interior the split produces exactly two nodes whose
contents concatenate, in order, to the original content, both parts
nonempty.  The first conjunct covers `splitText` (character value), the
second `splitElement` (child list); for the latter the recorded parent
must be a live id below `nextId`, which every well-formed tree satisfies. -/
theorem c7_split_contents :
    (∀ (t : Store) (id : Nat) (nd : TNode) (i : Nat) (t' : Store) (ids : List Nat),
      t.get id = some nd →
      splitText t id ((i : Nat) : Int) = JRes.ok (t', ids) →
      ((i = 0 ∨ i = nd.value.length →
          (nd.value = [] → ids = []) ∧
          (nd.value ≠ [] → ∃ j, ids = [j] ∧ ((t'.get j).map TNode.value) = some nd.value)) ∧
       (0 < i → i < nd.value.length →
          ∃ j k, ids = [j, k] ∧ j ≠ k ∧
            ((t'.get j).map TNode.value) = some (nd.value.take i) ∧
            ((t'.get k).map TNode.value) = some (nd.value.drop i) ∧
            nd.value.take i ++ nd.value.drop i = nd.value ∧
            nd.value.take i ≠ [] ∧ nd.value.drop i ≠ []))) ∧
    (∀ (t : Store) (id : Nat) (nd : TNode) (i : Nat) (t' : Store) (ids : List Nat),
      t.get id = some nd →
      (∀ q, nd.parent = some q → q < t.nextId) →
      splitElement t id ((i : Nat) : Int) = JRes.ok (t', ids) →
      ((i = 0 ∨ i = nd.children.length →
          (nd.children = [] → ids = []) ∧
          (nd.children ≠ [] → ∃ j, ids = [j] ∧
            ((t'.get j).map TNode.children) = some nd.children)) ∧
       (0 < i → i < nd.children.length →
          ∃ j k, ids = [j, k] ∧ j ≠ k ∧
            ((t'.get j).map TNode.children) = some (nd.children.take i) ∧
            ((t'.get k).map TNode.children) = some (nd.children.drop i) ∧
            nd.children.take i ++ nd.children.drop i = nd.children ∧
            nd.children.take i ≠ [] ∧ nd.children.drop i ≠ []))) := by
  constructor
  · intro t id nd i t' ids h hs
    unfold splitText at hs
    rw [h] at hs
    dsimp only at hs
    rw [jsSlice_zero_natCast, jsSliceFrom_natCast] at hs
    constructor
    · intro hb
      constructor
      · intro hv
        have htexts : ([nd.value.take i, nd.value.drop i]).filter (fun s => s ≠ []) = [] := by
          simp [hv]
        rw [htexts] at hs
        exact spliceIntoParent_ids _ _ _ _ hs
      · intro hv
        have htexts : ([nd.value.take i, nd.value.drop i]).filter (fun s => s ≠ []) =
            [nd.value] := by
          rcases hb with rfl | rfl
          · simp [hv]
          · simp [hv, List.take_length, List.drop_length]
        rw [htexts] at hs
        refine ⟨t.nextId, (spliceIntoParent_ids _ _ _ _ hs).symm ▸ rfl, ?_⟩
        have hmap := spliceIntoParent_get_map _ _ _ _ TNode.value
          (fun x v => rfl) (fun x cs => rfl) hs t.nextId
        rw [hmap]
        unfold allocTextParts
        dsimp only
        rw [Store.get_alloc_at]
        rfl
    · intro h0 hlen
      have htake : nd.value.take i ≠ [] := by
        rw [Ne, List.take_eq_nil_iff]
        push_neg
        exact ⟨by omega, by intro he; rw [he] at hlen; simp at hlen⟩
      have hdrop : nd.value.drop i ≠ [] := by
        rw [Ne, List.drop_eq_nil_iff]
        omega
      have htexts : ([nd.value.take i, nd.value.drop i]).filter (fun s => s ≠ []) =
          [nd.value.take i, nd.value.drop i] := by
        simp [htake, hdrop]
      rw [htexts] at hs
      refine ⟨t.nextId, t.nextId + 1,
        (spliceIntoParent_ids _ _ _ _ hs).symm ▸ rfl, by omega, ?_, ?_,
        List.take_append_drop i nd.value, htake, hdrop⟩
      · have hmap := spliceIntoParent_get_map _ _ _ _ TNode.value
          (fun x v => rfl) (fun x cs => rfl) hs t.nextId
        rw [hmap]
        unfold allocTextParts
        dsimp only
        rw [Store.get_alloc_ne _ _ (by omega : t.nextId ≠ t.nextId + 1), Store.get_alloc_at]
        rfl
      · have hmap := spliceIntoParent_get_map _ _ _ _ TNode.value
          (fun x v => rfl) (fun x cs => rfl) hs (t.nextId + 1)
        rw [hmap]
        unfold allocTextParts
        dsimp only
        rw [Store.get_alloc_eq _ _ (by rfl)]
        rfl
  · intro t id nd i t' ids h hq hs
    unfold splitElement at hs
    rw [h] at hs
    dsimp only at hs
    rw [jsSlice_zero_natCast, jsSliceFrom_natCast] at hs
    have hqne : ∀ m : Nat, t.nextId ≤ m → ∀ q, nd.parent = some q → q ≠ m :=
      fun m hm q hqq => by have := hq q hqq; omega
    constructor
    · intro hb
      constructor
      · intro hv
        have hparts : ([nd.children.take i, nd.children.drop i]).filter
            (fun l => l.length ≠ 0) = [] := by
          simp [hv]
        rw [hparts] at hs
        exact spliceIntoParent_ids _ _ _ _ hs
      · intro hv
        have hparts : ([nd.children.take i, nd.children.drop i]).filter
            (fun l => l.length ≠ 0) = [nd.children] := by
          rcases hb with rfl | rfl
          · simp [hv, List.length_eq_zero]
          · simp [hv, List.take_length, List.drop_length, List.length_eq_zero]
        rw [hparts] at hs
        refine ⟨t.nextId, (spliceIntoParent_ids _ _ _ _ hs).symm ▸ rfl, ?_⟩
        have hmap := spliceIntoParent_get_withp _ _ _ _ t.nextId TNode.children
          (fun x v => rfl) (hqne t.nextId (le_refl _)) hs
        rw [hmap]
        unfold allocElementParts
        dsimp only
        rw [reparent_get_map _ _ _ _ TNode.children (fun x v => rfl)]
        rw [Store.get_alloc_at]
        rfl
    · intro h0 hlen
      have htake : nd.children.take i ≠ [] := by
        rw [Ne, List.take_eq_nil_iff]
        push_neg
        exact ⟨by omega, by intro he; rw [he] at hlen; simp at hlen⟩
      have hdrop : nd.children.drop i ≠ [] := by
        rw [Ne, List.drop_eq_nil_iff]
        omega
      have hparts : ([nd.children.take i, nd.children.drop i]).filter
          (fun l => l.length ≠ 0) = [nd.children.take i, nd.children.drop i] := by
        simp [List.length_eq_zero, htake, hdrop]
      rw [hparts] at hs
      refine ⟨t.nextId, t.nextId + 1,
        (spliceIntoParent_ids _ _ _ _ hs).symm ▸ rfl, by omega, ?_, ?_,
        List.take_append_drop i nd.children, htake, hdrop⟩
      · have hmap := spliceIntoParent_get_withp _ _ _ _ t.nextId TNode.children
          (fun x v => rfl) (hqne t.nextId (le_refl _)) hs
        rw [hmap]
        unfold allocElementParts
        dsimp only
        rw [reparent_get_map _ _ _ _ TNode.children (fun x v => rfl)]
        rw [reparent_get_map _ _ _ _ TNode.children (fun x v => rfl)]
        rw [Store.get_alloc_ne _ _ (by omega : t.nextId ≠ t.nextId + 1), Store.get_alloc_at]
        rfl
      · have hmap := spliceIntoParent_get_withp _ _ _ _ (t.nextId + 1) TNode.children
          (fun x v => rfl) (hqne (t.nextId + 1) (by omega)) hs
        rw [hmap]
        unfold allocElementParts
        dsimp only
        rw [reparent_get_map _ _ _ _ TNode.children (fun x v => rfl)]
        rw [reparent_get_map _ _ _ _ TNode.children (fun x v => rfl)]
        rw [Store.get_alloc_eq _ _ (by rfl)]
        rfl

def c7TextStore : Store :=
  { nodes := [(0, { kind := NKind.element, tagName := "c".toList, children := [1] }),
              (1, { kind := NKind.text, value := "ab".toList, parent := some 0 })],
    nextId := 2 }

def c7TextNode : TNode := { kind := NKind.text, value := "ab".toList, parent := some 0 }

def c7TextAfter : Store :=
  { nodes := [(0, { kind := NKind.element, tagName := "c".toList, children := [2, 3] }),
              (3, { kind := NKind.text, value := "b".toList, parent := some 0 }),
              (2, { kind := NKind.text, value := "a".toList, parent := some 0,
                    nextSibling := some 3 }),
              (1, { kind := NKind.text, value := "ab".toList, parent := some 0 })],
    nextId := 4 }

theorem c7_split_contents_witness :
    ∃ j k, ([2, 3] : List Nat) = [j, k] ∧ j ≠ k ∧
      ((c7TextAfter.get j).map TNode.value) = some (c7TextNode.value.take 1) ∧
      ((c7TextAfter.get k).map TNode.value) = some (c7TextNode.value.drop 1) ∧
      c7TextNode.value.take 1 ++ c7TextNode.value.drop 1 = c7TextNode.value ∧
      c7TextNode.value.take 1 ≠ [] ∧ c7TextNode.value.drop 1 ≠ [] :=
  (c7_split_contents.1 c7TextStore 1 c7TextNode 1 c7TextAfter [2, 3]
    (by decide) (by decide)).2 (by decide) (by decide)

/-! ## Claim C4 — preprocess offset bookkeeping -/

/-- Spec-side description of "a raw text with non-overlapping well-formed
markers": starting at original offset `pos`, the remaining text is an
alternation of literal segments and whole marker matches, each fragment
record carrying the original match position, and each whole match being
`{#` + token + `{` + content + `}#}`. -/
inductive DecompAt : Int → List Char → List Frag → List (List Char) → Prop where
  | last (pos : Int) (s : List Char) : DecompAt pos s [] [s]
  | step (pos : Int) (seg : List Char) (f : Frag) (fs : List Frag)
      (segs : List (List Char)) (rest : List Char)
      (hidx : f.index = pos + (seg.length : Int))
      (hshape : f.whole = '{' :: '#' :: (f.token ++ '{' :: (f.content ++ ('}' :: '#' :: ['}']))))
      (htail : DecompAt (pos + (seg.length : Int) + (f.whole.length : Int))
        rest fs segs) :
      DecompAt pos (seg ++ (f.whole ++ rest)) (f :: fs) (seg :: segs)

/-- The cleaned text the spec prescribes: segments interleaved with the
markers' inner contents. -/
def interleave : List (List Char) → List (List Char) → List Char
  | [], _ => []
  | s :: _, [] => s
  | s :: ss, c :: cs => s ++ (c ++ interleave ss cs)

/-- The adjusted fragment list the spec prescribes: the k-th recorded
index is the position of the k-th inner content inside the cleaned text. -/
def adjustExpected : Nat → List (List Char) → List Frag → List Frag
  | pos, seg :: segs, f :: fs =>
    { f with index := ((pos + seg.length : Nat) : Int) } ::
      adjustExpected (pos + seg.length + f.content.length) segs fs
  | _, _, _ => []

theorem interleave_cons (s : List Char) (ss : List (List Char)) (c : List Char)
    (cs : List (List Char)) :
    interleave (s :: ss) (c :: cs) = s ++ (c ++ interleave ss cs) := rfl

theorem adjustExpected_cons (pos : Nat) (seg : List Char) (segs : List (List Char))
    (f : Frag) (fs : List Frag) :
    adjustExpected pos (seg :: segs) (f :: fs) =
      { f with index := ((pos + seg.length : Nat) : Int) } ::
        adjustExpected (pos + seg.length + f.content.length) segs fs := rfl

theorem preprocessGo_spec (frags : List Frag) (segs : List (List Char)) :
    ∀ (done rest : List Char) (shift : Int),
      DecompAt ((done.length : Int) + shift) rest frags segs →
      preprocessGo (done ++ rest) shift frags =
        (done ++ interleave segs (frags.map Frag.content),
         adjustExpected done.length segs frags) := by
  induction frags generalizing segs with
  | nil =>
    intro done rest shift hd
    cases hd
    rfl
  | cons f fs ih =>
    intro done rest shift hd
    cases hd with
    | step pos seg _ _ segs' rest' hidx hshape htail =>
      unfold preprocessGo
      have hidx2 : f.index - shift = ((done.length + seg.length : Nat) : Int) := by
        rw [hidx]
        push_cast
        ring
      rw [hidx2]
      dsimp only
      have hsl : jsSlice (done ++ (seg ++ (f.whole ++ rest')))
          0 ((done.length + seg.length : Nat) : Int) = done ++ seg := by
        rw [jsSlice_zero_natCast, ← List.append_assoc]
        have : done.length + seg.length = (done ++ seg).length := by
          simp
        rw [this, List.take_left]
      have hsr : jsSliceFrom (done ++ (seg ++ (f.whole ++ rest')))
          (((done.length + seg.length : Nat) : Int) + (f.whole.length : Int)) = rest' := by
        have hcast : (((done.length + seg.length : Nat) : Int) + (f.whole.length : Int)) =
            (((done ++ seg ++ f.whole).length : Nat) : Int) := by
          simp
          ring
        rw [hcast, jsSliceFrom_natCast]
        rw [← List.append_assoc, ← List.append_assoc]
        exact List.drop_left _ _
      rw [hsl, hsr]
      have harr : done ++ seg ++ f.content ++ rest' =
          (done ++ (seg ++ f.content)) ++ rest' := by
        simp
      rw [harr]
      have htail2 : DecompAt (((done ++ (seg ++ f.content)).length : Int) +
          (shift + ((f.whole.length : Int) - (f.content.length : Int)))) rest' fs segs' := by
        have : ((done ++ (seg ++ f.content)).length : Int) +
            (shift + ((f.whole.length : Int) - (f.content.length : Int))) =
            (done.length : Int) + shift + (seg.length : Int) + (f.whole.length : Int) := by
          simp
          ring
        rw [this]
        exact htail
      rw [ih segs' (done ++ (seg ++ f.content)) rest' _ htail2]
      simp only [List.map_cons, interleave_cons, adjustExpected_cons]
      have hlen : (done ++ (seg ++ f.content)).length =
          done.length + seg.length + f.content.length := by
        simp [Nat.add_assoc]
      rw [hlen]
      simp [List.append_assoc]

/-- Total length the stripping removed strictly before the k-th match. -/
def removedBefore (frags : List Frag) (k : Nat) : Int :=
  ((frags.take k).map (fun f => (f.whole.length : Int) - (f.content.length : Int))).sum

theorem adjustExpected_get (frags : List Frag) :
    ∀ (segs : List (List Char)) (rest : List Char) (pos0 : Int) (pos : Nat),
      DecompAt pos0 rest frags segs →
      ∀ k f, frags.get? k = some f →
        ∃ f', (adjustExpected pos segs frags).get? k = some f' ∧
          f'.content = f.content ∧ f'.token = f.token ∧ f'.whole = f.whole ∧
          f'.index = f.index - (pos0 - (pos : Int)) - removedBefore frags k ∧
          ∃ pre suf, interleave segs (frags.map Frag.content) = pre ++ (f.content ++ suf) ∧
            ((pos : Int) + (pre.length : Int)) = f'.index := by
  induction frags with
  | nil =>
    intro segs rest pos0 pos hd k f hk
    simp at hk
  | cons f0 fs ih =>
    intro segs rest pos0 pos hd k f hk
    cases hd with
    | step _ seg _ _ segs' rest' hidx hshape htail =>
      cases k with
      | zero =>
        have hf : f0 = f := by
          simpa using hk
        subst hf
        refine ⟨{ f0 with index := ((pos + seg.length : Nat) : Int) },
          by rw [adjustExpected_cons]; rfl, rfl, rfl, rfl, ?_, seg,
          interleave segs' (fs.map Frag.content), ?_, ?_⟩
        · rw [hidx]
          unfold removedBefore
          simp
          ring
        · rw [List.map_cons, interleave_cons]
        · simp
      | succ k =>
        have hk' : fs.get? k = some f := hk
        obtain ⟨f', hget, hc, ht, hw, hi, pre, suf, hint, hlen⟩ :=
          ih segs' rest' _ (pos + seg.length + f0.content.length) htail k f hk'
        refine ⟨f', ?_, hc, ht, hw, ?_, seg ++ (f0.content ++ pre), suf, ?_, ?_⟩
        · rw [adjustExpected_cons]
          exact hget
        · rw [hi]
          have hrb : removedBefore (f0 :: fs) (k + 1) =
              ((f0.whole.length : Int) - (f0.content.length : Int)) + removedBefore fs k := by
            unfold removedBefore
            simp
          rw [hrb]
          push_cast
          ring
        · rw [List.map_cons, interleave_cons, hint]
          simp
        · rw [← hlen]
          simp only [List.length_append]
          push_cast
          ring

/-- C4: for every raw text decomposed into literal segments and
non-overlapping well-formed markers, `preprocess` (i) yields exactly the
segments interleaved with the markers' inner contents — i.e. it removes
precisely the opening and closing delimiters, keeping every inner content
verbatim — and (ii) records for each marker the index obtained by
subtracting exactly the length removed strictly before that marker, which
is precisely the position of its inner content inside the cleaned text
(never adjusted by later removals). -/
theorem c4_preprocess_offsets :
    ∀ (code : List Char) (frags : List Frag) (segs : List (List Char)),
      fragMatchAll code = frags →
      DecompAt 0 code frags segs →
      (preprocess code).1 = interleave segs (frags.map Frag.content) ∧
      (preprocess code).2 = adjustExpected 0 segs frags ∧
      (∀ k f, frags.get? k = some f →
        ∃ f', (preprocess code).2.get? k = some f' ∧
          f'.content = f.content ∧ f'.token = f.token ∧ f'.whole = f.whole ∧
          f'.index = f.index - removedBefore frags k ∧
          ∃ pre suf, (preprocess code).1 = pre ++ (f.content ++ suf) ∧
            (pre.length : Int) = f'.index) := by
  intro code frags segs hmatch hd
  have hd0 : DecompAt (((([] : List Char).length : Int)) + 0) code frags segs := by
    simpa using hd
  have hmain := preprocessGo_spec frags segs [] code 0 hd0
  have hpre : preprocess code = (interleave segs (frags.map Frag.content),
      adjustExpected 0 segs frags) := by
    unfold preprocess
    rw [hmatch]
    simpa using hmain
  refine ⟨by rw [hpre], by rw [hpre], ?_⟩
  intro k f hk
  obtain ⟨f', hget, hc, ht, hw, hi, pre, suf, hint, hlen⟩ :=
    adjustExpected_get frags segs code 0 0 hd k f hk
  refine ⟨f', by rw [hpre]; exact hget, hc, ht, hw, by simpa using hi, pre, suf,
    by rw [hpre]; exact hint, by simpa using hlen⟩

def c4WitCode : List Char := "{#1{fast}#} and {slow}".toList

def c4WitFrag : Frag :=
  { index := 0, whole := "{#1{fast}#}".toList, token := "1".toList,
    content := "fast".toList }

def c4WitSegs : List (List Char) := [[], " and {slow}".toList]

theorem c4_preprocess_offsets_witness :
    (preprocess c4WitCode).1 = interleave c4WitSegs ([c4WitFrag].map Frag.content) ∧
    (preprocess c4WitCode).2 = adjustExpected 0 c4WitSegs [c4WitFrag] :=
  have h := c4_preprocess_offsets c4WitCode [c4WitFrag] c4WitSegs (by decide)
    (DecompAt.step 0 [] c4WitFrag [] [" and {slow}".toList] (" and {slow}".toList)
      (by decide) (by decide) (DecompAt.last _ _))
  ⟨h.1, h.2.1⟩

/-! ## Claim C9 — marker recognition grammar

The fragment regex token group is `\d*(?:\.\d+)?`: the integer part may be
EMPTY, so a token like `.5` also opens a marker, refuting the claim's
`\d+` / `\d+.\d+` grammar.  The rest of the claim (opening `{#`, `{`
separator, first unescaped `}#}`) matches the code. -/

/-- A string is recognised as a marker when the regex consumes it
entirely. -/
def isMarker (s : List Char) : Bool :=
  match matchMarker s with
  | some (_, _, rest) => rest.isEmpty
  | none => false

/-- Token grammar of the code: `\d*` or `\d*.\d+`. -/
def tokenShapeCode (tok : List Char) : Prop :=
  (∀ c ∈ tok, c.isDigit) ∨
  (∃ d e, tok = d ++ '.' :: e ∧ (∀ c ∈ d, c.isDigit) ∧ (∀ c ∈ e, c.isDigit) ∧ e ≠ [])

/-- Token grammar of the claim: absent, `\d+`, or `\d+.\d+`. -/
def tokenShapeClaim (tok : List Char) : Prop :=
  tok = [] ∨
  (tok ≠ [] ∧ ∀ c ∈ tok, c.isDigit) ∨
  (∃ d e, tok = d ++ '.' :: e ∧ d ≠ [] ∧ e ≠ [] ∧ (∀ c ∈ d, c.isDigit) ∧ (∀ c ∈ e, c.isDigit))

/-- The character the regex lookbehind inspects before position `j` of
the content (`j = 0` sees the opening `{`). -/
def prevCh (prev : Char) (content : List Char) (j : Nat) : Char :=
  if j = 0 then prev else content.getD (j - 1) ' '

/-- An occurrence of `}#}` starts at position `j` of `l`. -/
def ClosesAt (l : List Char) (j : Nat) : Prop :=
  ∃ suf, l.drop j = '}' :: '#' :: ('}' :: suf)

/-- "The closing `}#}` used is the first one not preceded by an escape
character": no unescaped `}#}` starts at any position strictly inside the
content (an occurrence near the end may straddle into the real closer),
and the real closer itself is not escaped. -/
def CloseOK (prev : Char) (content : List Char) : Prop :=
  (∀ j, j < content.length →
    ¬ (ClosesAt (content ++ ('}' :: '#' :: ['}'])) j ∧ prevCh prev content j ≠ '\\')) ∧
  prevCh prev content content.length ≠ '\\'

/-- The claim's marker grammar, parameterised by the token grammar. -/
def MarkerForm (shape : List Char → Prop) (s : List Char) : Prop :=
  ∃ tok content, shape tok ∧ CloseOK '{' content ∧
    s = '{' :: '#' :: (tok ++ '{' :: (content ++ ('}' :: '#' :: ['}'])))

theorem prevCh_cons (c : Char) (rest : List Char) (j : Nat) :
    prevCh c rest j = (c :: rest).getD j ' ' := by
  cases j with
  | zero => simp [prevCh]
  | succ j => simp [prevCh, List.getD]

theorem prevCh_succ (prev c : Char) (rest : List Char) (j : Nat) :
    prevCh prev (c :: rest) (j + 1) = (c :: rest).getD j ' ' := by
  simp [prevCh, List.getD]

theorem take_two_eq_iff {l : List Char} {a b : Char} :
    l.take 2 = [a, b] ↔ ∃ suf, l = a :: (b :: suf) := by
  cases l with
  | nil => simp
  | cons x l1 =>
    cases l1 with
    | nil => simp
    | cons y l2 =>
      constructor
      · intro h
        have h2 : ([x, y] : List Char) = [a, b] := h
        exact ⟨l2, by injection h2 with ha hb; injection hb with hb; rw [ha, hb]⟩
      · rintro ⟨suf, h⟩
        cases h
        rfl

theorem CloseOK_shift {prev c : Char} {rest : List Char}
    (h : CloseOK prev (c :: rest)) : CloseOK c rest := by
  obtain ⟨h1, h2⟩ := h
  constructor
  · intro j hj hcontra
    obtain ⟨hcl, hpr⟩ := hcontra
    apply h1 (j + 1) (by simpa using Nat.succ_lt_succ hj)
    refine ⟨?_, ?_⟩
    · obtain ⟨suf, hsuf⟩ := hcl
      exact ⟨suf, by simpa using hsuf⟩
    · rw [prevCh_succ, ← prevCh_cons]
      exact hpr
  · rw [show (c :: rest).length = rest.length + 1 from rfl, prevCh_succ, ← prevCh_cons] at h2
    exact h2

theorem CloseOK_cons {prev c : Char} {rest : List Char}
    (hc : ¬ (c = '}' ∧ (rest ++ ('}' :: '#' :: ['}'])).take 2 = ['#', '}'] ∧ prev ≠ '\\'))
    (h : CloseOK c rest) : CloseOK prev (c :: rest) := by
  obtain ⟨h1, h2⟩ := h
  constructor
  · intro j hj hcontra
    obtain ⟨hcl, hpr⟩ := hcontra
    cases j with
    | zero =>
      apply hc
      obtain ⟨suf, hsuf⟩ := hcl
      simp only [List.drop_zero, List.cons_append] at hsuf
      injection hsuf with hcc htail
      refine ⟨hcc, take_two_eq_iff.mpr ⟨suf, htail⟩, by simpa [prevCh] using hpr⟩
    | succ j =>
      apply h1 j (by simpa using Nat.lt_of_succ_lt_succ hj)
      refine ⟨?_, ?_⟩
      · obtain ⟨suf, hsuf⟩ := hcl
        exact ⟨suf, by simpa using hsuf⟩
      · rw [prevCh_succ, ← prevCh_cons] at hpr
        exact hpr
  · rw [show (c :: rest).length = rest.length + 1 from rfl, prevCh_succ, ← prevCh_cons]
    exact h2

theorem scanContent_exact (content : List Char) :
    ∀ (prev : Char), CloseOK prev content →
      scanContent prev (content ++ ('}' :: '#' :: ['}'])) = some (content, []) := by
  induction content with
  | nil =>
    intro prev h
    have hp : prev ≠ '\\' := by simpa [prevCh] using h.2
    simp [scanContent, hp]
  | cons c rest ih =>
    intro prev h
    have hcond : ¬ (c = '}' ∧ (rest ++ ('}' :: '#' :: ['}'])).take 2 = ['#', '}'] ∧
        prev ≠ '\\') := by
      intro ⟨hcc, htk, hpr⟩
      apply h.1 0 (by simp)
      obtain ⟨suf, hsuf⟩ := take_two_eq_iff.mp htk
      exact ⟨⟨suf, by rw [List.cons_append, List.drop_zero, hcc, hsuf]⟩,
        by simpa [prevCh] using hpr⟩
    show scanContent prev (c :: (rest ++ ('}' :: '#' :: ['}']))) = _
    unfold scanContent
    rw [if_neg hcond]
    rw [ih c (CloseOK_shift h)]

theorem scanContent_sound (s : List Char) :
    ∀ (prev : Char) (content rest : List Char),
      scanContent prev s = some (content, rest) →
      s = content ++ ('}' :: '#' :: ('}' :: rest)) ∧ CloseOK prev content := by
  induction s with
  | nil =>
    intro prev content rest h
    simp [scanContent] at h
  | cons c s' ih =>
    intro prev content rest h
    unfold scanContent at h
    by_cases hcond : (c = '}' ∧ s'.take 2 = ['#', '}'] ∧ prev ≠ '\\')
    · rw [if_pos hcond] at h
      cases h
      obtain ⟨hc, htk, hpr⟩ := hcond
      subst hc
      obtain ⟨suf, hsuf⟩ := take_two_eq_iff.mp htk
      constructor
      · rw [hsuf]
        rfl
      · exact ⟨fun j hj => by simp at hj, by simpa [prevCh] using hpr⟩
    · rw [if_neg hcond] at h
      cases hscan : scanContent c s' with
      | none => rw [hscan] at h; cases h
      | some pr =>
        rw [hscan] at h
        cases h
        obtain ⟨hs', hok⟩ := ih c pr.1 pr.2 (by rw [hscan])
        constructor
        · rw [hs']
          rfl
        · refine CloseOK_cons ?_ hok
          intro ⟨hcc, htk, hpr⟩
          apply hcond
          refine ⟨hcc, ?_, hpr⟩
          obtain ⟨suf, hsuf⟩ := take_two_eq_iff.mp htk
          rw [take_two_eq_iff]
          refine ⟨suf ++ pr.2, ?_⟩
          rw [hs']
          have hlong : pr.1 ++ ('}' :: '#' :: ('}' :: pr.2)) =
              (pr.1 ++ ('}' :: '#' :: ['}'])) ++ pr.2 := by
            simp
          rw [hlong, hsuf]
          simp

theorem takeWhile_eats (p : Char → Bool) (l : List Char) (c : Char) (r : List Char)
    (hl : ∀ x ∈ l, p x = true) (hc : p c = false) :
    (l ++ c :: r).takeWhile p = l ∧ (l ++ c :: r).drop l.length = c :: r := by
  constructor
  · induction l with
    | nil => simp [List.takeWhile_cons, hc]
    | cons a l ih =>
      rw [List.cons_append, List.takeWhile_cons, hl a (by simp)]
      rw [ih (fun x hx => hl x (by simp [hx]))]
      simp
  · exact List.drop_left _ _

theorem drop_len_takeWhile {p : Char → Bool} {s t : List Char}
    (ht : s.takeWhile p ++ t = s) : s.drop (s.takeWhile p).length = t := by
  have h2 : (s.takeWhile p ++ t).drop ((s.takeWhile p).length) = t := List.drop_left _ _
  rw [ht] at h2
  exact h2

theorem matchTokenBrace_sound (s tok r : List Char)
    (h : matchTokenBrace s = some (tok, r)) :
    s = tok ++ '{' :: r ∧ tokenShapeCode tok := by
  unfold matchTokenBrace at h
  dsimp only at h
  obtain ⟨t, ht⟩ := List.takeWhile_prefix (l := s) (p := Char.isDigit)
  rw [drop_len_takeWhile ht] at h
  have hdig : ∀ x ∈ s.takeWhile Char.isDigit, x.isDigit = true :=
    fun x hx => List.mem_takeWhile_imp hx
  cases t with
  | nil => simp at h
  | cons c r0 =>
    dsimp only at h
    by_cases hbrace : c = '{'
    · rw [if_pos hbrace] at h
      cases h
      subst hbrace
      exact ⟨ht.symm, Or.inl hdig⟩
    · rw [if_neg hbrace] at h
      by_cases hdot : c = '.'
      · rw [if_pos hdot] at h
        obtain ⟨t2, ht2⟩ := List.takeWhile_prefix (l := r0) (p := Char.isDigit)
        rw [drop_len_takeWhile ht2] at h
        have hdig2 : ∀ x ∈ r0.takeWhile Char.isDigit, x.isDigit = true :=
          fun x hx => List.mem_takeWhile_imp hx
        by_cases hne : (r0.takeWhile Char.isDigit).length ≠ 0
        · rw [if_pos hne] at h
          cases t2 with
          | nil => simp at h
          | cons c2 r2 =>
            dsimp only at h
            by_cases hb2 : c2 = '{'
            · rw [if_pos hb2] at h
              cases h
              subst hb2
              subst hdot
              constructor
              · conv_lhs => rw [← ht, ← ht2]
                simp
              · exact Or.inr ⟨s.takeWhile Char.isDigit, r0.takeWhile Char.isDigit,
                  rfl, hdig, hdig2, by
                    intro hnil
                    exact hne (by rw [hnil]; rfl)⟩
            · rw [if_neg hb2] at h
              cases h
        · rw [if_neg hne] at h
          cases h
      · rw [if_neg hdot] at h
        cases h

theorem matchTokenBrace_complete (tok r : List Char) (hshape : tokenShapeCode tok) :
    matchTokenBrace (tok ++ '{' :: r) = some (tok, r) := by
  unfold matchTokenBrace
  rcases hshape with hd | ⟨d, e, rfl, hd, he, hene⟩
  · obtain ⟨h1, h2⟩ := takeWhile_eats Char.isDigit tok '{' r hd (by decide)
    simp only [h1, h2]
    simp
  · have hassoc : (d ++ '.' :: e) ++ '{' :: r = d ++ '.' :: (e ++ '{' :: r) := by
      simp
    rw [hassoc]
    obtain ⟨h1, h2⟩ := takeWhile_eats Char.isDigit d '.' (e ++ '{' :: r) hd (by decide)
    obtain ⟨h3, h4⟩ := takeWhile_eats Char.isDigit e '{' r he (by decide)
    simp [h1, h2, h3, h4, List.length_eq_zero, hene]

theorem matchMarker_sound (s tok content rest : List Char)
    (h : matchMarker s = some (tok, content, rest)) :
    s = '{' :: '#' :: (tok ++ '{' :: (content ++ ('}' :: '#' :: ('}' :: rest)))) ∧
    tokenShapeCode tok ∧ CloseOK '{' content := by
  cases s with
  | nil => simp [matchMarker] at h
  | cons c1 s1 =>
    cases s1 with
    | nil => simp [matchMarker] at h
    | cons c2 s2 =>
      unfold matchMarker at h
      dsimp only at h
      by_cases hop : c1 = '{' ∧ c2 = '#'
      · rw [if_pos hop] at h
        obtain ⟨rfl, rfl⟩ := hop
        cases htb : matchTokenBrace s2 with
        | none => rw [htb] at h; cases h
        | some tr =>
          rw [htb] at h
          dsimp only at h
          cases hscan : scanContent '{' tr.2 with
          | none => rw [hscan] at h; cases h
          | some pr =>
            rw [hscan] at h
            cases h
            obtain ⟨hs2, hshape⟩ := matchTokenBrace_sound s2 tr.1 tr.2 (by rw [htb])
            obtain ⟨hr, hclose⟩ := scanContent_sound tr.2 '{' pr.1 pr.2 (by rw [hscan])
            refine ⟨?_, hshape, hclose⟩
            rw [hs2, hr]
      · rw [if_neg hop] at h
        cases h

theorem matchMarker_complete (tok content : List Char)
    (hshape : tokenShapeCode tok) (hclose : CloseOK '{' content) :
    matchMarker ('{' :: '#' :: (tok ++ '{' :: (content ++ ('}' :: '#' :: ['}'])))) =
      some (tok, content, []) := by
  unfold matchMarker
  dsimp only
  rw [if_pos ⟨rfl, rfl⟩]
  rw [matchTokenBrace_complete tok (content ++ ('}' :: '#' :: ['}'])) hshape]
  dsimp only
  rw [scanContent_exact content '{' hclose]

/-- C9 (amended): a string is recognised as a marker exactly when it is
`{#`, then an order token matching `\d*` or `\d*.\d+` — in particular the
integer part may be empty, so a bare fraction like `.5` also opens a
marker — then `{`, then content, then the first `}#}` not preceded by an
escape character, which terminates the string. -/
theorem c9_marker_recognition :
    ∀ s : List Char, isMarker s = true ↔ MarkerForm tokenShapeCode s := by
  intro s
  constructor
  · intro h
    unfold isMarker at h
    cases hm : matchMarker s with
    | none => rw [hm] at h; cases h
    | some tr =>
      obtain ⟨tok0, content0, rest0⟩ := tr
      rw [hm] at h
      dsimp only at h
      have hrest : rest0 = [] := by
        cases htr : rest0 with
        | nil => rfl
        | cons a l => rw [htr] at h; simp at h
      obtain ⟨heq, hshape, hclose⟩ := matchMarker_sound s tok0 content0 rest0 hm
      refine ⟨tok0, content0, hshape, hclose, ?_⟩
      rw [heq, hrest]
  · rintro ⟨tok, content, hshape, hclose, rfl⟩
    unfold isMarker
    rw [matchMarker_complete tok content hshape hclose]
    rfl

/-- C9 counterexample: `{#.5{x}#}` is recognised as a marker by the code
(`\d*` admits an empty integer part), but its token `.5` is neither `\d+`
nor `\d+.\d+`, so the claim's grammar rejects it. -/
theorem c9_counterexample :
    isMarker ("{#.5{x}#}".toList) = true ∧
      ¬ MarkerForm tokenShapeClaim ("{#.5{x}#}".toList) := by
  constructor
  · decide
  · rintro ⟨tok, content, hshape, hclose, heq⟩
    have heq2 : tok ++ '{' :: (content ++ ('}' :: '#' :: ['}'])) =
        ['.', '5', '{', 'x', '}', '#', '}'] := by
      have h2 : ('{' :: '#' :: (tok ++ '{' :: (content ++ ('}' :: '#' :: ['}']))) :
          List Char) = '{' :: '#' :: ['.', '5', '{', 'x', '}', '#', '}'] := heq.symm
      have h3 := (List.cons.injEq _ _ _ _).mp h2
      have h4 := (List.cons.injEq _ _ _ _).mp h3.2
      exact h4.2
    cases htok : tok with
    | nil =>
      rw [htok] at heq2
      injection heq2 with hc _
      exact absurd hc (by decide)
    | cons c ts =>
      rw [htok] at heq2
      injection heq2 with hc _
      rcases hshape with h0 | ⟨_, hdig⟩ | ⟨d, e, hde, hdne, _, hddig, _⟩
      · rw [htok] at h0
        cases h0
      · have hdg := hdig c (htok ▸ List.mem_cons_self c ts)
        rw [hc] at hdg
        exact absurd hdg (by decide)
      · cases hd : d with
        | nil => exact hdne hd
        | cons dc ds =>
          rw [htok, hd] at hde
          injection hde with h1 _
          have hdg := hddig dc (hd ▸ List.mem_cons_self dc ds)
          rw [← h1, hc] at hdg
          exact absurd hdg (by decide)

/-- C9 witness: the grammar equivalence applied at the concrete marker
`{#1{a}#}`, whose order token `1` satisfies the code grammar. -/
theorem c9_marker_recognition_witness :
    MarkerForm tokenShapeCode ("{#1{a}#}".toList) :=
  (c9_marker_recognition ("{#1{a}#}".toList)).mp (by decide)

/-! ## Claim C10 — property-list parser semantics

Spec-side grammar of well-formed selector strings (a list of tokens:
`[name]`, `[name=value]`, `.class`, `#id`) with a renderer to concrete
text, plus the claim's left-to-right map semantics.  The claim theorem
shows `getProperties` on any rendered token list equals the
left-to-right fold of the per-token update. -/

inductive SelToken where
  | attr (name : List Char) (value : Option (List Char))
  | cls (name : List Char)
  | hashId (name : List Char)
deriving DecidableEq, Repr

def renderToken : SelToken → List Char
  | SelToken.attr n none => '[' :: (n ++ [']'])
  | SelToken.attr n (some v) => '[' :: (n ++ '=' :: (v ++ [']']))
  | SelToken.cls n => '.' :: n
  | SelToken.hashId n => '#' :: n

def renderTokens : List SelToken → List Char
  | [] => []
  | t :: ts => renderToken t ++ renderTokens ts

/-- A well-formed name capture: nonempty, all `[\w-]`. -/
def NameOK (n : List Char) : Prop := n ≠ [] ∧ ∀ c ∈ n, wordDash c = true

/-- A well-formed attribute value: single-quoted, double-quoted, or bare
(nonempty, no `]`, no whitespace, not starting with a quote). -/
def ValueOK (v : List Char) : Prop :=
  (∃ inner, v = '\'' :: (inner ++ ['\'']) ∧ ∀ c ∈ inner, ¬ c = '\'') ∨
  (∃ inner, v = '"' :: (inner ++ ['"']) ∧ ∀ c ∈ inner, ¬ c = '"') ∨
  (v ≠ [] ∧ (∀ c ∈ v, ¬ (c = ']' ∨ c.isWhitespace)) ∧
    ∀ c, v.head? = some c → ¬ (c = '\'' ∨ c = '"'))

def TokenOK : SelToken → Prop
  | SelToken.attr n v => NameOK n ∧ ∀ w, v = some w → ValueOK w
  | SelToken.cls n => NameOK n
  | SelToken.hashId n => NameOK n

/-- The claim's left-to-right map construction: an attribute token maps
its name to the quote-stripped value, or to the empty string when no
value is present; `.class` tokens accumulate into `class` joined by
single spaces in token order; a later `#id` overwrites `id`. -/
def applySel (props : List (List Char × List Char)) : SelToken → List (List Char × List Char)
  | SelToken.attr n v =>
    objSet props n (match v with
      | some w => stripQuotes w
      | none => [])
  | SelToken.cls c =>
    (match objGet props ("class".toList) with
     | some old =>
       if old ≠ [] then objSet props ("class".toList) (old ++ ' ' :: c)
       else objSet props ("class".toList) c
     | none => objSet props ("class".toList) c)
  | SelToken.hashId i => objSet props ("id".toList) i

/-- The regex match a rendered token produces, at position `pos`. -/
def tokenMatch (pos : Nat) : SelToken → SelMatch
  | SelToken.attr n v =>
    { index := pos, length := (renderToken (SelToken.attr n v)).length,
      attrName := some n, value := v, className := none, idCap := none }
  | SelToken.cls c =>
    { index := pos, length := c.length + 1, attrName := none, value := none,
      className := some c, idCap := none }
  | SelToken.hashId i =>
    { index := pos, length := i.length + 1, attrName := none, value := none,
      className := none, idCap := some i }

def expectedMatches : Nat → List SelToken → List SelMatch
  | _, [] => []
  | pos, t :: ts => tokenMatch pos t :: expectedMatches (pos + (renderToken t).length) ts

/-- Restriction on what may follow a rendered token: nothing, or another
rendered token (which starts with `[`, `.` or `#`). -/
def RestOK : List Char → Prop
  | [] => True
  | c :: _ => c = '[' ∨ c = '.' ∨ c = '#'

theorem takeWhile_all {p : Char → Bool} :
    ∀ {l : List Char}, (∀ x ∈ l, p x = true) → l.takeWhile p = l := by
  intro l
  induction l with
  | nil => intro _; rfl
  | cons a l ih =>
    intro h
    rw [List.takeWhile_cons, h a (by simp), ih (fun x hx => h x (by simp [hx]))]
    simp

theorem takeWhile_space_nil {c : Char} (l : List Char) (h : ¬ c = ' ') :
    (c :: l).takeWhile (fun x => x = ' ') = [] := by
  simp [List.takeWhile_cons, h]

theorem renderTokens_restOK (ts : List SelToken) : RestOK (renderTokens ts) := by
  cases ts with
  | nil => trivial
  | cons t ts =>
    cases t with
    | attr n v =>
      cases v with
      | none => exact Or.inl rfl
      | some w => exact Or.inl rfl
    | cls n => exact Or.inr (Or.inl rfl)
    | hashId n => exact Or.inr (Or.inr rfl)

theorem takeWhile_wordDash_restOK {n rest : List Char}
    (hn : ∀ x ∈ n, wordDash x = true) (hr : RestOK rest) :
    (n ++ rest).takeWhile (fun c => wordDash c) = n ∧ (n ++ rest).drop n.length = rest := by
  cases rest with
  | nil =>
    rw [List.append_nil]
    exact ⟨takeWhile_all hn, by simp⟩
  | cons c r =>
    rcases hr with h | h | h <;>
      exact takeWhile_eats _ n c r hn (by rw [h]; decide)

theorem wordDash_not_space {c : Char} (h : wordDash c = true) : ¬ c = ' ' := by
  intro he
  rw [he] at h
  exact absurd h (by decide)

theorem matchAttr_render_none (n rest : List Char) (hn : NameOK n) :
    matchAttr ('[' :: (n ++ ']' :: rest)) = some (n.length + 2, n, none) := by
  obtain ⟨hne, hw⟩ := hn
  cases n with
  | nil => exact absurd rfl hne
  | cons n0 nt =>
    have hw0 : wordDash n0 = true := hw n0 (by simp)
    have hsp1 : ((n0 :: nt) ++ ']' :: rest).takeWhile (fun x => x = ' ') = [] := by
      rw [List.cons_append]
      exact takeWhile_space_nil _ (wordDash_not_space hw0)
    obtain ⟨hname, hdrop⟩ :=
      takeWhile_eats (fun c => wordDash c) (n0 :: nt) ']' rest hw (by decide)
    unfold matchAttr
    dsimp only
    rw [if_pos rfl]
    simp only [hsp1, List.length_nil, List.drop_zero, hname, hdrop]
    simp [closeBracketLen, takeWhile_space_nil rest (by decide : ¬ ']' = ' ')]
    omega

theorem closeBracketLen_hit (rest : List Char) : closeBracketLen (']' :: rest) = some 1 := by
  simp [closeBracketLen, takeWhile_space_nil rest (by decide : ¬ ']' = ' ')]

theorem quotedAlt_hit (q : Char) (inner tail : List Char) (hq : ∀ c ∈ inner, ¬ c = q) :
    quotedAlt q (q :: (inner ++ q :: tail)) = some (q :: (inner ++ [q]), tail) := by
  unfold quotedAlt
  dsimp only
  rw [if_pos rfl]
  obtain ⟨h1, h2⟩ := takeWhile_eats (fun x => ¬ x = q) inner q tail
    (fun x hx => by simp [hq x hx]) (by simp)
  simp only [h1, h2]
  simp

theorem quotedAlt_miss (q c : Char) (l : List Char) (h : ¬ c = q) :
    quotedAlt q (c :: l) = none := by
  unfold quotedAlt
  dsimp only
  rw [if_neg h]

theorem matchAttr_render_some (n v rest : List Char) (hn : NameOK n) (hv : ValueOK v) :
    matchAttr ('[' :: (n ++ '=' :: (v ++ ']' :: rest))) =
      some (n.length + v.length + 3, n, some v) := by
  obtain ⟨hne, hw⟩ := hn
  cases n with
  | nil => exact absurd rfl hne
  | cons n0 nt =>
    have hw0 : wordDash n0 = true := hw n0 (by simp)
    have hsp1 : ((n0 :: nt) ++ '=' :: (v ++ ']' :: rest)).takeWhile (fun x => x = ' ') = [] := by
      rw [List.cons_append]
      exact takeWhile_space_nil _ (wordDash_not_space hw0)
    obtain ⟨hname, hdrop⟩ :=
      takeWhile_eats (fun c => wordDash c) (n0 :: nt) '=' (v ++ ']' :: rest) hw (by decide)
    have hsp2 : ('=' :: (v ++ ']' :: rest)).takeWhile (fun x => x = ' ') = [] :=
      takeWhile_space_nil _ (by decide)
    unfold matchAttr
    dsimp only
    rw [if_pos rfl]
    simp only [hsp1, List.length_nil, List.drop_zero, hname, hdrop, hsp2]
    rcases hv with ⟨inner, rfl, hinq⟩ | ⟨inner, rfl, hinq⟩ | ⟨hvne, hvchars, hvhead⟩
    · have hr4 : ('\'' :: (inner ++ ['\''])) ++ ']' :: rest =
          '\'' :: (inner ++ '\'' :: (']' :: rest)) := by simp
      have hsp3 : (('\'' :: (inner ++ ['\''])) ++ ']' :: rest).takeWhile (fun x => x = ' ') = [] := by
        rw [List.cons_append]
        exact takeWhile_space_nil _ (by decide)
      rw [hsp3]
      dsimp only [List.length_nil, List.drop_zero]
      rw [hr4, quotedAlt_hit '\'' inner (']' :: rest) hinq]
      dsimp only
      rw [closeBracketLen_hit]
      simp
      omega
    · have hr4 : ('"' :: (inner ++ ['"'])) ++ ']' :: rest =
          '"' :: (inner ++ '"' :: (']' :: rest)) := by simp
      have hsp3 : (('"' :: (inner ++ ['"'])) ++ ']' :: rest).takeWhile (fun x => x = ' ') = [] := by
        rw [List.cons_append]
        exact takeWhile_space_nil _ (by decide)
      rw [hsp3]
      dsimp only [List.length_nil, List.drop_zero]
      rw [List.cons_append, quotedAlt_miss '\'' '"' _ (by decide)]
      rw [← List.cons_append, hr4, quotedAlt_hit '"' inner (']' :: rest) hinq]
      dsimp only
      rw [closeBracketLen_hit]
      simp
      omega
    · cases v with
      | nil => exact absurd rfl hvne
      | cons v0 vt =>
        have hv0 := hvhead v0 rfl
        have hv0s : ¬ v0 = ' ' := by
          intro he
          exact hvchars v0 (by simp) (Or.inr (by rw [he]; decide))
        have hsp3 : ((v0 :: vt) ++ ']' :: rest).takeWhile (fun x => x = ' ') = [] := by
          rw [List.cons_append]
          exact takeWhile_space_nil _ hv0s
        rw [hsp3]
        dsimp only [List.length_nil, List.drop_zero]
        rw [List.cons_append, quotedAlt_miss '\'' v0 _ (fun he => hv0 (Or.inl he)),
          quotedAlt_miss '"' v0 _ (fun he => hv0 (Or.inr he))]
        obtain ⟨hrun, hrdrop⟩ :=
          takeWhile_eats (fun c => ¬ (c = ']' ∨ c.isWhitespace)) (v0 :: vt) ']' rest
            (fun x hx => by simp only [decide_eq_true_eq]; exact hvchars x hx) (by simp)
        rw [← List.cons_append]
        simp only [hrun, hrdrop]
        simp [closeBracketLen_hit rest]
        omega

theorem matchSelectorAt_render (t : SelToken) (rest : List Char) (ht : TokenOK t)
    (hr : RestOK rest) :
    matchSelectorAt (renderToken t ++ rest) = some ((renderToken t).length, tokenMatch 0 t) := by
  cases t with
  | attr n v =>
    obtain ⟨hn, hv⟩ := ht
    cases v with
    | none =>
      have hs : renderToken (SelToken.attr n none) ++ rest = '[' :: (n ++ ']' :: rest) := by
        simp [renderToken]
      rw [hs]
      unfold matchSelectorAt
      rw [matchAttr_render_none n rest hn]
      dsimp only
      simp [tokenMatch, renderToken]
    | some w =>
      have hvw : ValueOK w := hv w rfl
      have hs : renderToken (SelToken.attr n (some w)) ++ rest =
          '[' :: (n ++ '=' :: (w ++ ']' :: rest)) := by
        simp [renderToken]
      rw [hs]
      unfold matchSelectorAt
      rw [matchAttr_render_some n w rest hn hvw]
      dsimp only
      simp [tokenMatch, renderToken]
      omega
  | cls n =>
    obtain ⟨hne, hwd⟩ := (ht : NameOK n)
    have hs : renderToken (SelToken.cls n) ++ rest = '.' :: (n ++ rest) := by
      simp [renderToken]
    rw [hs]
    unfold matchSelectorAt
    have hma : matchAttr ('.' :: (n ++ rest)) = none := by
      unfold matchAttr
      dsimp only
      rw [if_neg (by decide)]
    rw [hma]
    dsimp only
    rw [if_pos rfl]
    obtain ⟨hrun, _⟩ := takeWhile_wordDash_restOK hwd hr
    rw [hrun]
    rw [if_neg (by simp [List.length_eq_zero, hne])]
    simp [tokenMatch, renderToken]
  | hashId n =>
    obtain ⟨hne, hwd⟩ := (ht : NameOK n)
    have hs : renderToken (SelToken.hashId n) ++ rest = '#' :: (n ++ rest) := by
      simp [renderToken]
    rw [hs]
    unfold matchSelectorAt
    have hma : matchAttr ('#' :: (n ++ rest)) = none := by
      unfold matchAttr
      dsimp only
      rw [if_neg (by decide)]
    rw [hma]
    dsimp only
    rw [if_neg (by decide), if_pos rfl]
    obtain ⟨hrun, _⟩ := takeWhile_wordDash_restOK hwd hr
    rw [hrun]
    rw [if_neg (by simp [List.length_eq_zero, hne])]
    simp [tokenMatch, renderToken]

theorem renderToken_ne_nil (t : SelToken) : renderToken t ≠ [] := by
  cases t with
  | attr n v => cases v <;> simp [renderToken]
  | cls n => simp [renderToken]
  | hashId n => simp [renderToken]

theorem tokenMatch_set_index (pos : Nat) (t : SelToken) :
    { tokenMatch 0 t with index := pos } = tokenMatch pos t := by
  cases t <;> rfl

theorem selectorMatchAllGo_render :
    ∀ (ts : List SelToken) (fuel pos : Nat), (∀ t ∈ ts, TokenOK t) →
      (renderTokens ts).length ≤ fuel →
      selectorMatchAllGo fuel pos (renderTokens ts) = expectedMatches pos ts := by
  intro ts
  induction ts with
  | nil =>
    intro fuel pos _ _
    cases fuel with
    | zero => rfl
    | succ f => rfl
  | cons t ts ih =>
    intro fuel pos hok hfuel
    have hl : 1 ≤ (renderToken t).length := by
      cases ht : renderToken t with
      | nil => exact absurd ht (renderToken_ne_nil t)
      | cons c tl => simp
    have hlen : (renderTokens (t :: ts)).length =
        (renderToken t).length + (renderTokens ts).length := by
      simp [renderTokens]
    cases fuel with
    | zero =>
      exfalso
      omega
    | succ f =>
      have hm := matchSelectorAt_render t (renderTokens ts) (hok t (by simp))
        (renderTokens_restOK ts)
      obtain ⟨c, tl, hct⟩ : ∃ c tl, renderToken t = c :: tl := by
        cases h : renderToken t with
        | nil => exact absurd h (renderToken_ne_nil t)
        | cons c tl => exact ⟨c, tl, rfl⟩
      have hdropR : (renderToken t ++ renderTokens ts).drop (renderToken t).length =
          renderTokens ts := List.drop_left _ _
      show selectorMatchAllGo (f + 1) pos (renderToken t ++ renderTokens ts) =
        tokenMatch pos t :: expectedMatches (pos + (renderToken t).length) ts
      rw [hct] at hm hdropR ⊢
      rw [List.cons_append] at hm hdropR ⊢
      unfold selectorMatchAllGo
      dsimp only
      rw [hm]
      dsimp only
      rw [hdropR, tokenMatch_set_index]
      have hfr : (renderTokens ts).length ≤ f := by
        rw [hct] at hlen
        simp at hlen
        omega
      rw [ih f (pos + (c :: tl).length) (fun x hx => hok x (by simp [hx])) hfr]

theorem ValueOK_ne_nil {w : List Char} (h : ValueOK w) : w ≠ [] := by
  rcases h with ⟨inner, rfl, _⟩ | ⟨inner, rfl, _⟩ | ⟨hne, _, _⟩
  · simp
  · simp
  · exact hne

theorem getPropertiesGo_expected :
    ∀ (ts : List SelToken) (pos : Nat) (props : List (List Char × List Char)),
      (∀ t ∈ ts, TokenOK t) →
      getPropertiesGo (pos + (renderTokens ts).length) pos props (expectedMatches pos ts) =
        ts.foldl applySel props := by
  intro ts
  induction ts with
  | nil =>
    intro pos props _
    simp [getPropertiesGo, expectedMatches, renderTokens]
  | cons t ts ih =>
    intro pos props hok
    have hok' : ∀ x ∈ ts, TokenOK x := fun x hx => hok x (by simp [hx])
    have hstr : pos + (renderTokens (t :: ts)).length =
        (pos + (renderToken t).length) + (renderTokens ts).length := by
      simp [renderTokens]
      omega
    cases t with
    | attr n v =>
      obtain ⟨hn, hv⟩ := hok (SelToken.attr n v) (by simp)
      show getPropertiesGo _ pos props (tokenMatch pos (SelToken.attr n v) ::
        expectedMatches (pos + (renderToken (SelToken.attr n v)).length) ts) = _
      unfold getPropertiesGo
      dsimp only [tokenMatch]
      rw [if_neg (lt_irrefl pos)]
      cases v with
      | none =>
        dsimp only
        rw [hstr]
        exact ih _ _ hok'
      | some w =>
        have hwne : w ≠ [] := ValueOK_ne_nil (hv w rfl)
        dsimp only
        rw [if_pos hwne, hstr]
        exact ih _ _ hok'
    | cls n =>
      show getPropertiesGo _ pos props (tokenMatch pos (SelToken.cls n) ::
        expectedMatches (pos + (renderToken (SelToken.cls n)).length) ts) = _
      unfold getPropertiesGo
      dsimp only [tokenMatch]
      rw [if_neg (lt_irrefl pos)]
      rw [hstr]
      exact ih _ _ hok'
    | hashId n =>
      show getPropertiesGo _ pos props (tokenMatch pos (SelToken.hashId n) ::
        expectedMatches (pos + (renderToken (SelToken.hashId n)).length) ts) = _
      unfold getPropertiesGo
      dsimp only [tokenMatch]
      rw [if_neg (lt_irrefl pos)]
      rw [hstr]
      exact ih _ _ hok'

/-- **C10.**  For every well-formed property-list input — the rendering
of a token list of `[name]`, `[name=value]`, `.class` and `#id` tokens —
`getProperties` builds its map left to right as the fold of the
per-token update `applySel`: an attribute token maps its name to the
quote-stripped value, or to the empty string when no value is present;
`.class` tokens accumulate into a single `class` property joined by
single spaces in token order; a later `#id` overwrites an earlier one
under `id`.  (`getProperties` is a total Lean function of its input, so
the parser never throws.) -/
theorem c10_property_map (ts : List SelToken) (h : ∀ t ∈ ts, TokenOK t) :
    getProperties (renderTokens ts) = ts.foldl applySel [] := by
  unfold getProperties selectorMatchAll
  rw [selectorMatchAllGo_render ts (renderTokens ts).length 0 h (le_refl _)]
  have h2 := getPropertiesGo_expected ts 0 [] h
  simpa using h2

def c10Ts : List SelToken :=
  [SelToken.attr ("a".toList) (some ("'x y'".toList)),
   SelToken.cls ("foo".toList),
   SelToken.cls ("bar".toList),
   SelToken.hashId ("one".toList),
   SelToken.hashId ("two".toList),
   SelToken.attr ("b".toList) none]

/-- C10 witness: the fold semantics applied at a six-token list
exercising quote stripping, class accumulation, id overwriting and a
valueless attribute, plus the concrete evaluation of the same input. -/
theorem c10_property_map_witness :
    getProperties (renderTokens c10Ts) = c10Ts.foldl applySel [] ∧
      getProperties ("[a='x y'].foo.bar#one#two[b]".toList) =
        [("a".toList, "x y".toList), ("class".toList, "foo bar".toList),
         ("id".toList, "two".toList), ("b".toList, [])] := by
  constructor
  · refine c10_property_map c10Ts ?_
    intro t ht
    simp only [c10Ts, List.mem_cons, List.not_mem_nil, or_false] at ht
    rcases ht with rfl | rfl | rfl | rfl | rfl | rfl
    · exact ⟨⟨by decide, by decide⟩, fun w hw => by
        injection hw with h
        subst h
        exact Or.inl ⟨"x y".toList, by decide, by decide⟩⟩
    · exact ⟨by decide, by decide⟩
    · exact ⟨by decide, by decide⟩
    · exact ⟨by decide, by decide⟩
    · exact ⟨by decide, by decide⟩
    · exact ⟨⟨by decide, by decide⟩, fun w hw => by cases hw⟩
  · decide

/-! ## Claim C1 — end-to-end on `"{#1{fast}#} and {slow}"`

The host tokenizer splits `"fast"` into leaves `"fa"` and `"st"`; the
source tree is `<code>["fa", "st", " and {slow}"]`. -/

def c1Raw : List Char := "{#1{fast}#} and {slow}".toList

def c1Store : Store :=
  { nodes :=
      [(0, { kind := NKind.element, tagName := "code".toList, children := [1, 2, 3] }),
       (1, { kind := NKind.text, value := "fa".toList, parent := some 0, nextSibling := some 2 }),
       (2, { kind := NKind.text, value := "st".toList, parent := some 0, nextSibling := some 3 }),
       (3, { kind := NKind.text, value := " and {slow}".toList, parent := some 0 })],
    nextId := 4 }

/-- Preorder id walk over a worklist, fueled. -/
def subtreeIds (t : Store) : Nat → List Nat → List Nat
  | 0, _ => []
  | _ + 1, [] => []
  | fuel + 1, id :: rest =>
    match t.get id with
    | none => id :: subtreeIds t fuel rest
    | some nd => id :: subtreeIds t fuel (nd.children ++ rest)

/-- Flattened text content of the subtree below `id`. -/
def textContent (t : Store) (fuel : Nat) (id : Nat) : List Char :=
  (subtreeIds t fuel [id]).foldr
    (fun i acc =>
      (match t.get i with
       | some nd => if nd.kind = NKind.text then nd.value else []
       | none => []) ++ acc) []

/-- Ids of `p-fragment` wrapper elements in the subtree below `root`. -/
def wrappersIn (t : Store) (fuel : Nat) (root : Nat) : List Nat :=
  (subtreeIds t fuel [root]).filter (fun i =>
    match t.get i with
    | some nd => if nd.kind = NKind.element ∧ nd.tagName = pFragmentTag then true else false
    | none => false)

def c1Frag : Frag :=
  { index := 0, whole := "{#1{fast}#}".toList, token := "1".toList,
    content := "fast".toList }

/-- The tree `pre` produces: a fresh clone rooted at 4, with the two
`fast` leaves rewrapped under the `p-fragment` element 8. -/
def c1Out : Store :=
  { nodes :=
      [(8, { kind := NKind.element, tagName := pFragmentTag, propIndex := some ("1".toList),
             parent := some 4, nextSibling := some 7, children := [5, 6] }),
       (6, { kind := NKind.text, value := "st".toList, parent := some 8 }),
       (5, { kind := NKind.text, value := "fa".toList, parent := some 8, nextSibling := some 6 }),
       (4, { kind := NKind.element, tagName := "code".toList, children := [8, 7] }),
       (7, { kind := NKind.text, value := " and {slow}".toList, parent := some 4 }),
       (0, { kind := NKind.element, tagName := "code".toList, children := [1, 2, 3] }),
       (1, { kind := NKind.text, value := "fa".toList, parent := some 0, nextSibling := some 2 }),
       (2, { kind := NKind.text, value := "st".toList, parent := some 0, nextSibling := some 3 }),
       (3, { kind := NKind.text, value := " and {slow}".toList, parent := some 0 })],
    nextId := 9 }

/-- **C1.**  On the input text `"{#1{fast}#} and {slow}"` with `"fast"`
tokenized into the leaves `"fa"` and `"st"`: preprocessing yields the
cleaned text `"fast and {slow}"` and one fragment with token `1`;
running the `pre` phase yields a tree with exactly one `p-fragment`
wrapper element, carrying `index` property `"1"`, whose flattened text
content is exactly `"fast"`, while the literal text `" and {slow}"`
survives unchanged as the wrapper's following sibling, and the whole
tree still flattens to `"fast and {slow}"`. -/
theorem c1_end_to_end :
    (preprocess c1Raw).1 = "fast and {slow}".toList ∧
    (preprocess c1Raw).2 = [c1Frag] ∧
    pre c1Store 0 (preprocess c1Raw).2 = JRes.ok (c1Out, 4, [(c1Frag, 8)]) ∧
    wrappersIn c1Out 16 4 = [8] ∧
    (c1Out.get 8).map TNode.propIndex = some (some ("1".toList)) ∧
    textContent c1Out 16 8 = "fast".toList ∧
    (c1Out.get 4).map TNode.children = some [8, 7] ∧
    (c1Out.get 7).map TNode.value = some (" and {slow}".toList) ∧
    textContent c1Out 16 4 = "fast and {slow}".toList := by
  decide

/-! ## Claim C2 — same-node case with `startLocalIdx = 0`

`pre` destructures `const [, text] = splitText(beforeText, startRef.index)`,
taking the *second* returned node.  When the marker starts at offset 0 of
the text node, that second split returns a single node (the whole span),
so `text` is `undefined` and the marker is silently skipped even though
its span is nonempty. -/

def c2Raw : List Char := "{#{ab}#}cd".toList

def c2Store : Store :=
  { nodes :=
      [(0, { kind := NKind.element, tagName := "code".toList, children := [1] }),
       (1, { kind := NKind.text, value := "abcd".toList, parent := some 0 })],
    nextId := 2 }

def c2Frag : Frag :=
  { index := 0, whole := "{#{ab}#}".toList, token := [], content := "ab".toList }

/-- Result tree of the C2 run: the text was split into `"ab"`/`"cd"`
(ids 6 and 5) but no `p-fragment` wrapper exists; ids 3 and 4 are
detached intermediate nodes, id 0/1 the untouched source. -/
def c2Out : Store :=
  { nodes :=
      [(2, { kind := NKind.element, tagName := "code".toList, children := [6, 5] }),
       (6, { kind := NKind.text, value := "ab".toList, parent := some 2, nextSibling := some 5 }),
       (5, { kind := NKind.text, value := "cd".toList, parent := some 2 }),
       (4, { kind := NKind.text, value := "ab".toList, parent := some 2, nextSibling := some 5 }),
       (3, { kind := NKind.text, value := "abcd".toList, parent := some 2 }),
       (0, { kind := NKind.element, tagName := "code".toList, children := [1] }),
       (1, { kind := NKind.text, value := "abcd".toList, parent := some 0 })],
    nextId := 7 }

/-- **C2.**  Code bug exhibit: for the marker `{#{ab}#}` at the very
start of the text node `"abcd"`, the same-node case resolves start and
end in one node with `startLocalIdx = 0` and a nonempty span `"ab"`,
yet `pre` produces no wrapper at all (empty wrap log, no `p-fragment`
in the result): the claim's "skips the marker only when the computed
span is empty" is violated at `startLocalIdx = 0`. -/
theorem c2_same_node_skip :
    (preprocess c2Raw).1 = "abcd".toList ∧
    (preprocess c2Raw).2 = [c2Frag] ∧
    c2Frag.content = "ab".toList ∧
    pre c2Store 0 (preprocess c2Raw).2 = JRes.ok (c2Out, 2, []) ∧
    wrappersIn c2Out 16 2 = [] ∧
    textContent c2Out 16 2 = "abcd".toList := by
  decide

/-! ## Claim C3 — what the wrap precondition actually checks

`wrapNodes` verifies only pointer-level conditions: every argument's
`parent` equals the **last** argument's `parent` (which may be `null`),
and every non-last argument's `nextSibling` is the next argument.  It
never consults the parent's child array, so a parentless argument set
passes the check and is wrapped. -/


def c3Store : Store :=
  { nodes :=
      [(0, { kind := NKind.element, tagName := "code".toList, children := [1] }),
       (1, { kind := NKind.text, value := "hi".toList, parent := some 0 })],
    nextId := 2 }

def c3WStore : Store :=
  { nodes :=
      [(0, { kind := NKind.element, tagName := "code".toList, children := [1, 2, 3] }),
       (1, { kind := NKind.text, value := "a".toList, parent := some 0, nextSibling := some 2 }),
       (2, { kind := NKind.text, value := "b".toList, parent := some 0, nextSibling := some 3 }),
       (3, { kind := NKind.text, value := "c".toList, parent := some 0 })],
    nextId := 4 }

/-- The pointer-level chain condition, as a Boolean predicate. -/
def chainOk (t : Store) (par : Option Nat) : List Nat → Bool
  | [] => true
  | [c] =>
    match t.get c with
    | some cnd => cnd.parent = par
    | none => false
  | c :: c' :: rest =>
    (match t.get c with
     | some cnd => decide (cnd.parent = par) && decide (cnd.nextSibling = some c')
     | none => false) && chainOk t par (c' :: rest)

theorem wrapCheckOk_eq_chain (t : Store) (par : Option Nat) :
    ∀ cs : List Nat, (∀ c ∈ cs, (t.get c).isSome = true) →
      wrapCheckOk t par cs = some (chainOk t par cs) := by
  intro cs
  induction cs with
  | nil => intro _; rfl
  | cons c tail ih =>
    intro hpres
    cases tail with
    | nil =>
      cases hg : t.get c with
      | none =>
        have := hpres c (by simp)
        rw [hg] at this
        cases this
      | some cnd =>
        unfold wrapCheckOk chainOk
        rw [hg]
    | cons c' rest =>
      cases hg : t.get c with
      | none =>
        have := hpres c (by simp)
        rw [hg] at this
        cases this
      | some cnd =>
        unfold wrapCheckOk chainOk
        rw [hg]
        dsimp only
        by_cases hc : cnd.parent = par ∧ cnd.nextSibling = some c'
        · rw [if_pos hc]
          rw [ih (fun x hx => hpres x (by simp [hx]))]
          have h1 : (decide (cnd.parent = par) && decide (cnd.nextSibling = some c')) = true := by
            simp [hc.1, hc.2]
          rw [h1]
          simp
        · rw [if_neg hc]
          have h1 : (decide (cnd.parent = par) && decide (cnd.nextSibling = some c')) = false := by
            rcases not_and_or.mp hc with h | h <;> simp [h]
          rw [h1]
          simp

/-- **C3.**  Amended: for every call of the wrap operation on a nonempty
argument list of live nodes, the operation returns failure exactly when
the pointer-level chain condition is violated — some argument's `parent`
differs from the last argument's `parent`, or some non-last argument's
`nextSibling` is not the next argument.  The failure branch runs before
any write, so a failed call performs no mutation; but the check never
consults the parent's child array, so it is weaker than the claimed
"current, contiguous, in-order child run of a single shared parent"
(see the counterexample: a parentless set passes and is wrapped). -/
theorem c3_wrap_failure (t : Store) (tag : List Char) (cs : List Nat) (lastC : Nat)
    (lastNd : TNode) (hlast : cs.getLast? = some lastC) (hget : t.get lastC = some lastNd)
    (hpres : ∀ c ∈ cs, (t.get c).isSome = true) :
    (wrapNodes t tag cs = JRes.fail ↔ chainOk t lastNd.parent cs = false) := by
  cases cs with
  | nil => cases hlast
  | cons c0 tail =>
    unfold wrapNodes
    dsimp only
    rw [hlast]
    dsimp only
    rw [hget]
    dsimp only
    rw [wrapCheckOk_eq_chain t lastNd.parent (c0 :: tail) hpres]
    cases hch : chainOk t lastNd.parent (c0 :: tail) with
    | true => simp
    | false => simp

/-- C3 counterexample: wrapping the single parentless root node is *not*
wrapping a child run of any shared parent, yet the operation succeeds
and mutates the tree: the root's `parent` now points at the new wrapper
(id 2), which adopted it as its only child. -/
theorem c3_counterexample :
    wrapNodes c3Store pFragmentTag [0] =
      JRes.ok
        ({ nodes :=
             [(0, { kind := NKind.element, tagName := "code".toList, parent := some 2,
                    children := [1] }),
              (2, { kind := NKind.element, tagName := pFragmentTag, children := [0] }),
              (1, { kind := NKind.text, value := "hi".toList, parent := some 0 })],
           nextId := 3 }, 2) ∧
    (c3Store.get 0).map TNode.parent = some none := by
  decide

/-- C3 witness: wrapping the non-contiguous child pair `[1, 3]` of a
parent with children `[1, 2, 3]` fails, by the theorem applied at that
concrete call. -/
theorem c3_wrap_failure_witness :
    wrapNodes c3WStore pFragmentTag [1, 3] = JRes.fail :=
  (c3_wrap_failure c3WStore pFragmentTag [1, 3] 3
      { kind := NKind.text, value := "c".toList, parent := some 0 }
      (by decide) (by decide) (by decide)).mpr (by decide)

/-! ## Claim C8 — common-ancestor reflexivity and symmetry -/

/-- The parent chain of `x`: `x`, its parent, … up to the first node with
no parent.  `none` when a node is missing or the fuel runs out (a parent
cycle). -/
def upChain (t : Store) : Nat → Nat → Option (List Nat)
  | 0, _ => none
  | fuel + 1, x =>
    match t.get x with
    | none => none
    | some nd =>
      match nd.parent with
      | none => some [x]
      | some p =>
        match upChain t fuel p with
        | some l => some (x :: l)
        | none => none

theorem upChain_inv {t : Store} {fl b : Nat} {lb : List Nat}
    (h : upChain t fl b = some lb) :
    ∃ fl2 nd, fl = fl2 + 1 ∧ t.get b = some nd ∧
      ((nd.parent = none ∧ lb = [b]) ∨
       (∃ p rest, nd.parent = some p ∧ upChain t fl2 p = some rest ∧ lb = b :: rest)) := by
  cases fl with
  | zero => cases h
  | succ fl2 =>
    unfold upChain at h
    cases hg : t.get b with
    | none => rw [hg] at h; cases h
    | some nd =>
      rw [hg] at h
      dsimp only at h
      cases hp : nd.parent with
      | none =>
        rw [hp] at h
        dsimp only at h
        injection h with h2
        subst h2
        exact ⟨fl2, nd, rfl, rfl, Or.inl ⟨hp, rfl⟩⟩
      | some p =>
        rw [hp] at h
        dsimp only at h
        cases hup : upChain t fl2 p with
        | none => rw [hup] at h; cases h
        | some rest =>
          rw [hup] at h
          dsimp only at h
          injection h with h2
          subst h2
          exact ⟨fl2, nd, rfl, rfl, Or.inr ⟨p, rest, hp, hup, rfl⟩⟩

theorem upChain_head {t : Store} {fl b : Nat} {lb : List Nat}
    (h : upChain t fl b = some lb) : lb.head? = some b := by
  obtain ⟨fl2, nd, rfl, hg, hcase⟩ := upChain_inv h
  rcases hcase with ⟨_, rfl⟩ | ⟨p, rest, _, _, rfl⟩ <;> rfl

theorem upChain_mono {t : Store} :
    ∀ {f f2 : Nat}, f ≤ f2 → ∀ {x : Nat} {l : List Nat},
      upChain t f x = some l → upChain t f2 x = some l := by
  intro f
  induction f with
  | zero => intro f2 _ x l h; cases h
  | succ g ih =>
    intro f2 hf x l h
    cases f2 with
    | zero => omega
    | succ g2 =>
      obtain ⟨fl2, nd, hfl, hg, hcase⟩ := upChain_inv h
      have hfl2 : fl2 = g := by omega
      subst hfl2
      unfold upChain
      rw [hg]
      dsimp only
      rcases hcase with ⟨hp, rfl⟩ | ⟨p, rest, hp, hup, rfl⟩
      · rw [hp]
      · rw [hp]
        dsimp only
        rw [ih (by omega) hup]

theorem upChain_det {t : Store} {f f2 x : Nat} {l l2 : List Nat}
    (h : upChain t f x = some l) (h2 : upChain t f2 x = some l2) : l = l2 := by
  have e1 := upChain_mono (Nat.le_max_left f f2) h
  have e2 := upChain_mono (Nat.le_max_right f f2) h2
  rw [e1] at e2
  exact Option.some.inj e2

theorem upChain_suffix {t : Store} :
    ∀ {f x : Nat} {l : List Nat}, upChain t f x = some l →
      ∀ y ∈ l, ∃ s, upChain t f y = some s ∧ s.IsSuffix l := by
  intro f
  induction f with
  | zero => intro x l h; cases h
  | succ g ih =>
    intro x l h y hy
    obtain ⟨fl2, nd, hfl, hg, hcase⟩ := upChain_inv h
    have hfl2 : fl2 = g := by omega
    subst hfl2
    rcases hcase with ⟨hp, rfl⟩ | ⟨p, rest, hp, hup, rfl⟩
    · rcases List.mem_singleton.mp hy with rfl
      exact ⟨[y], h, List.suffix_refl _⟩
    · rcases List.mem_cons.mp hy with rfl | hy2
      · exact ⟨y :: rest, h, List.suffix_refl _⟩
      · obtain ⟨s, hs, hsuf⟩ := ih hup y hy2
        exact ⟨s, upChain_mono (by omega) hs, hsuf.trans (List.suffix_cons x rest)⟩

theorem upChain_nodup {t : Store} :
    ∀ {f x : Nat} {l : List Nat}, upChain t f x = some l → l.Nodup := by
  intro f
  induction f with
  | zero => intro x l h; cases h
  | succ g ih =>
    intro x l h
    obtain ⟨fl2, nd, hfl, hg, hcase⟩ := upChain_inv h
    have hfl2 : fl2 = g := by omega
    subst hfl2
    rcases hcase with ⟨hp, rfl⟩ | ⟨p, rest, hp, hup, rfl⟩
    · simp
    · refine List.nodup_cons.mpr ⟨?_, ih hup⟩
      intro hx
      obtain ⟨s, hs, hsuf⟩ := upChain_suffix hup x hx
      have : s = x :: rest := upChain_det hs (upChain_mono (Nat.le_refl _) h)
      subst this
      have := hsuf.length_le
      simp at this

theorem includesNode_spec (t : Store) :
    ∀ (n : Nat) (anc b fl : Nat) (lb : List Nat),
      upChain t fl b = some lb → lb.length ≤ n →
      includesNode t n anc b = JRes.ok (decide (anc ∈ lb)) := by
  intro n
  induction n with
  | zero =>
    intro anc b fl lb hb hn
    obtain ⟨fl2, nd, hfl, hg, hcase⟩ := upChain_inv hb
    rcases hcase with ⟨_, rfl⟩ | ⟨p, rest, _, _, rfl⟩ <;> simp at hn
  | succ n ih =>
    intro anc b fl lb hb hn
    obtain ⟨fl2, nd, hfl, hg, hcase⟩ := upChain_inv hb
    unfold includesNode
    by_cases hba : b = anc
    · rw [if_pos hba]
      have hmem : anc ∈ lb := by
        rcases hcase with ⟨_, rfl⟩ | ⟨p, rest, _, _, rfl⟩ <;> simp [← hba]
      simp [hmem]
    · rw [if_neg hba, hg]
      dsimp only
      rcases hcase with ⟨hp, rfl⟩ | ⟨p, rest, hp, hup, rfl⟩
      · rw [hp]
        dsimp only
        have hne : ¬ anc = b := fun e => hba e.symm
        simp [hne]
      · rw [hp]
        dsimp only
        rw [ih anc p fl2 rest hup (by simp at hn; omega)]
        have hiff : (anc ∈ b :: rest) ↔ (anc ∈ rest) := by
          constructor
          · intro hm
            rcases List.mem_cons.mp hm with e | hm2
            · exact absurd e.symm hba
            · exact hm2
          · exact fun hm => List.mem_cons_of_mem _ hm
        rw [decide_eq_decide.mpr hiff]

theorem climbCommon_spec (t : Store) (fuelI : Nat) (b : Nat) (lb : List Nat) (flb : Nat)
    (hb : upChain t flb b = some lb) (hfi : lb.length ≤ fuelI) :
    ∀ (n x flx : Nat) (lx : List Nat),
      upChain t flx x = some lx → lx.length + 1 ≤ n →
      climbCommon t fuelI b n (some x) =
        JRes.ok (lx.find? (fun y => decide (y ∈ lb))) := by
  intro n
  induction n with
  | zero =>
    intro x flx lx hx hn
    omega
  | succ n ih =>
    intro x flx lx hx hn
    unfold climbCommon
    rw [includesNode_spec t fuelI x b flb lb hb hfi]
    obtain ⟨fl2, nd, hfl, hg, hcase⟩ := upChain_inv hx
    by_cases hxin : x ∈ lb
    · rw [decide_eq_true hxin]
      dsimp only
      obtain ⟨rest, rfl⟩ : ∃ rest, lx = x :: rest := by
        rcases hcase with ⟨_, rfl⟩ | ⟨p, rest, _, _, rfl⟩
        · exact ⟨[], rfl⟩
        · exact ⟨rest, rfl⟩
      rw [List.find?_cons_of_pos _ (by simp [hxin])]
    · rw [decide_eq_false hxin]
      dsimp only
      rw [hg]
      dsimp only
      rcases hcase with ⟨hp, rfl⟩ | ⟨p, rest, hp, hup, rfl⟩
      · rw [hp]
        cases n with
        | zero => simp at hn
        | succ m =>
          unfold climbCommon
          rw [List.find?_cons_of_neg _ (by simp [hxin])]
          rfl
      · rw [hp]
        rw [ih p fl2 rest hup (by simp at hn; omega)]
        rw [List.find?_cons_of_neg _ (by simp [hxin])]

theorem getCommonAncestor_spec (t : Store) (fuel a b fla flb : Nat)
    (la lb : List Nat)
    (ha : upChain t fla a = some la) (hb : upChain t flb b = some lb)
    (hfa : la.length + 1 ≤ fuel) (hfb : lb.length ≤ fuel) :
    getCommonAncestor t fuel a b = JRes.ok (la.find? (fun y => decide (y ∈ lb))) := by
  unfold getCommonAncestor
  exact climbCommon_spec t fuel b lb flb hb hfb fuel a fla la ha hfa

theorem find?_decomp {p : Nat → Bool} {l : List Nat} {a : Nat} (h : l.find? p = some a) :
    ∃ pre suf, l = pre ++ a :: suf ∧ ∀ y ∈ pre, ¬ p y = true := by
  induction l with
  | nil => cases h
  | cons c l ih =>
    by_cases hc : p c = true
    · rw [List.find?_cons_of_pos _ hc] at h
      injection h with h2
      subst h2
      exact ⟨[], l, rfl, by simp⟩
    · rw [List.find?_cons_of_neg _ hc] at h
      obtain ⟨pre, suf, rfl, hpre⟩ := ih h
      refine ⟨c :: pre, suf, rfl, ?_⟩
      intro y hy
      rcases List.mem_cons.mp hy with rfl | hy2
      · exact hc
      · exact hpre y hy2

theorem find?_of_decomp {p : Nat → Bool} {l pre suf : List Nat} {a : Nat}
    (hl : l = pre ++ a :: suf) (hpre : ∀ y ∈ pre, ¬ p y = true) (ha : p a = true) :
    l.find? p = some a := by
  subst hl
  rw [List.find?_append, List.find?_eq_none.mpr hpre]
  rw [List.find?_cons_of_pos _ ha]
  rfl

theorem nodup_split_unique {x : Nat} :
    ∀ {p1 : List Nat} {t1 : List Nat} {p2 t2 : List Nat},
      (p1 ++ x :: t1).Nodup → p1 ++ x :: t1 = p2 ++ x :: t2 → p1 = p2 ∧ t1 = t2 := by
  intro p1
  induction p1 with
  | nil =>
    intro t1 p2 t2 hnd heq
    rw [List.nil_append] at hnd heq
    cases p2 with
    | nil =>
      rw [List.nil_append] at heq
      injection heq with _ h2
      exact ⟨rfl, h2⟩
    | cons z p2t =>
      rw [List.cons_append] at heq
      injection heq with h1 h2
      subst h1
      rw [List.nodup_cons] at hnd
      exact absurd (by rw [h2]; simp : x ∈ t1) hnd.1
  | cons z p1t ih =>
    intro t1 p2 t2 hnd heq
    cases p2 with
    | nil =>
      rw [List.cons_append, List.nil_append] at heq
      injection heq with h1 h2
      subst h1
      rw [List.cons_append, List.nodup_cons] at hnd
      exact absurd (by simp : z ∈ p1t ++ z :: t1) hnd.1
    | cons w p2t =>
      rw [List.cons_append, List.cons_append] at heq
      injection heq with h1 h2
      subst h1
      rw [List.cons_append, List.nodup_cons] at hnd
      obtain ⟨h3, h4⟩ := ih hnd.2 h2
      exact ⟨by rw [h3], h4⟩

theorem find_mem_symm {la lb : List Nat} (hna : la.Nodup) (hnb : lb.Nodup)
    (hcs : ∀ x, x ∈ la → x ∈ lb →
      ∃ s : List Nat, s.IsSuffix la ∧ s.IsSuffix lb ∧ s.head? = some x) :
    la.find? (fun y => decide (y ∈ lb)) = lb.find? (fun y => decide (y ∈ la)) := by
  cases hfa : la.find? (fun y => decide (y ∈ lb)) with
  | none =>
    cases hfb : lb.find? (fun y => decide (y ∈ la)) with
    | none => rfl
    | some y =>
      have hy1 : y ∈ lb := List.mem_of_find?_eq_some hfb
      have hy2 : y ∈ la := by simpa using List.find?_some hfb
      have := List.find?_eq_none.mp hfa y hy2
      simp [hy1] at this
  | some x =>
    have hx_la : x ∈ la := List.mem_of_find?_eq_some hfa
    have hx_lb : x ∈ lb := by simpa using List.find?_some hfa
    obtain ⟨preA, sufA, hla, hpreA⟩ := find?_decomp hfa
    obtain ⟨s, hsa, hsb, hhead⟩ := hcs x hx_la hx_lb
    obtain ⟨s2, rfl⟩ : ∃ s2, s = x :: s2 := by
      cases s with
      | nil => cases hhead
      | cons u v =>
        have : u = x := by simpa using hhead
        subst this
        exact ⟨v, rfl⟩
    obtain ⟨preB, hlb⟩ := hsb
    obtain ⟨preA2, hla2⟩ := hsa
    have hsplit := nodup_split_unique (hla ▸ hna) (hla.symm.trans hla2.symm)
    symm
    refine find?_of_decomp hlb.symm ?_ (by simp [hx_la])
    intro y hy
    simp only [decide_eq_true_eq, Bool.not_eq_true]
    by_contra hcon
    have hy_la : y ∈ la := by
      simpa using hcon
    rw [hla] at hy_la
    rcases List.mem_append.mp hy_la with hyA | hyXS
    · have := hpreA y hyA
      have hy_lb : y ∈ lb := by rw [← hlb]; simp [hy]
      simp [hy_lb] at this
    · have hys : y ∈ x :: s2 := by rw [hsplit.2] at hyXS; exact hyXS
      have hlb_nd : (preB ++ x :: s2).Nodup := by rw [hlb]; exact hnb
      rw [List.nodup_append] at hlb_nd
      exact hlb_nd.2.2 hy hys

def c8Store : Store :=
  { nodes :=
      [(0, { kind := NKind.element, tagName := "code".toList, children := [1, 2, 3] }),
       (1, { kind := NKind.text, value := "a".toList, parent := some 0, nextSibling := some 2 }),
       (2, { kind := NKind.text, value := "b".toList, parent := some 0, nextSibling := some 3 }),
       (3, { kind := NKind.text, value := "c".toList, parent := some 0 })],
    nextId := 4 }

/-- **C8.**  For every node `a` whose parent chain exists (reaches a
parentless node without cycling), `getCommonAncestor(a, a)` returns `a`
itself; and for every pair `a, b` with existing parent chains and enough
fuel for both, `getCommonAncestor(a, b)` and `getCommonAncestor(b, a)`
return the same result: both compute the first element of one chain
that lies on the other, and by the common-suffix structure of parent
chains that element is the same from either side. -/
theorem c8_common_ancestor (t : Store) (fuel a b fla flb : Nat) (la lb : List Nat)
    (ha : upChain t fla a = some la) (hb : upChain t flb b = some lb)
    (hfa : la.length + 1 ≤ fuel) (hfb : lb.length + 1 ≤ fuel) :
    getCommonAncestor t fuel a a = JRes.ok (some a) ∧
    getCommonAncestor t fuel a b = getCommonAncestor t fuel b a := by
  constructor
  · rw [getCommonAncestor_spec t fuel a a fla fla la la ha ha hfa (by omega)]
    obtain ⟨rest, rfl⟩ : ∃ rest, la = a :: rest := by
      have hh := upChain_head ha
      cases la with
      | nil => cases hh
      | cons u v =>
        have : u = a := by simpa using hh
        subst this
        exact ⟨v, rfl⟩
    rw [List.find?_cons_of_pos _ (by simp)]
  · rw [getCommonAncestor_spec t fuel a b fla flb la lb ha hb hfa (by omega),
        getCommonAncestor_spec t fuel b a flb fla lb la hb ha hfb (by omega)]
    refine congrArg JRes.ok (find_mem_symm (upChain_nodup ha) (upChain_nodup hb) ?_)
    intro x hxa hxb
    obtain ⟨sa, hsa, hsufa⟩ := upChain_suffix ha x hxa
    obtain ⟨sb, hsb, hsufb⟩ := upChain_suffix hb x hxb
    have hsab : sa = sb := upChain_det hsa hsb
    subst hsab
    exact ⟨sa, hsufa, hsufb, upChain_head hsa⟩

/-- C8 witness: the theorem at the concrete four-node tree, nodes 1 and
3 (chains `[1, 0]` and `[3, 0]`, fuel 5). -/
theorem c8_common_ancestor_witness :
    getCommonAncestor c8Store 5 1 1 = JRes.ok (some 1) ∧
    getCommonAncestor c8Store 5 1 3 = getCommonAncestor c8Store 5 3 1 :=
  c8_common_ancestor c8Store 5 1 3 2 2 [1, 0] [3, 0] (by decide) (by decide)
    (by decide) (by decide)

/-! ## Claim C5 — `pre` clones; it does not mutate in place

The driver's first act is `buildTree`, which deep-clones the host tree
into fresh ids; all subsequent splits and wraps stay inside the clone
region `[t.nextId, ∞)`.  The machinery below proves a region-closure
invariant (`RegionOK`) and a per-operation step contract (`StepOK`):
entries below the region are never touched, `nextId` is monotone, and
the identifying fields of pre-existing nodes survive every step. -/

/-- All pointers of a node record lie in `[lo, hi)` (or are absent). -/
def PtrsIn (lo hi : Nat) (x : TNode) : Prop :=
  (∀ c ∈ x.children, lo ≤ c ∧ c < hi) ∧
  (∀ p, x.parent = some p → lo ≤ p ∧ p < hi) ∧
  (∀ s, x.nextSibling = some s → lo ≤ s ∧ s < hi)

/-- The clone region `[lo, t.nextId)` is closed: every live node with id
at least `lo` has its id below `nextId` and all its pointers inside the
region. -/
def RegionOK (lo : Nat) (t : Store) : Prop :=
  lo ≤ t.nextId ∧
  ∀ id nd, t.get id = some nd → lo ≤ id → id < t.nextId ∧ PtrsIn lo t.nextId nd

/-- What one driver step guarantees relative to the region bound `lo`:
the region stays closed, entries below `lo` are untouched, `nextId` is
monotone, and the identifying fields (`kind`, `tagName`, `propIndex`) of
every pre-existing node survive. -/
def StepOK (lo : Nat) (t t2 : Store) : Prop :=
  RegionOK lo t2 ∧
  (∀ j, j < lo → t2.get j = t.get j) ∧
  t.nextId ≤ t2.nextId ∧
  (∀ id nd, t.get id = some nd → id < t.nextId →
     ∃ nd2, t2.get id = some nd2 ∧ nd2.kind = nd.kind ∧ nd2.tagName = nd.tagName ∧
       nd2.propIndex = nd.propIndex)

theorem stepOK_refl {lo : Nat} {t : Store} (h : RegionOK lo t) : StepOK lo t t :=
  ⟨h, fun _ _ => rfl, Nat.le_refl _, fun _ nd hg _ => ⟨nd, hg, rfl, rfl, rfl⟩⟩

theorem stepOK_trans {lo : Nat} {t t1 t2 : Store}
    (h1 : StepOK lo t t1) (h2 : StepOK lo t1 t2) : StepOK lo t t2 := by
  obtain ⟨hr1, hf1, hn1, hp1⟩ := h1
  obtain ⟨hr2, hf2, hn2, hp2⟩ := h2
  refine ⟨hr2, fun j hj => (hf2 j hj).trans (hf1 j hj), Nat.le_trans hn1 hn2, ?_⟩
  intro id nd hg hlt
  obtain ⟨nd1, hg1, e1, e2, e3⟩ := hp1 id nd hg hlt
  obtain ⟨nd2, hg2, f1, f2, f3⟩ := hp2 id nd1 hg1 (by omega)
  exact ⟨nd2, hg2, f1.trans e1, f2.trans e2, f3.trans e3⟩

theorem Store.modify_nextId (t : Store) (id : Nat) (f : TNode → TNode) :
    (t.modify id f).nextId = t.nextId := by
  unfold Store.modify
  cases t.get id <;> rfl

theorem Store.get_modify_self (t : Store) (id : Nat) (f : TNode → TNode) {nd : TNode}
    (h : t.get id = some nd) : (t.modify id f).get id = some (f nd) := by
  unfold Store.modify
  rw [h]
  exact Store.get_set_self t id (f nd)

/-- A `modify` with a field-preserving, region-respecting function on a
region id is one driver step. -/
theorem stepOK_modify {lo : Nat} {t : Store} {id : Nat} (f : TNode → TNode)
    (hreg : RegionOK lo t) (hid : lo ≤ id)
    (hfields : ∀ x, (f x).kind = x.kind ∧ (f x).tagName = x.tagName ∧
      (f x).propIndex = x.propIndex)
    (hptrs : ∀ x, PtrsIn lo t.nextId x → PtrsIn lo t.nextId (f x)) :
    StepOK lo t (t.modify id f) := by
  obtain ⟨hle, hcl⟩ := hreg
  refine ⟨⟨by rw [Store.modify_nextId]; exact hle, ?_⟩, ?_, ?_, ?_⟩
  · intro i nd hg hi
    rw [Store.modify_nextId]
    by_cases hii : i = id
    · subst hii
      cases hg0 : t.get i with
      | none =>
        have hnop : t.modify i f = t := by unfold Store.modify; rw [hg0]
        rw [hnop] at hg
        exact hcl i nd hg hi
      | some nd0 =>
        rw [Store.get_modify_self t i f hg0] at hg
        injection hg with hnd
        subst hnd
        obtain ⟨hlt, hp⟩ := hcl i nd0 hg0 hi
        exact ⟨hlt, hptrs nd0 hp⟩
    · rw [Store.get_modify_ne t f hii] at hg
      exact hcl i nd hg hi
  · intro j hj
    exact Store.get_modify_ne t f (by omega)
  · rw [Store.modify_nextId]
  · intro i nd hg hlt
    by_cases hii : i = id
    · subst hii
      refine ⟨f nd, Store.get_modify_self t i f hg, ?_, ?_, ?_⟩ <;>
        simp [hfields nd]
    · rw [Store.get_modify_ne t f hii]
      exact ⟨nd, hg, rfl, rfl, rfl⟩

/-- Allocating a node whose pointers stay in the (grown) region is one
driver step. -/
theorem stepOK_alloc {lo : Nat} {t : Store} (nd : TNode)
    (hreg : RegionOK lo t) (hnd : PtrsIn lo (t.nextId + 1) nd) :
    StepOK lo t (t.alloc nd).1 := by
  obtain ⟨hle, hcl⟩ := hreg
  have hnx : (t.alloc nd).1.nextId = t.nextId + 1 := rfl
  refine ⟨⟨by omega, ?_⟩, ?_, ?_, ?_⟩
  · intro i nd2 hg hi
    rw [hnx]
    by_cases hii : i = t.nextId
    · subst hii
      rw [Store.get_alloc_at] at hg
      injection hg with hnd2
      subst hnd2
      exact ⟨by omega, hnd⟩
    · rw [Store.get_alloc_ne t nd hii] at hg
      obtain ⟨hlt, hp⟩ := hcl i nd2 hg hi
      refine ⟨by omega, ?_, ?_, ?_⟩
      · exact fun c hc => ⟨(hp.1 c hc).1, by have := (hp.1 c hc).2; omega⟩
      · exact fun p hp2 => ⟨(hp.2.1 p hp2).1, by have := (hp.2.1 p hp2).2; omega⟩
      · exact fun s hs => ⟨(hp.2.2 s hs).1, by have := (hp.2.2 s hs).2; omega⟩
  · intro j hj
    exact Store.get_alloc_ne t nd (by omega)
  · rw [hnx]; omega
  · intro i nd2 hg hlt
    rw [Store.get_alloc_ne t nd (by omega)]
    exact ⟨nd2, hg, rfl, rfl, rfl⟩

theorem mem_jsSlice {l : List α} {a b : Int} {x : α} (h : x ∈ jsSlice l a b) : x ∈ l :=
  List.mem_of_mem_take (List.mem_of_mem_drop h |> id) |> id

theorem mem_jsSliceFrom {l : List α} {a : Int} {x : α} (h : x ∈ jsSliceFrom l a) : x ∈ l :=
  List.mem_of_mem_drop h

theorem mem_jsSplice {l items : List α} {a : Int} {k : Nat} {x : α}
    (h : x ∈ jsSplice l a k items) : x ∈ l ∨ x ∈ items := by
  unfold jsSplice at h
  rcases List.mem_append.mp h with h1 | h2
  · rcases List.mem_append.mp h1 with h3 | h4
    · exact Or.inl (List.mem_of_mem_take h3)
    · exact Or.inr h4
  · exact Or.inl (List.mem_of_mem_drop h2)

/-- Repointing `parent` of region ids to a region owner is a driver step. -/
theorem stepOK_reparent {lo : Nat} {owner : Nat} :
    ∀ (cs : List Nat) (t : Store), RegionOK lo t →
      (∀ c ∈ cs, lo ≤ c) → lo ≤ owner → owner < t.nextId →
      StepOK lo t (reparent t cs owner) := by
  intro cs
  induction cs with
  | nil => intro t hreg _ _ _; exact stepOK_refl hreg
  | cons c cs ih =>
    intro t hreg hcs ho ho2
    unfold reparent
    rw [List.foldl_cons]
    have hstep : StepOK lo t (t.modify c (fun x => { x with parent := some owner })) := by
      refine stepOK_modify _ hreg (hcs c (by simp)) (fun x => ⟨rfl, rfl, rfl⟩) ?_
      intro x hx
      exact ⟨hx.1, fun p hp => by injection hp with hp; omega, hx.2.2⟩
    refine stepOK_trans hstep ?_
    have hnx : (t.modify c (fun x => { x with parent := some owner })).nextId = t.nextId :=
      Store.modify_nextId t c _
    exact ih _ hstep.1 (fun x hx => hcs x (by simp [hx])) ho (by omega)

/-- Rethreading the sibling chain along a list of region ids is a driver
step. -/
theorem stepOK_fixChain {lo : Nat} :
    ∀ (ks : List Nat) (t : Store), RegionOK lo t →
      (∀ k ∈ ks, lo ≤ k ∧ k < t.nextId) →
      StepOK lo t (fixChain t ks) := by
  intro ks
  induction ks with
  | nil => intro t hreg _; exact stepOK_refl hreg
  | cons k ks ih =>
    intro t hreg hks
    cases ks with
    | nil =>
      refine stepOK_modify _ hreg (hks k (by simp)).1 (fun x => ⟨rfl, rfl, rfl⟩) ?_
      intro x hx
      exact ⟨hx.1, hx.2.1, fun s hs => by cases hs⟩
    | cons k2 ks2 =>
      unfold fixChain
      have hstep : StepOK lo t
          (t.modify k (fun x => { x with nextSibling := some k2 })) := by
        refine stepOK_modify _ hreg (hks k (by simp)).1 (fun x => ⟨rfl, rfl, rfl⟩) ?_
        intro x hx
        refine ⟨hx.1, hx.2.1, fun s hs => ?_⟩
        injection hs with hs
        subst hs
        exact hks k2 (by simp)
      refine stepOK_trans hstep ?_
      have hnx := Store.modify_nextId t k (fun x => { x with nextSibling := some k2 })
      refine ih _ hstep.1 ?_
      intro x hx
      have := hks x (by simp [hx])
      omega

theorem ptrsIn_mono {lo hi hi2 : Nat} {x : TNode} (h : PtrsIn lo hi x) (hle : hi ≤ hi2) :
    PtrsIn lo hi2 x := by
  refine ⟨fun c hc => ?_, fun p hp => ?_, fun s hs => ?_⟩
  · have := h.1 c hc; omega
  · have := h.2.1 p hp; omega
  · have := h.2.2 s hs; omega

theorem stepOK_spliceIntoParent {lo : Nat} {t1 : Store} {nd : TNode} {id : Nat}
    {ids : List Nat} {t2 : Store} {ids2 : List Nat}
    (hreg : RegionOK lo t1) (hnd : PtrsIn lo t1.nextId nd)
    (hids : ∀ i ∈ ids, lo ≤ i ∧ i < t1.nextId)
    (hs : spliceIntoParent t1 nd id ids = JRes.ok (t2, ids2)) :
    StepOK lo t1 t2 := by
  unfold spliceIntoParent at hs
  cases hp : nd.parent with
  | none =>
    rw [hp] at hs
    cases hs
    exact stepOK_refl hreg
  | some p =>
    rw [hp] at hs
    dsimp only at hs
    cases hq : t1.get p with
    | none => rw [hq] at hs; cases hs
    | some pnd =>
      rw [hq] at hs
      dsimp only at hs
      injection hs with hs
      injection hs with hs1 hs2
      subst hs1
      have hpb := hreg.2 p pnd hq (hnd.2.1 p hp).1
      have hnewSib : ∀ s,
          (match ids.head? with
           | some i => some i
           | none => nd.nextSibling) = some s → lo ≤ s ∧ s < t1.nextId := by
        intro s hms
        cases hh : ids.head? with
        | some i =>
          rw [hh] at hms
          injection hms with e
          subst e
          exact hids i (List.mem_of_mem_head? hh)
        | none =>
          rw [hh] at hms
          exact hnd.2.2 s hms
      have hmid : StepOK lo t1
          (if 0 < jsIndexOf pnd.children id then
            match pnd.children.get? ((jsIndexOf pnd.children id).toNat - 1) with
            | some prev => t1.modify prev (fun x =>
                { x with nextSibling :=
                    match ids.head? with
                    | some i => some i
                    | none => nd.nextSibling })
            | none => t1
          else t1) := by
        split
        · split
          · rename_i prev hprev
            refine stepOK_modify _ hreg ?_ (fun x => ⟨rfl, rfl, rfl⟩) ?_
            · exact (hpb.2.1 prev (List.get?_mem hprev)).1
            · intro x hx
              exact ⟨hx.1, hx.2.1, fun s hms => hnewSib s hms⟩
          · exact stepOK_refl hreg
        · exact stepOK_refl hreg
      refine stepOK_trans hmid ?_
      have hnxmid : (if 0 < jsIndexOf pnd.children id then
            match pnd.children.get? ((jsIndexOf pnd.children id).toNat - 1) with
            | some prev => t1.modify prev (fun x =>
                { x with nextSibling :=
                    match ids.head? with
                    | some i => some i
                    | none => nd.nextSibling })
            | none => t1
          else t1).nextId = t1.nextId := by
        split
        · split
          · exact Store.modify_nextId _ _ _
          · rfl
        · rfl
      refine stepOK_modify _ hmid.1 (hnd.2.1 p hp).1 (fun x => ⟨rfl, rfl, rfl⟩) ?_
      intro x hx
      rw [hnxmid] at hx ⊢
      refine ⟨?_, hx.2.1, hx.2.2⟩
      intro c hc
      rcases mem_jsSplice hc with h1 | h2
      · exact hx.1 c h1
      · exact hids c h2

theorem stepOK_alloc2 {lo : Nat} {t : Store} (nd1 nd2 : TNode)
    (hreg : RegionOK lo t) (h1 : PtrsIn lo (t.nextId + 2) nd1)
    (h2 : PtrsIn lo (t.nextId + 2) nd2) :
    StepOK lo t ((t.alloc nd1).1.alloc nd2).1 := by
  obtain ⟨hle, hcl⟩ := hreg
  have hn1 : (t.alloc nd1).1.nextId = t.nextId + 1 := rfl
  have hn2 : ((t.alloc nd1).1.alloc nd2).1.nextId = t.nextId + 2 := by
    rw [show ((t.alloc nd1).1.alloc nd2).1.nextId = (t.alloc nd1).1.nextId + 1 from rfl, hn1]
  have hget : ∀ j, j ≠ t.nextId → j ≠ t.nextId + 1 →
      ((t.alloc nd1).1.alloc nd2).1.get j = t.get j := by
    intro j hj1 hj2
    rw [Store.get_alloc_ne _ nd2 (by rw [hn1]; exact hj2), Store.get_alloc_ne _ nd1 hj1]
  have hget1 : ((t.alloc nd1).1.alloc nd2).1.get t.nextId = some nd1 := by
    rw [Store.get_alloc_ne _ nd2 (by rw [hn1]; omega)]
    exact Store.get_alloc_at t nd1
  have hget2 : ((t.alloc nd1).1.alloc nd2).1.get (t.nextId + 1) = some nd2 := by
    rw [show t.nextId + 1 = (t.alloc nd1).1.nextId from hn1.symm]
    exact Store.get_alloc_at _ nd2
  refine ⟨⟨by omega, ?_⟩, ?_, ?_, ?_⟩
  · intro i nd hg hi
    rw [hn2]
    by_cases hi1 : i = t.nextId
    · subst hi1
      rw [hget1] at hg
      injection hg with e
      subst e
      exact ⟨by omega, h1⟩
    · by_cases hi2 : i = t.nextId + 1
      · subst hi2
        rw [hget2] at hg
        injection hg with e
        subst e
        exact ⟨by omega, h2⟩
      · rw [hget i hi1 hi2] at hg
        obtain ⟨hlt, hp⟩ := hcl i nd hg hi
        exact ⟨by omega, ptrsIn_mono hp (by omega)⟩
  · intro j hj
    exact hget j (by omega) (by omega)
  · omega
  · intro i nd hg hlt
    rw [hget i (by omega) (by omega)]
    exact ⟨nd, hg, rfl, rfl, rfl⟩

theorem Store.alloc_snd (t : Store) (nd : TNode) : (t.alloc nd).2 = t.nextId := rfl

theorem Store.alloc_nextId (t : Store) (nd : TNode) : (t.alloc nd).1.nextId = t.nextId + 1 := rfl

theorem stepOK_allocTextParts {lo : Nat} {t : Store} {nd : TNode} (texts : List (List Char))
    (hreg : RegionOK lo t) (hnd : PtrsIn lo t.nextId nd) :
    StepOK lo t (allocTextParts t nd texts).1 ∧
      ∀ i ∈ (allocTextParts t nd texts).2, lo ≤ i ∧ i < (allocTextParts t nd texts).1.nextId := by
  match texts with
  | [] => exact ⟨stepOK_refl hreg, by simp [allocTextParts]⟩
  | [v] =>
    refine ⟨stepOK_alloc _ hreg ?_, ?_⟩
    · refine ⟨by simp, fun p hp => ?_, fun s hs => ?_⟩
      · have := hnd.2.1 p hp; omega
      · have := hnd.2.2 s hs; omega
    · intro i hi
      unfold allocTextParts at hi
      simp at hi
      subst hi
      have := hreg.1
      exact ⟨this, by exact Nat.lt_succ_self _⟩
  | v0 :: v1 :: rest =>
    refine ⟨stepOK_alloc2 _ _ hreg ?_ ?_, ?_⟩
    · refine ⟨by simp, fun p hp => ?_, fun s hs => ?_⟩
      · have := hnd.2.1 p hp; omega
      · injection hs with e
        have := hreg.1
        omega
    · refine ⟨by simp, fun p hp => ?_, fun s hs => ?_⟩
      · have := hnd.2.1 p hp; omega
      · have := hnd.2.2 s hs; omega
    · intro i hi
      unfold allocTextParts at hi
      simp at hi
      have hle := hreg.1
      have hn : (allocTextParts t nd (v0 :: v1 :: rest)).1.nextId = t.nextId + 2 := rfl
      rcases hi with rfl | rfl
      · rw [Store.alloc_snd, hn]
        exact ⟨hle, by omega⟩
      · rw [Store.alloc_snd, Store.alloc_nextId, hn]
        exact ⟨by omega, by omega⟩

theorem stepOK_splitText {lo : Nat} {t : Store} {id : Nat} {index : Int}
    {t2 : Store} {ids : List Nat}
    (hreg : RegionOK lo t) (hid : lo ≤ id)
    (hs : splitText t id index = JRes.ok (t2, ids)) :
    StepOK lo t t2 ∧ ∀ i ∈ ids, lo ≤ i ∧ i < t2.nextId := by
  unfold splitText at hs
  cases hg : t.get id with
  | none => rw [hg] at hs; cases hs
  | some nd =>
    rw [hg] at hs
    dsimp only at hs
    have hnd : PtrsIn lo t.nextId nd := (hreg.2 id nd hg hid).2
    obtain ⟨hstep1, hids1⟩ := stepOK_allocTextParts
      (([jsSlice nd.value 0 index, jsSliceFrom nd.value index]).filter (fun s => s ≠ []))
      hreg hnd
    have hsp := stepOK_spliceIntoParent hstep1.1 (ptrsIn_mono hnd hstep1.2.2.1)
      hids1 hs
    refine ⟨stepOK_trans hstep1 hsp, ?_⟩
    intro i hi
    rw [spliceIntoParent_ids _ _ _ _ hs] at hi
    have := hids1 i hi
    have := hsp.2.2.1
    omega

theorem reparent_nextId (cs : List Nat) (t : Store) (owner : Nat) :
    (reparent t cs owner).nextId = t.nextId := by
  induction cs generalizing t with
  | nil => rfl
  | cons c cs ih =>
    unfold reparent at ih ⊢
    rw [List.foldl_cons, ih, Store.modify_nextId]

theorem stepOK_allocElementParts {lo : Nat} {t : Store} {nd : TNode}
    (parts : List (List Nat))
    (hreg : RegionOK lo t) (hnd : PtrsIn lo t.nextId nd)
    (hparts : ∀ cs ∈ parts, ∀ c ∈ cs, lo ≤ c ∧ c < t.nextId) :
    StepOK lo t (allocElementParts t nd parts).1 ∧
      ∀ i ∈ (allocElementParts t nd parts).2, lo ≤ i ∧ i < (allocElementParts t nd parts).1.nextId := by
  match parts with
  | [] => exact ⟨stepOK_refl hreg, by simp [allocElementParts]⟩
  | [cs] =>
    have hcs := hparts cs (by simp)
    have hstep1 : StepOK lo t
        (t.alloc { nd with nextSibling := nd.nextSibling, children := cs }).1 := by
      refine stepOK_alloc _ hreg ?_
      refine ⟨fun c hc => ?_, fun p hp => ?_, fun s hs => ?_⟩
      · have := hcs c hc; omega
      · have := hnd.2.1 p hp; omega
      · have := hnd.2.2 s hs; omega
    have hstep2 : StepOK lo t
        (reparent (t.alloc { nd with nextSibling := nd.nextSibling, children := cs }).1 cs
          (t.alloc { nd with nextSibling := nd.nextSibling, children := cs }).2) := by
      refine stepOK_trans hstep1 ?_
      refine stepOK_reparent cs _ hstep1.1 (fun c hc => (hcs c hc).1) ?_ ?_
      · rw [Store.alloc_snd]; exact hreg.1
      · rw [Store.alloc_snd, Store.alloc_nextId]; omega
    refine ⟨hstep2, ?_⟩
    intro i hi
    unfold allocElementParts at hi
    simp at hi
    subst hi
    have hform : (allocElementParts t nd [cs]).1 =
        reparent (t.alloc { nd with nextSibling := nd.nextSibling, children := cs }).1 cs
          (t.alloc { nd with nextSibling := nd.nextSibling, children := cs }).2 := rfl
    rw [Store.alloc_snd, hform, reparent_nextId, Store.alloc_nextId]
    exact ⟨hreg.1, by omega⟩
  | cs0 :: cs1 :: rest =>
    have hcs0 := hparts cs0 (by simp)
    have hcs1 := hparts cs1 (by simp)
    have hstep1 : StepOK lo t
        ((t.alloc { nd with nextSibling := some (t.nextId + 1), children := cs0 }).1.alloc
          { nd with nextSibling := nd.nextSibling, children := cs1 }).1 := by
      refine stepOK_alloc2 _ _ hreg ?_ ?_
      · refine ⟨fun c hc => ?_, fun p hp => ?_, fun s hs => ?_⟩
        · have := hcs0 c hc; omega
        · have := hnd.2.1 p hp; omega
        · injection hs with e
          have := hreg.1
          omega
      · refine ⟨fun c hc => ?_, fun p hp => ?_, fun s hs => ?_⟩
        · have := hcs1 c hc; omega
        · have := hnd.2.1 p hp; omega
        · have := hnd.2.2 s hs; omega
    have hnx1 : ((t.alloc { nd with nextSibling := some (t.nextId + 1), children := cs0 }).1.alloc
        { nd with nextSibling := nd.nextSibling, children := cs1 }).1.nextId = t.nextId + 2 := rfl
    have hstep2 : StepOK lo t
        (reparent ((t.alloc { nd with nextSibling := some (t.nextId + 1), children := cs0 }).1.alloc
            { nd with nextSibling := nd.nextSibling, children := cs1 }).1 cs0
          (t.alloc { nd with nextSibling := some (t.nextId + 1), children := cs0 }).2) := by
      refine stepOK_trans hstep1 ?_
      refine stepOK_reparent cs0 _ hstep1.1 (fun c hc => (hcs0 c hc).1) ?_ ?_
      · rw [Store.alloc_snd]; exact hreg.1
      · rw [Store.alloc_snd, hnx1]; omega
    have hstep3 : StepOK lo t (allocElementParts t nd (cs0 :: cs1 :: rest)).1 := by
      refine stepOK_trans hstep2 ?_
      refine stepOK_reparent cs1 _ hstep2.1 (fun c hc => (hcs1 c hc).1) ?_ ?_
      · rw [Store.alloc_snd, Store.alloc_nextId]
        have := hreg.1
        omega
      · rw [Store.alloc_snd, Store.alloc_nextId, reparent_nextId, hnx1]
        omega
    refine ⟨hstep3, ?_⟩
    intro i hi
    unfold allocElementParts at hi
    simp at hi
    have hn : (allocElementParts t nd (cs0 :: cs1 :: rest)).1.nextId = t.nextId + 2 := by
      show (reparent (reparent _ cs0 _) cs1 _).nextId = t.nextId + 2
      rw [reparent_nextId, reparent_nextId, hnx1]
    rcases hi with rfl | rfl
    · rw [Store.alloc_snd, hn]
      exact ⟨hreg.1, by omega⟩
    · rw [Store.alloc_snd, Store.alloc_nextId, hn]
      have := hreg.1
      exact ⟨by omega, by omega⟩

theorem stepOK_splitElement {lo : Nat} {t : Store} {id : Nat} {index : Int}
    {t2 : Store} {ids : List Nat}
    (hreg : RegionOK lo t) (hid : lo ≤ id)
    (hs : splitElement t id index = JRes.ok (t2, ids)) :
    StepOK lo t t2 ∧ ∀ i ∈ ids, lo ≤ i ∧ i < t2.nextId := by
  unfold splitElement at hs
  cases hg : t.get id with
  | none => rw [hg] at hs; cases hs
  | some nd =>
    rw [hg] at hs
    dsimp only at hs
    have hnd : PtrsIn lo t.nextId nd := (hreg.2 id nd hg hid).2
    have hparts : ∀ cs ∈ ([jsSlice nd.children 0 index, jsSliceFrom nd.children index]).filter
        (fun l => l.length ≠ 0), ∀ c ∈ cs, lo ≤ c ∧ c < t.nextId := by
      intro cs hcs c hc
      have hcs2 := List.mem_of_mem_filter hcs
      simp at hcs2
      rcases hcs2 with rfl | rfl
      · exact hnd.1 c (mem_jsSlice hc)
      · exact hnd.1 c (mem_jsSliceFrom hc)
    obtain ⟨hstep1, hids1⟩ := stepOK_allocElementParts _ hreg hnd hparts
    have hsp := stepOK_spliceIntoParent hstep1.1 (ptrsIn_mono hnd hstep1.2.2.1) hids1 hs
    refine ⟨stepOK_trans hstep1 hsp, ?_⟩
    intro i hi
    rw [spliceIntoParent_ids _ _ _ _ hs] at hi
    have h1 := hids1 i hi
    have h2 := hsp.2.2.1
    omega

theorem reparent_get_not_mem (cs : List Nat) (t : Store) (owner j : Nat) (hj : j ∉ cs) :
    (reparent t cs owner).get j = t.get j := by
  induction cs generalizing t with
  | nil => rfl
  | cons c cs ih =>
    unfold reparent at ih ⊢
    rw [List.foldl_cons]
    rw [ih _ (fun h => hj (by simp [h]))]
    exact Store.get_modify_ne t _ (fun e => hj (by simp [e]))

theorem prevFix_facts {lo : Nat} {t : Store} (children : List Nat) (idx : Int)
    (sib : Option Nat)
    (hreg : RegionOK lo t)
    (hch : ∀ c ∈ children, lo ≤ c ∧ c < t.nextId)
    (hsib : ∀ s, sib = some s → lo ≤ s ∧ s < t.nextId) :
    StepOK lo t
      (if 0 < idx then
        match children.get? (idx.toNat - 1) with
        | some prev => t.modify prev (fun x => { x with nextSibling := sib })
        | none => t
      else t) ∧
    (if 0 < idx then
        match children.get? (idx.toNat - 1) with
        | some prev => t.modify prev (fun x => { x with nextSibling := sib })
        | none => t
      else t).nextId = t.nextId ∧
    ∀ j, (∀ c ∈ children, c < j) →
      (if 0 < idx then
        match children.get? (idx.toNat - 1) with
        | some prev => t.modify prev (fun x => { x with nextSibling := sib })
        | none => t
      else t).get j = t.get j := by
  split
  · split
    · rename_i prev hprev
      have hpm := hch prev (List.get?_mem hprev)
      refine ⟨?_, Store.modify_nextId _ _ _, ?_⟩
      · refine stepOK_modify _ hreg hpm.1 (fun x => ⟨rfl, rfl, rfl⟩) ?_
        intro x hx
        exact ⟨hx.1, hx.2.1, fun s hms => hsib s hms⟩
      · intro j hj
        exact Store.get_modify_ne t _ (by have := hj prev (List.get?_mem hprev); omega)
    · exact ⟨stepOK_refl hreg, rfl, fun _ _ => rfl⟩
  · exact ⟨stepOK_refl hreg, rfl, fun _ _ => rfl⟩

theorem stepOK_wrapTail {lo : Nat} {M : Store} (cs : List Nat) (w lastC : Nat)
    (hreg : RegionOK lo M) (hcs : ∀ c ∈ cs, lo ≤ c ∧ c < M.nextId) (hw : lo ≤ w)
    (hw2 : w < M.nextId) (hlastC : lo ≤ lastC) (hwcs : w ∉ cs) (hwlc : w ≠ lastC) :
    StepOK lo M ((reparent M cs w).modify lastC (fun x => { x with nextSibling := none })) ∧
    ((reparent M cs w).modify lastC (fun x => { x with nextSibling := none })).get w =
      M.get w := by
  have hrep : StepOK lo M (reparent M cs w) :=
    stepOK_reparent cs M hreg (fun c hc => (hcs c hc).1) hw hw2
  have hmod : StepOK lo (reparent M cs w)
      ((reparent M cs w).modify lastC (fun x => { x with nextSibling := none })) := by
    refine stepOK_modify _ hrep.1 hlastC (fun x => ⟨rfl, rfl, rfl⟩) ?_
    intro x hx
    exact ⟨hx.1, hx.2.1, fun s hs => by cases hs⟩
  refine ⟨stepOK_trans hrep hmod, ?_⟩
  rw [Store.get_modify_ne _ _ hwlc]
  exact reparent_get_not_mem cs M w w hwcs

theorem stepOK_wrapNodes {lo : Nat} {t : Store} {tag : List Char} {cs : List Nat}
    {t2 : Store} {w : Nat}
    (hreg : RegionOK lo t) (hcs : ∀ c ∈ cs, lo ≤ c ∧ c < t.nextId)
    (hs : wrapNodes t tag cs = JRes.ok (t2, w)) :
    StepOK lo t t2 ∧ w = t.nextId ∧
      ∃ nd2, t2.get w = some nd2 ∧ nd2.kind = NKind.element ∧ nd2.tagName = tag ∧
        nd2.propIndex = none := by
  unfold wrapNodes at hs
  cases cs with
  | nil => cases hs
  | cons c0 tail =>
    dsimp only at hs
    cases hlast : (c0 :: tail).getLast? with
    | none => rw [hlast] at hs; cases hs
    | some lastC =>
      rw [hlast] at hs
      dsimp only at hs
      have hlastm := hcs lastC (List.mem_of_mem_getLast? hlast)
      cases hgl : t.get lastC with
      | none => rw [hgl] at hs; cases hs
      | some lastNd =>
        rw [hgl] at hs
        dsimp only at hs
        have hlnd : PtrsIn lo t.nextId lastNd := (hreg.2 lastC lastNd hgl hlastm.1).2
        cases hck : wrapCheckOk t lastNd.parent (c0 :: tail) with
        | none => rw [hck] at hs; cases hs
        | some b =>
          rw [hck] at hs
          cases b with
          | false => cases hs
          | true =>
            dsimp only at hs
            injection hs with hs
            injection hs with hs1 hs2
            subst hs1
            subst hs2
            set A := t.alloc { kind := NKind.element, tagName := tag,
                               parent := lastNd.parent,
                               nextSibling := lastNd.nextSibling,
                               children := c0 :: tail } with hA
            have hAnx : A.1.nextId = t.nextId + 1 := rfl
            have hAsnd : A.2 = t.nextId := rfl
            have hstep1 : StepOK lo t A.1 := by
              rw [hA]
              refine stepOK_alloc _ hreg ?_
              refine ⟨fun c hc => ?_, fun p hp => ?_, fun s hsb => ?_⟩
              · have := hcs c hc; omega
              · have := hlnd.2.1 p hp; omega
              · have := hlnd.2.2 s hsb; omega
            have hgetw : A.1.get A.2 = some { kind := NKind.element, tagName := tag,
                                              parent := lastNd.parent,
                                              nextSibling := lastNd.nextSibling,
                                              children := c0 :: tail } :=
              Store.get_alloc_self t _
            cases hp : lastNd.parent with
            | none =>
              dsimp only
              obtain ⟨htail, hgw⟩ := stepOK_wrapTail (c0 :: tail) A.2 lastC hstep1.1
                (fun c hc => by have := hcs c hc; rw [hAnx]; omega)
                (by rw [hAsnd]; exact hreg.1) (by rw [hAsnd, hAnx]; omega)
                hlastm.1
                (fun hmem => by have := (hcs _ hmem).2; rw [hAsnd] at this; omega)
                (by rw [hAsnd]; omega)
              refine ⟨stepOK_trans hstep1 htail, hAsnd, ?_⟩
              rw [hgw, hgetw]
              exact ⟨_, rfl, rfl, rfl, rfl⟩
            | some p =>
              dsimp only
              have hpb := hlnd.2.1 p hp
              have hgp : A.1.get p = t.get p := by
                rw [hA]
                exact Store.get_alloc_ne t _ (by omega)
              cases hq : t.get p with
              | none =>
                rw [hgp, hq]
                dsimp only
                obtain ⟨htail, hgw⟩ := stepOK_wrapTail (c0 :: tail) A.2 lastC hstep1.1
                  (fun c hc => by have := hcs c hc; rw [hAnx]; omega)
                  (by rw [hAsnd]; exact hreg.1) (by rw [hAsnd, hAnx]; omega)
                  hlastm.1
                  (fun hmem => by have := (hcs _ hmem).2; rw [hAsnd] at this; omega)
                  (by rw [hAsnd]; omega)
                refine ⟨stepOK_trans hstep1 htail, hAsnd, ?_⟩
                rw [hgw, hgetw]
                exact ⟨_, rfl, rfl, rfl, rfl⟩
              | some pnd =>
                rw [hgp, hq]
                dsimp only
                have hpnd : PtrsIn lo t.nextId pnd := (hreg.2 p pnd hq hpb.1).2
                obtain ⟨h2a, h2anx, h2aget⟩ := prevFix_facts pnd.children
                  (jsIndexOf pnd.children c0) (some A.2) hstep1.1
                  (fun c hc => by have := hpnd.1 c hc; rw [hAnx]; omega)
                  (fun s hms => by
                    injection hms with e
                    rw [← e, hAsnd, hAnx]
                    exact ⟨hreg.1, by omega⟩)
                have hmodp : StepOK lo
                    (if 0 < jsIndexOf pnd.children c0 then
                      match pnd.children.get? ((jsIndexOf pnd.children c0).toNat - 1) with
                      | some prev =>
                        A.1.modify prev (fun x => { x with nextSibling := some A.2 })
                      | none => A.1
                    else A.1)
                    ((if 0 < jsIndexOf pnd.children c0 then
                      match pnd.children.get? ((jsIndexOf pnd.children c0).toNat - 1) with
                      | some prev =>
                        A.1.modify prev (fun x => { x with nextSibling := some A.2 })
                      | none => A.1
                    else A.1).modify p (fun x =>
                      { x with children := jsSplice x.children (jsIndexOf pnd.children c0)
                                             (c0 :: tail).length [A.2] })) := by
                  refine stepOK_modify _ h2a.1 hpb.1 (fun x => ⟨rfl, rfl, rfl⟩) ?_
                  intro x hx
                  refine ⟨?_, hx.2.1, hx.2.2⟩
                  intro c hc
                  rcases mem_jsSplice hc with h1 | h2
                  · exact hx.1 c h1
                  · simp at h2
                    subst h2
                    rw [h2anx, hAnx]
                    refine ⟨by rw [hAsnd]; exact hreg.1, by rw [hAsnd]; omega⟩
                have hMstep2 := stepOK_trans h2a hmodp
                have hMstep : StepOK lo t _ := stepOK_trans hstep1 hMstep2
                have hMle := hMstep2.2.2.1
                obtain ⟨htail, hgw⟩ := stepOK_wrapTail (c0 :: tail) A.2 lastC hMstep.1
                  (fun c hc => by
                    have h1 := hcs c hc
                    have h2 := hMle
                    have h3 := hAnx
                    have h4 := h2anx
                    omega)
                  (by rw [hAsnd]; exact hreg.1)
                  (by
                    have h2 := hMle
                    have h3 := hAnx
                    have h4 := h2anx
                    have h5 := hAsnd
                    omega)
                  hlastm.1
                  (fun hmem => by have := (hcs _ hmem).2; rw [hAsnd] at this; omega)
                  (by rw [hAsnd]; omega)
                refine ⟨stepOK_trans hMstep htail, hAsnd, ?_⟩
                rw [hgw]
                rw [Store.get_modify_ne _ _ (by rw [hAsnd]; omega)]
                rw [h2aget _ (fun c hc => by have := hpnd.1 c hc; rw [hAsnd]; omega)]
                rw [hgetw]
                exact ⟨_, rfl, rfl, rfl, rfl⟩

theorem climbUp_region {lo : Nat} {t : Store} {root : Nat} :
    ∀ {fuel node : Nat} {res : Option Nat},
      RegionOK lo t → lo ≤ node → climbUp t root fuel node = JRes.ok res →
      ∀ s, res = some s → lo ≤ s ∧ s < t.nextId := by
  intro fuel
  induction fuel with
  | zero => intro node res _ _ h; cases h
  | succ fuel ih =>
    intro node res hreg hn h s hres
    unfold climbUp at h
    by_cases hr : node = root
    · rw [if_pos hr] at h
      injection h with h
      rw [← h] at hres
      cases hres
    · rw [if_neg hr] at h
      cases hg : t.get node with
      | none => rw [hg] at h; cases h
      | some nd =>
        rw [hg] at h
        dsimp only at h
        cases hp : nd.parent with
        | none => rw [hp] at h; cases h
        | some par =>
          rw [hp] at h
          dsimp only at h
          have hparb := ((hreg.2 node nd hg hn).2).2.1 par hp
          cases hgp : t.get par with
          | none => rw [hgp] at h; cases h
          | some pnd =>
            rw [hgp] at h
            dsimp only at h
            cases hsib : pnd.nextSibling with
            | some sib =>
              rw [hsib] at h
              injection h with h
              rw [← h] at hres
              injection hres with e
              subst e
              exact ((hreg.2 par pnd hgp hparb.1).2).2.2 _ hsib
            | none =>
              rw [hsib] at h
              exact ih hreg hparb.1 h s hres

theorem getTextNodesGo_region {lo : Nat} {t : Store} {root : Nat} :
    ∀ {fuel node : Nat} {texts : List (Nat × TNode)},
      RegionOK lo t → lo ≤ node → getTextNodesGo t root fuel node = JRes.ok texts →
      ∀ pr ∈ texts, lo ≤ pr.1 ∧ pr.1 < t.nextId := by
  intro fuel
  induction fuel with
  | zero => intro node texts _ _ h; cases h
  | succ fuel ih =>
    intro node texts hreg hn h
    unfold getTextNodesGo at h
    cases hg : t.get node with
    | none => rw [hg] at h; cases h
    | some nd =>
      rw [hg] at h
      dsimp only at h
      have hnb := hreg.2 node nd hg hn
      have hacc : ∀ pr ∈ (if nd.kind = NKind.text then [(node, nd)] else []),
          lo ≤ pr.1 ∧ pr.1 < t.nextId := by
        split
        · intro pr hpr
          simp at hpr
          subst hpr
          exact ⟨hn, hnb.1⟩
        · intro pr hpr
          cases hpr
      -- the step option
      cases hch : nd.children with
      | cons c crest =>
        rw [hch] at h
        dsimp only at h
        cases hrec : getTextNodesGo t root fuel c with
        | crash => rw [hrec] at h; cases h
        | fail => rw [hrec] at h; cases h
        | ok rest =>
          rw [hrec] at h
          dsimp only at h
          injection h with h
          subst h
          intro pr hpr
          rcases List.mem_append.mp hpr with h1 | h2
          · exact hacc pr h1
          · exact ih hreg (hnb.2.1 c (by rw [hch]; simp)).1 hrec pr h2
      | nil =>
        rw [hch] at h
        dsimp only at h
        cases hsib : nd.nextSibling with
        | some sib =>
          rw [hsib] at h
          dsimp only at h
          cases hrec : getTextNodesGo t root fuel sib with
          | crash => rw [hrec] at h; cases h
          | fail => rw [hrec] at h; cases h
          | ok rest =>
            rw [hrec] at h
            dsimp only at h
            injection h with h
            subst h
            intro pr hpr
            rcases List.mem_append.mp hpr with h1 | h2
            · exact hacc pr h1
            · exact ih hreg (hnb.2.2.2 sib hsib).1 hrec pr h2
        | none =>
          rw [hsib] at h
          dsimp only at h
          cases hcl : climbUp t root fuel node with
          | crash => rw [hcl] at h; cases h
          | fail => rw [hcl] at h; cases h
          | ok res =>
            rw [hcl] at h
            cases res with
            | none =>
              dsimp only at h
              injection h with h
              subst h
              exact hacc
            | some nxt =>
              dsimp only at h
              cases hrec : getTextNodesGo t root fuel nxt with
              | crash => rw [hrec] at h; cases h
              | fail => rw [hrec] at h; cases h
              | ok rest =>
                rw [hrec] at h
                dsimp only at h
                injection h with h
                subst h
                intro pr hpr
                rcases List.mem_append.mp hpr with h1 | h2
                · exact hacc pr h1
                · exact ih hreg (climbUp_region hreg hn hcl nxt rfl).1 hrec pr h2

theorem getTextNodeAtIndexGo_mem {index : Int} :
    ∀ {prevLength : Int} {texts : List (Nat × TNode)} {id : Nat} {off : Int},
      getTextNodeAtIndexGo index prevLength texts = some (id, off) →
      ∃ nd, (id, nd) ∈ texts := by
  intro prevLength texts
  induction texts generalizing prevLength with
  | nil => intro id off h; cases h
  | cons pr rest ih =>
    intro id off h
    unfold getTextNodeAtIndexGo at h
    split at h
    · injection h with h
      have h1 : pr.1 = id := congrArg Prod.fst h
      rw [← h1]
      exact ⟨pr.2, List.mem_cons_self _ _⟩
    · obtain ⟨nd, hnd⟩ := ih h
      exact ⟨nd, by simp [hnd]⟩

theorem climbCommon_region {lo : Nat} {t : Store} {fuelI : Nat} {node : Nat} :
    ∀ {fuel : Nat} {acc : Option Nat} {res : Option Nat},
      RegionOK lo t → (∀ x, acc = some x → lo ≤ x) →
      climbCommon t fuelI node fuel acc = JRes.ok res →
      ∀ ca, res = some ca → lo ≤ ca := by
  intro fuel
  induction fuel with
  | zero => intro acc res _ _ h; cases h
  | succ fuel ih =>
    intro acc res hreg hacc h ca hres
    cases acc with
    | none =>
      unfold climbCommon at h
      injection h with h
      rw [← h] at hres
      cases hres
    | some anc =>
      unfold climbCommon at h
      cases hinc : includesNode t fuelI anc node with
      | crash => rw [hinc] at h; cases h
      | fail => rw [hinc] at h; cases h
      | ok b =>
        rw [hinc] at h
        cases b with
        | true =>
          dsimp only at h
          injection h with h
          rw [← h] at hres
          injection hres with e
          subst e
          exact hacc _ rfl
        | false =>
          dsimp only at h
          cases hg : t.get anc with
          | none => rw [hg] at h; cases h
          | some and2 =>
            rw [hg] at h
            dsimp only at h
            refine ih hreg ?_ h ca hres
            intro x hx
            exact (((hreg.2 anc and2 hg (hacc anc rfl)).2).2.1 x hx).1

/-- What the ghost log guarantees about each logged wrapper. -/
def LogOK (lo : Nat) (t : Store) (log : List (Frag × Nat)) : Prop :=
  ∀ pr ∈ log, lo ≤ pr.2 ∧ pr.2 < t.nextId ∧ ∃ nd, t.get pr.2 = some nd ∧
    nd.kind = NKind.element ∧ nd.tagName = pFragmentTag ∧
    nd.propIndex = (if pr.1.token ≠ [] then some pr.1.token else none)

theorem logOK_mono {lo : Nat} {t t2 : Store} {log : List (Frag × Nat)}
    (h : LogOK lo t log) (hs : StepOK lo t t2) : LogOK lo t2 log := by
  intro pr hpr
  obtain ⟨h1, h2, nd, h3, h4, h5, h6⟩ := h pr hpr
  obtain ⟨nd2, hg2, e1, e2, e3⟩ := hs.2.2.2 pr.2 nd h3 h2
  exact ⟨h1, by have := hs.2.2.1; omega, nd2, hg2, e1.trans h4, e2.trans h5, e3.trans h6⟩

/-- Setting `propIndex` on a node allocated after `t` extends a step. -/
theorem stepOK_setIndex {lo : Nat} {t t3 : Store} {w : Nat} (tok : List Char)
    (h : StepOK lo t t3) (hw : lo ≤ w) (hwge : t.nextId ≤ w) :
    StepOK lo t (t3.modify w (fun x => { x with propIndex := some tok })) := by
  obtain ⟨hreg, hlow, hnx, hfp⟩ := h
  refine ⟨?_, ?_, ?_, ?_⟩
  · obtain ⟨hle, hcl⟩ := hreg
    refine ⟨by rw [Store.modify_nextId]; exact hle, ?_⟩
    intro i nd hg hi
    rw [Store.modify_nextId]
    by_cases hii : i = w
    · subst hii
      cases hg0 : t3.get i with
      | none =>
        have hnop : t3.modify i (fun x => { x with propIndex := some tok }) = t3 := by
          unfold Store.modify
          rw [hg0]
        rw [hnop] at hg
        exact hcl i nd hg hi
      | some nd0 =>
        rw [Store.get_modify_self t3 i _ hg0] at hg
        injection hg with e
        subst e
        obtain ⟨hlt, hp⟩ := hcl i nd0 hg0 hi
        exact ⟨hlt, hp.1, hp.2.1, hp.2.2⟩
    · rw [Store.get_modify_ne t3 _ hii] at hg
      exact hcl i nd hg hi
  · intro j hj
    rw [Store.get_modify_ne t3 _ (by omega)]
    exact hlow j hj
  · rw [Store.modify_nextId]
    exact hnx
  · intro id nd hg hlt
    rw [Store.get_modify_ne t3 _ (by omega)]
    exact hfp id nd hg hlt

theorem stepOK_preSameNode {lo : Nat} {t : Store} {textId : Nat} {sIdx eIdx : Int}
    {f : Frag} {t2 : Store} {log : List (Frag × Nat)}
    (hreg : RegionOK lo t) (hid : lo ≤ textId)
    (hs : preSameNode t textId sIdx eIdx f = JRes.ok (t2, log)) :
    StepOK lo t t2 ∧ LogOK lo t2 log := by
  unfold preSameNode at hs
  cases h1 : splitText t textId (eIdx + 1) with
  | crash => rw [h1] at hs; cases hs
  | fail => rw [h1] at hs; cases hs
  | ok pr1 =>
    rw [h1] at hs
    dsimp only at hs
    obtain ⟨t1, nodes1⟩ := pr1
    obtain ⟨hstep1, hids1⟩ := stepOK_splitText hreg hid h1
    cases hh : nodes1.head? with
    | none => rw [hh] at hs; cases hs
    | some beforeId =>
      rw [hh] at hs
      dsimp only at hs
      have hbb := hids1 beforeId (List.mem_of_mem_head? hh)
      cases h2 : splitText t1 beforeId sIdx with
      | crash => rw [h2] at hs; cases hs
      | fail => rw [h2] at hs; cases hs
      | ok pr2 =>
        rw [h2] at hs
        dsimp only at hs
        obtain ⟨t2m, nodes2⟩ := pr2
        obtain ⟨hstep2, hids2⟩ := stepOK_splitText hstep1.1 hbb.1 h2
        cases hm : nodes2.get? 1 with
        | none =>
          rw [hm] at hs
          dsimp only at hs
          injection hs with hs
          injection hs with e1 e2
          subst e1
          subst e2
          exact ⟨stepOK_trans hstep1 hstep2, by intro pr hpr; cases hpr⟩
        | some middleId =>
          rw [hm] at hs
          dsimp only at hs
          have hmid := hids2 middleId (List.get?_mem hm)
          cases h3 : wrapNodes t2m pFragmentTag [middleId] with
          | crash => rw [h3] at hs; cases hs
          | fail =>
            rw [h3] at hs
            dsimp only at hs
            split at hs
            · cases hs
            · injection hs with hs
              injection hs with e1 e2
              subst e1
              subst e2
              exact ⟨stepOK_trans hstep1 hstep2, by intro pr hpr; cases hpr⟩
          | ok pr3 =>
            rw [h3] at hs
            dsimp only at hs
            obtain ⟨t3, w⟩ := pr3
            obtain ⟨hstep3, hw, nd3, hg3, hk3, htag3, hpi3⟩ :=
              stepOK_wrapNodes hstep2.1 (by
                intro c hc
                simp at hc
                subst hc
                exact hmid) h3
            injection hs with hs
            injection hs with e1 e2
            subst e1
            subst e2
            have hcomp : StepOK lo t t3 :=
              stepOK_trans hstep1 (stepOK_trans hstep2 hstep3)
            have hwlo : lo ≤ w := by
              rw [hw]
              have := hstep2.1.1
              omega
            have hwge : t.nextId ≤ w := by
              rw [hw]
              have := hstep1.2.2.1
              have := hstep2.2.2.1
              omega
            by_cases htok : f.token ≠ []
            · rw [if_pos htok]
              refine ⟨stepOK_setIndex f.token hcomp hwlo hwge, ?_⟩
              intro pr hpr
              simp at hpr
              subst hpr
              dsimp only
              refine ⟨hwlo, ?_, ?_⟩
              · rw [Store.modify_nextId]
                exact (hstep3.1.2 w nd3 hg3 hwlo).1
              · refine ⟨{ nd3 with propIndex := some f.token },
                  Store.get_modify_self t3 w _ hg3, hk3, htag3, ?_⟩
                rw [if_pos htok]
            · rw [if_neg htok]
              refine ⟨hcomp, ?_⟩
              intro pr hpr
              simp at hpr
              subst hpr
              dsimp only
              refine ⟨hwlo, (hstep3.1.2 w nd3 hg3 hwlo).1, nd3, hg3, hk3, htag3, ?_⟩
              rw [if_neg htok]
              exact hpi3

theorem stepOK_climbSplitStart {lo : Nat} {ca : Option Nat} :
    ∀ {fuel : Nat} {t : Store} {cur : Nat} {t2 : Store} {res : Nat},
      RegionOK lo t → lo ≤ cur →
      climbSplitStart t ca fuel cur = JRes.ok (t2, res) →
      StepOK lo t t2 ∧ lo ≤ res := by
  intro fuel
  induction fuel with
  | zero => intro t cur t2 res _ _ h; cases h
  | succ fuel ih =>
    intro t cur t2 res hreg hcur h
    unfold climbSplitStart at h
    cases hg : t.get cur with
    | none => rw [hg] at h; cases h
    | some nd =>
      rw [hg] at h
      dsimp only at h
      split at h
      · injection h with h
        injection h with e1 e2
        subst e1
        subst e2
        exact ⟨stepOK_refl hreg, hcur⟩
      · cases hp : nd.parent with
        | none => rw [hp] at h; cases h
        | some pa =>
          rw [hp] at h
          dsimp only at h
          have hpab := ((hreg.2 cur nd hg hcur).2).2.1 pa hp
          cases hgp : t.get pa with
          | none => rw [hgp] at h; cases h
          | some pnd =>
            rw [hgp] at h
            dsimp only at h
            cases hsp : splitElement t pa (jsIndexOf pnd.children cur) with
            | crash => rw [hsp] at h; cases h
            | fail => rw [hsp] at h; cases h
            | ok pr =>
              rw [hsp] at h
              dsimp only at h
              obtain ⟨t1, ns⟩ := pr
              obtain ⟨hstep1, hns⟩ := stepOK_splitElement hreg hpab.1 hsp
              cases hn : ns.get? 1 with
              | none => rw [hn] at h; cases h
              | some nxt =>
                rw [hn] at h
                obtain ⟨hstep2, hres⟩ :=
                  ih hstep1.1 (hns nxt (List.get?_mem hn)).1 h
                exact ⟨stepOK_trans hstep1 hstep2, hres⟩

theorem stepOK_climbSplitEnd {lo : Nat} {ca : Option Nat} :
    ∀ {fuel : Nat} {t : Store} {cur : Nat} {t2 : Store} {res : Nat},
      RegionOK lo t → lo ≤ cur →
      climbSplitEnd t ca fuel cur = JRes.ok (t2, res) →
      StepOK lo t t2 ∧ lo ≤ res := by
  intro fuel
  induction fuel with
  | zero => intro t cur t2 res _ _ h; cases h
  | succ fuel ih =>
    intro t cur t2 res hreg hcur h
    unfold climbSplitEnd at h
    cases hg : t.get cur with
    | none => rw [hg] at h; cases h
    | some nd =>
      rw [hg] at h
      dsimp only at h
      split at h
      · injection h with h
        injection h with e1 e2
        subst e1
        subst e2
        exact ⟨stepOK_refl hreg, hcur⟩
      · cases hp : nd.parent with
        | none => rw [hp] at h; cases h
        | some pa =>
          rw [hp] at h
          dsimp only at h
          have hpab := ((hreg.2 cur nd hg hcur).2).2.1 pa hp
          cases hgp : t.get pa with
          | none => rw [hgp] at h; cases h
          | some pnd =>
            rw [hgp] at h
            dsimp only at h
            cases hsp : splitElement t pa (jsIndexOf pnd.children cur + 1) with
            | crash => rw [hsp] at h; cases h
            | fail => rw [hsp] at h; cases h
            | ok pr =>
              rw [hsp] at h
              dsimp only at h
              obtain ⟨t1, ns⟩ := pr
              obtain ⟨hstep1, hns⟩ := stepOK_splitElement hreg hpab.1 hsp
              cases hn : ns.head? with
              | none => rw [hn] at h; cases h
              | some nxt =>
                rw [hn] at h
                obtain ⟨hstep2, hres⟩ :=
                  ih hstep1.1 (hns nxt (List.mem_of_mem_head? hn)).1 h
                exact ⟨stepOK_trans hstep1 hstep2, hres⟩

theorem stepOK_preCrossNode {lo : Nat} {t : Store} {sId : Nat} {sIdx : Int} {eId : Nat}
    {eIdx : Int} {f : Frag} {t2 : Store} {log : List (Frag × Nat)}
    (hreg : RegionOK lo t) (hsid : lo ≤ sId) (heid : lo ≤ eId)
    (hs : preCrossNode t sId sIdx eId eIdx f = JRes.ok (t2, log)) :
    StepOK lo t t2 ∧ LogOK lo t2 log := by
  unfold preCrossNode at hs
  cases hca : getCommonAncestor t (chainFuel t) sId eId with
  | crash => rw [hca] at hs; cases hs
  | fail => rw [hca] at hs; cases hs
  | ok ca =>
    rw [hca] at hs
    dsimp only at hs
    have hcab : ∀ caId, ca = some caId → lo ≤ caId := by
      intro caId hcaId
      exact climbCommon_region hreg (fun x hx => by injection hx with e; rw [← e]; exact hsid)
        hca caId hcaId
    have hstart : ∀ {ta : Store} {startText : Nat},
        (if 0 < sIdx then
          match splitText t sId sIdx with
          | JRes.crash => JRes.crash
          | JRes.fail => JRes.fail
          | JRes.ok (t1, ns) =>
            match ns.get? 1 with
            | none => JRes.crash
            | some x => JRes.ok (t1, x)
        else JRes.ok (t, sId)) = JRes.ok (ta, startText) →
        StepOK lo t ta ∧ lo ≤ startText := by
      intro ta startText hif
      split at hif
      · cases hsp : splitText t sId sIdx with
        | crash => rw [hsp] at hif; cases hif
        | fail => rw [hsp] at hif; cases hif
        | ok pr =>
          rw [hsp] at hif
          obtain ⟨t1, ns⟩ := pr
          dsimp only at hif
          cases hn : ns.get? 1 with
          | none => rw [hn] at hif; cases hif
          | some x =>
            rw [hn] at hif
            injection hif with hif
            injection hif with e1 e2
            subst e1
            subst e2
            obtain ⟨hstep1, hns⟩ := stepOK_splitText hreg hsid hsp
            exact ⟨hstep1, (hns _ (List.get?_mem hn)).1⟩
      · injection hif with hif
        injection hif with e1 e2
        subst e1
        subst e2
        exact ⟨stepOK_refl hreg, hsid⟩
    cases hsr : (if 0 < sIdx then
          match splitText t sId sIdx with
          | JRes.crash => JRes.crash
          | JRes.fail => JRes.fail
          | JRes.ok (t1, ns) =>
            match ns.get? 1 with
            | none => JRes.crash
            | some x => JRes.ok (t1, x)
        else JRes.ok (t, sId)) with
    | crash => rw [hsr] at hs; cases hs
    | fail => rw [hsr] at hs; cases hs
    | ok pra =>
      rw [hsr] at hs
      dsimp only at hs
      obtain ⟨ta, startText⟩ := pra
      obtain ⟨hstepA, hstb⟩ := hstart hsr
      cases hcs : climbSplitStart ta ca (chainFuel ta) startText with
      | crash => rw [hcs] at hs; cases hs
      | fail => rw [hcs] at hs; cases hs
      | ok prb =>
        rw [hcs] at hs
        dsimp only at hs
        obtain ⟨tb, startAnc⟩ := prb
        obtain ⟨hstepB, hsab⟩ := stepOK_climbSplitStart hstepA.1 hstb hcs
        cases hge : tb.get eId with
        | none => rw [hge] at hs; cases hs
        | some endNd =>
          rw [hge] at hs
          dsimp only at hs
          have hend : ∀ {tc : Store} {endText : Nat},
              (if eIdx < (endNd.value.length : Int) - 1 then
                match splitText tb eId eIdx with
                | JRes.crash => JRes.crash
                | JRes.fail => JRes.fail
                | JRes.ok (t1, ns) =>
                  match ns.head? with
                  | none => JRes.crash
                  | some x => JRes.ok (t1, x)
              else JRes.ok (tb, eId)) = JRes.ok (tc, endText) →
              StepOK lo tb tc ∧ lo ≤ endText := by
            intro tc endText hif
            split at hif
            · cases hsp : splitText tb eId eIdx with
              | crash => rw [hsp] at hif; cases hif
              | fail => rw [hsp] at hif; cases hif
              | ok pr =>
                rw [hsp] at hif
                obtain ⟨t1, ns⟩ := pr
                dsimp only at hif
                cases hn : ns.head? with
                | none => rw [hn] at hif; cases hif
                | some x =>
                  rw [hn] at hif
                  injection hif with hif
                  injection hif with e1 e2
                  subst e1
                  subst e2
                  obtain ⟨hstep1, hns⟩ := stepOK_splitText hstepB.1 heid hsp
                  exact ⟨hstep1, (hns _ (List.mem_of_mem_head? hn)).1⟩
            · injection hif with hif
              injection hif with e1 e2
              subst e1
              subst e2
              exact ⟨stepOK_refl hstepB.1, heid⟩
          cases her : (if eIdx < (endNd.value.length : Int) - 1 then
                match splitText tb eId eIdx with
                | JRes.crash => JRes.crash
                | JRes.fail => JRes.fail
                | JRes.ok (t1, ns) =>
                  match ns.head? with
                  | none => JRes.crash
                  | some x => JRes.ok (t1, x)
              else JRes.ok (tb, eId)) with
          | crash => rw [her] at hs; cases hs
          | fail => rw [her] at hs; cases hs
          | ok prc =>
            rw [her] at hs
            dsimp only at hs
            obtain ⟨tc, endText⟩ := prc
            obtain ⟨hstepC, hetb⟩ := hend her
            cases hce : climbSplitEnd tc ca (chainFuel tc) endText with
            | crash => rw [hce] at hs; cases hs
            | fail => rw [hce] at hs; cases hs
            | ok prd =>
              rw [hce] at hs
              dsimp only at hs
              obtain ⟨td, endAnc⟩ := prd
              obtain ⟨hstepD, _⟩ := stepOK_climbSplitEnd hstepC.1 hetb hce
              cases ca with
              | none => cases hs
              | some caId =>
                dsimp only at hs
                cases hgc : td.get caId with
                | none => rw [hgc] at hs; cases hs
                | some cand =>
                  rw [hgc] at hs
                  dsimp only at hs
                  have hcomp0 : StepOK lo t td :=
                    stepOK_trans hstepA (stepOK_trans hstepB (stepOK_trans hstepC hstepD))
                  have hcab2 : lo ≤ caId := hcab caId rfl
                  have hcandb := hstepD.1.2 caId cand hgc hcab2
                  have htbw : ∀ c ∈ jsSlice cand.children
                      (jsIndexOf cand.children startAnc)
                      (jsIndexOf cand.children endAnc + 1), lo ≤ c ∧ c < td.nextId := by
                    intro c hc
                    exact hcandb.2.1 c (mem_jsSlice hc)
                  cases hw3 : wrapNodes td pFragmentTag
                      (jsSlice cand.children (jsIndexOf cand.children startAnc)
                        (jsIndexOf cand.children endAnc + 1)) with
                  | crash => rw [hw3] at hs; cases hs
                  | fail =>
                    rw [hw3] at hs
                    dsimp only at hs
                    split at hs
                    · cases hs
                    · injection hs with hs
                      injection hs with e1 e2
                      subst e1
                      subst e2
                      exact ⟨hcomp0, by intro pr hpr; cases hpr⟩
                  | ok pre2 =>
                    rw [hw3] at hs
                    dsimp only at hs
                    obtain ⟨te, w⟩ := pre2
                    obtain ⟨hstepE, hw, nd3, hg3, hk3, htag3, hpi3⟩ :=
                      stepOK_wrapNodes hstepD.1 htbw hw3
                    injection hs with hs
                    injection hs with e1 e2
                    subst e1
                    subst e2
                    have hcomp : StepOK lo t te := stepOK_trans hcomp0 hstepE
                    have hwlo : lo ≤ w := by
                      rw [hw]
                      have := hstepD.1.1
                      omega
                    have hwge : t.nextId ≤ w := by
                      rw [hw]
                      have := hcomp0.2.2.1
                      omega
                    by_cases htok : f.token ≠ []
                    · rw [if_pos htok]
                      refine ⟨stepOK_setIndex f.token hcomp hwlo hwge, ?_⟩
                      intro pr hpr
                      simp at hpr
                      subst hpr
                      dsimp only
                      refine ⟨hwlo, ?_, ?_⟩
                      · rw [Store.modify_nextId]
                        exact (hstepE.1.2 w nd3 hg3 hwlo).1
                      · refine ⟨{ nd3 with propIndex := some f.token },
                          Store.get_modify_self te w _ hg3, hk3, htag3, ?_⟩
                        rw [if_pos htok]
                    · rw [if_neg htok]
                      refine ⟨hcomp, ?_⟩
                      intro pr hpr
                      simp at hpr
                      subst hpr
                      dsimp only
                      refine ⟨hwlo, (hstepE.1.2 w nd3 hg3 hwlo).1, nd3, hg3, hk3, htag3, ?_⟩
                      rw [if_neg htok]
                      exact hpi3

theorem stepOK_preBody {lo : Nat} {t : Store} {rootId : Nat} {f : Frag}
    {t2 : Store} {log : List (Frag × Nat)}
    (hreg : RegionOK lo t) (hroot : lo ≤ rootId)
    (hs : preBody t rootId f = JRes.ok (t2, log)) :
    StepOK lo t t2 ∧ LogOK lo t2 log := by
  unfold preBody at hs
  cases ht1 : getTextNodes t rootId (textWalkFuel t) with
  | crash => rw [ht1] at hs; cases hs
  | fail => rw [ht1] at hs; cases hs
  | ok texts =>
    rw [ht1] at hs
    dsimp only at hs
    have htexts : ∀ pr ∈ texts, lo ≤ pr.1 ∧ pr.1 < t.nextId :=
      getTextNodesGo_region hreg hroot ht1
    cases hs1 : getTextNodeAtIndex f.index texts with
    | none =>
      rw [hs1] at hs
      injection hs with hs
      injection hs with e1 e2
      subst e1
      subst e2
      exact ⟨stepOK_refl hreg, by intro pr hpr; cases hpr⟩
    | some prS =>
      rw [hs1] at hs
      dsimp only at hs
      obtain ⟨sId, sIdx⟩ := prS
      obtain ⟨snd1, hsmem⟩ := getTextNodeAtIndexGo_mem hs1
      have hsb : lo ≤ sId := (htexts _ hsmem).1
      cases hs2 : getTextNodeAtIndex (f.index + (f.content.length : Int) - 1) texts with
        | none =>
          rw [hs2] at hs
          injection hs with hs
          injection hs with e1 e2
          subst e1
          subst e2
          exact ⟨stepOK_refl hreg, by intro pr hpr; cases hpr⟩
        | some prE =>
          rw [hs2] at hs
          dsimp only at hs
          obtain ⟨eId, eIdx⟩ := prE
          obtain ⟨end1, hemem⟩ := getTextNodeAtIndexGo_mem hs2
          have heb : lo ≤ eId := (htexts _ hemem).1
          split at hs
          · exact stepOK_preSameNode hreg hsb hs
          · exact stepOK_preCrossNode hreg hsb heb hs

theorem stepOK_preLoop {lo : Nat} {rootId : Nat} :
    ∀ {frags : List Frag} {t : Store} {t2 : Store} {log : List (Frag × Nat)},
      RegionOK lo t → lo ≤ rootId →
      preLoop t rootId frags = JRes.ok (t2, log) →
      StepOK lo t t2 ∧ LogOK lo t2 log := by
  intro frags
  induction frags with
  | nil =>
    intro t t2 log hreg _ h
    injection h with h
    injection h with e1 e2
    subst e1
    subst e2
    exact ⟨stepOK_refl hreg, by intro pr hpr; cases hpr⟩
  | cons f fs ih =>
    intro t t2 log hreg hroot h
    unfold preLoop at h
    cases hb : preBody t rootId f with
    | crash => rw [hb] at h; cases h
    | fail => rw [hb] at h; cases h
    | ok pr1 =>
      rw [hb] at h
      dsimp only at h
      obtain ⟨t1, log1⟩ := pr1
      obtain ⟨hstep1, hlog1⟩ := stepOK_preBody hreg hroot hb
      cases hl : preLoop t1 rootId fs with
      | crash => rw [hl] at h; cases h
      | fail => rw [hl] at h; cases h
      | ok pr2 =>
        rw [hl] at h
        dsimp only at h
        obtain ⟨t3, log2⟩ := pr2
        obtain ⟨hstep2, hlog2⟩ := ih hstep1.1 hroot hl
        injection h with h
        injection h with e1 e2
        subst e1
        subst e2
        refine ⟨stepOK_trans hstep1 hstep2, ?_⟩
        intro pr hpr
        rcases List.mem_append.mp hpr with h1 | h2
        · exact logOK_mono hlog1 hstep2 pr h1
        · exact hlog2 pr h2

theorem fixChain_nextId : ∀ (ks : List Nat) (t : Store), (fixChain t ks).nextId = t.nextId := by
  intro ks
  induction ks with
  | nil => intro t; rfl
  | cons k ks ih =>
    intro t
    cases ks with
    | nil => exact Store.modify_nextId t k _
    | cons k2 ks2 =>
      unfold fixChain
      rw [ih, Store.modify_nextId]

theorem stepOK_buildList {lo : Nat} :
    ∀ {fuel : Nat} {t : Store} {srcs : List Nat} {par : Option Nat}
      {t2 : Store} {ids : List Nat},
      RegionOK lo t →
      (par = none ∨ ∃ q, par = some q ∧ lo ≤ q ∧ q < t.nextId) →
      buildList fuel t srcs par = JRes.ok (t2, ids) →
      StepOK lo t t2 ∧ ∀ i ∈ ids, lo ≤ i ∧ i < t2.nextId := by
  intro fuel
  induction fuel with
  | zero => intro t srcs par t2 ids _ _ h; cases h
  | succ fuel ih =>
    intro t srcs par t2 ids hreg hpar h
    unfold buildList at h
    cases srcs with
    | nil =>
      injection h with h
      injection h with e1 e2
      subst e1
      subst e2
      exact ⟨stepOK_refl hreg, by intro i hi; cases hi⟩
    | cons s rest =>
      dsimp only at h
      cases hg : t.get s with
      | none => rw [hg] at h; cases h
      | some snd =>
        rw [hg] at h
        dsimp only at h
        have hstep1 : StepOK lo t (t.alloc { kind := snd.kind, value := snd.value, tagName := snd.tagName, propIndex := snd.propIndex, parent := par, nextSibling := none, children := [] }).1 := by
          refine stepOK_alloc _ hreg ?_
          refine ⟨?_, ?_, ?_⟩
          · intro c hc
            cases hc
          · intro p hp
            rcases hpar with hn | ⟨q, hq, hqb⟩
            · rw [hn] at hp; cases hp
            · rw [hq] at hp
              injection hp with e
              subst e
              exact ⟨hqb.1, by omega⟩
          · intro s2 hs2
            cases hs2
        have hAnx : (t.alloc { kind := snd.kind, value := snd.value, tagName := snd.tagName, propIndex := snd.propIndex, parent := par, nextSibling := none, children := [] }).1.nextId = t.nextId + 1 := rfl
        have hAsnd : (t.alloc { kind := snd.kind, value := snd.value, tagName := snd.tagName, propIndex := snd.propIndex, parent := par, nextSibling := none, children := [] }).2 = t.nextId := rfl
        have hafter : ∀ {t4 : Store},
            (if snd.kind = NKind.element then
              match buildList fuel (t.alloc { kind := snd.kind, value := snd.value, tagName := snd.tagName, propIndex := snd.propIndex, parent := par, nextSibling := none, children := [] }).1 snd.children (some (t.alloc { kind := snd.kind, value := snd.value, tagName := snd.tagName, propIndex := snd.propIndex, parent := par, nextSibling := none, children := [] }).2) with
              | JRes.crash => JRes.crash
              | JRes.fail => JRes.fail
              | JRes.ok (t3, kids) =>
                JRes.ok (fixChain (t3.modify (t.alloc { kind := snd.kind, value := snd.value, tagName := snd.tagName, propIndex := snd.propIndex, parent := par, nextSibling := none, children := [] }).2
                  (fun x => { x with children := kids })) kids)
            else JRes.ok (t.alloc { kind := snd.kind, value := snd.value, tagName := snd.tagName, propIndex := snd.propIndex, parent := par, nextSibling := none, children := [] }).1) = JRes.ok t4 →
            StepOK lo t t4 ∧ t.nextId + 1 ≤ t4.nextId := by
          intro t4 hif
          split at hif
          · cases hbl : buildList fuel (t.alloc { kind := snd.kind, value := snd.value, tagName := snd.tagName, propIndex := snd.propIndex, parent := par, nextSibling := none, children := [] }).1 snd.children (some (t.alloc { kind := snd.kind, value := snd.value, tagName := snd.tagName, propIndex := snd.propIndex, parent := par, nextSibling := none, children := [] }).2) with
            | crash => rw [hbl] at hif; cases hif
            | fail => rw [hbl] at hif; cases hif
            | ok pr =>
              rw [hbl] at hif
              dsimp only at hif
              obtain ⟨t3, kids⟩ := pr
              injection hif with e
              subst e
              obtain ⟨hstep2, hkids⟩ := ih hstep1.1
                (Or.inr ⟨_, rfl, by rw [hAsnd]; exact hreg.1, by rw [hAsnd, hAnx]; omega⟩) hbl
              have hstep3 : StepOK lo t3 (t3.modify (t.alloc { kind := snd.kind, value := snd.value, tagName := snd.tagName, propIndex := snd.propIndex, parent := par, nextSibling := none, children := [] }).2
                  (fun x => { x with children := kids })) := by
                refine stepOK_modify _ hstep2.1 (by rw [hAsnd]; exact hreg.1)
                  (fun x => ⟨rfl, rfl, rfl⟩) ?_
                intro x hx
                exact ⟨fun c hc => hkids c hc, hx.2.1, hx.2.2⟩
              have hstep4 : StepOK lo (t3.modify (t.alloc { kind := snd.kind, value := snd.value, tagName := snd.tagName, propIndex := snd.propIndex, parent := par, nextSibling := none, children := [] }).2 (fun x => { x with children := kids })) (fixChain (t3.modify (t.alloc { kind := snd.kind, value := snd.value, tagName := snd.tagName, propIndex := snd.propIndex, parent := par, nextSibling := none, children := [] }).2
                  (fun x => { x with children := kids })) kids) := by
                refine stepOK_fixChain kids _ hstep3.1 ?_
                intro k hk
                have := hkids k hk
                rw [Store.modify_nextId]
                exact this
              refine ⟨stepOK_trans hstep1 (stepOK_trans hstep2 (stepOK_trans hstep3 hstep4)), ?_⟩
              rw [fixChain_nextId, Store.modify_nextId]
              dsimp only
              have h1 := hstep2.2.2.1
              have h4 := hAnx
              omega
          · injection hif with e
            subst e
            exact ⟨hstep1, by rw [hAnx]⟩
        cases haf : (if snd.kind = NKind.element then
              match buildList fuel (t.alloc { kind := snd.kind, value := snd.value, tagName := snd.tagName, propIndex := snd.propIndex, parent := par, nextSibling := none, children := [] }).1 snd.children (some (t.alloc { kind := snd.kind, value := snd.value, tagName := snd.tagName, propIndex := snd.propIndex, parent := par, nextSibling := none, children := [] }).2) with
              | JRes.crash => JRes.crash
              | JRes.fail => JRes.fail
              | JRes.ok (t3, kids) =>
                JRes.ok (fixChain (t3.modify (t.alloc { kind := snd.kind, value := snd.value, tagName := snd.tagName, propIndex := snd.propIndex, parent := par, nextSibling := none, children := [] }).2
                  (fun x => { x with children := kids })) kids)
            else JRes.ok (t.alloc { kind := snd.kind, value := snd.value, tagName := snd.tagName, propIndex := snd.propIndex, parent := par, nextSibling := none, children := [] }).1) with
        | crash => rw [haf] at h; cases h
        | fail => rw [haf] at h; cases h
        | ok t4 =>
          rw [haf] at h
          dsimp only at h
          obtain ⟨hstepT4, hT4nx⟩ := hafter haf
          cases hbr : buildList fuel t4 rest par with
          | crash => rw [hbr] at h; cases h
          | fail => rw [hbr] at h; cases h
          | ok pr5 =>
            rw [hbr] at h
            dsimp only at h
            obtain ⟨t5, nids⟩ := pr5
            have hpar2 : par = none ∨ ∃ q, par = some q ∧ lo ≤ q ∧ q < t4.nextId := by
              rcases hpar with hn | ⟨q, hq, hqb⟩
              · exact Or.inl hn
              · refine Or.inr ⟨q, hq, hqb.1, ?_⟩
                have := hstepT4.2.2.1
                omega
            obtain ⟨hstep5, hnids⟩ := ih hstepT4.1 hpar2 hbr
            injection h with h
            injection h with e1 e2
            subst e1
            subst e2
            refine ⟨stepOK_trans hstepT4 hstep5, ?_⟩
            intro i hi
            rcases List.mem_cons.mp hi with rfl | hi2
            · refine ⟨?_, ?_⟩
              · rw [hAsnd]
                exact hreg.1
              · have h0 := hAsnd
                have h1 := hT4nx
                have h2 := hstep5.2.2.1
                dsimp only
                omega
            · exact hnids i hi2

theorem buildList_first_id :
    ∀ {fuel : Nat} {t : Store} {s : Nat} {rest : List Nat} {par : Option Nat}
      {t2 : Store} {ids : List Nat},
      buildList fuel t (s :: rest) par = JRes.ok (t2, ids) →
      ∃ tl, ids = t.nextId :: tl := by
  intro fuel
  cases fuel with
  | zero => intro t s rest par t2 ids h; cases h
  | succ fuel =>
    intro t s rest par t2 ids h
    unfold buildList at h
    dsimp only at h
    cases hg : t.get s with
    | none => rw [hg] at h; cases h
    | some snd =>
      rw [hg] at h
      dsimp only at h
      split at h
      · cases h
      · cases h
      · rename_i t4 heq
        split at h
        · cases h
        · cases h
        · rename_i t5 nids heq2
          injection h with h
          injection h with e1 e2
          exact ⟨nids, e2.symm⟩

theorem subtree_region {lo : Nat} {t : Store} (hreg : RegionOK lo t) :
    ∀ (fuel : Nat) (work : List Nat), (∀ x ∈ work, lo ≤ x) →
      ∀ i ∈ subtreeIds t fuel work, lo ≤ i := by
  intro fuel
  induction fuel with
  | zero => intro work _ i hi; cases hi
  | succ fuel ih =>
    intro work hwork i hi
    cases work with
    | nil => cases hi
    | cons id rest =>
      unfold subtreeIds at hi
      cases hg : t.get id with
      | none =>
        rw [hg] at hi
        rcases List.mem_cons.mp hi with rfl | hi2
        · exact hwork i (by simp)
        · exact ih rest (fun x hx => hwork x (by simp [hx])) i hi2
      | some nd =>
        rw [hg] at hi
        rcases List.mem_cons.mp hi with rfl | hi2
        · exact hwork i (by simp)
        · refine ih (nd.children ++ rest) ?_ i hi2
          intro x hx
          rcases List.mem_append.mp hx with h1 | h2
          · exact (((hreg.2 id nd hg (hwork id (by simp))).2).1 x h1).1
          · exact hwork x (by simp [h2])

theorem regionOK_init (t : Store) (hsk : ∀ pr ∈ t.nodes, pr.1 < t.nextId) :
    RegionOK t.nextId t := by
  refine ⟨Nat.le_refl _, ?_⟩
  intro id nd hg hid
  exfalso
  unfold Store.get at hg
  cases hf : t.nodes.find? (fun p => p.1 = id) with
  | none => rw [hf] at hg; cases hg
  | some pr =>
    have hmem := List.mem_of_find?_eq_some hf
    have hp := List.find?_some hf
    simp at hp
    have := hsk pr hmem
    omega

/-- **C5.**  Amended: `pre` does *not* return the tree object it was
given; it deep-clones the host tree and mutates the clone.  For every
successful run on a store whose live ids are below `nextId`: the
returned root is the first freshly allocated id; every entry of the
input store is untouched; every node reachable from the returned root
is freshly allocated (no input node is reachable in the output); and
every logged wrapper is a `p-fragment` element carrying an `index`
property exactly when the fragment's order token was nonempty. -/
theorem c5_pre_clone (t : Store) (srcRoot : Nat) (frags : List Frag)
    (t2 : Store) (rootId : Nat) (log : List (Frag × Nat))
    (hok : pre t srcRoot frags = JRes.ok (t2, rootId, log))
    (hsk : ∀ pr ∈ t.nodes, pr.1 < t.nextId) :
    rootId = t.nextId ∧
    (∀ j, j < t.nextId → t2.get j = t.get j) ∧
    (∀ fuel, ∀ i ∈ subtreeIds t2 fuel [rootId], t.nextId ≤ i) ∧
    (∀ pr ∈ log, t.nextId ≤ pr.2 ∧ ∃ nd, t2.get pr.2 = some nd ∧
       nd.kind = NKind.element ∧ nd.tagName = pFragmentTag ∧
       nd.propIndex = (if pr.1.token ≠ [] then some pr.1.token else none)) := by
  unfold pre buildTree at hok
  cases hbl : buildList (2 * t.nextId + 2) t [srcRoot] none with
  | crash => rw [hbl] at hok; cases hok
  | fail => rw [hbl] at hok; cases hok
  | ok pr1 =>
    rw [hbl] at hok
    dsimp only at hok
    obtain ⟨t1, ids1⟩ := pr1
    obtain ⟨tl0, hids⟩ := buildList_first_id hbl
    subst hids
    cases tl0 with
    | cons a b => cases hok
    | nil =>
      dsimp only at hok
      have hreg0 := regionOK_init t hsk
      obtain ⟨hstepB, hidsB⟩ := stepOK_buildList hreg0 (Or.inl rfl) hbl
      cases hpl : preLoop t1 t.nextId frags with
      | crash => rw [hpl] at hok; cases hok
      | fail => rw [hpl] at hok; cases hok
      | ok pr2 =>
        rw [hpl] at hok
        dsimp only at hok
        obtain ⟨t2m, log2⟩ := pr2
        obtain ⟨hstepL, hlogL⟩ := stepOK_preLoop hstepB.1 (Nat.le_refl _) hpl
        injection hok with hok
        injection hok with e1 e2
        injection e2 with e2a e2b
        subst e1
        subst e2a
        subst e2b
        refine ⟨rfl, ?_, ?_, ?_⟩
        · intro j hj
          exact (hstepL.2.1 j hj).trans (hstepB.2.1 j hj)
        · intro fuel i hi
          exact subtree_region hstepL.1 fuel [t.nextId]
            (fun x hx => by simp at hx; subst hx; exact Nat.le_refl _) i hi
        · intro pr hpr
          obtain ⟨h1, _, nd, h3, h4, h5, h6⟩ := hlogL pr hpr
          exact ⟨h1, nd, h3, h4, h5, h6⟩

/-- C5 counterexample: on the concrete run of claim C1's input, `pre`
returns root id 4, not the given root 0; the input entries are
untouched and every node reachable from the output root is a fresh id
(at least `nextId = 4`), so *no* node of the input tree is reachable in
the output: the tree is not "the very same tree object mutated in
place". -/
theorem c5_counterexample :
    pre c1Store 0 (preprocess c1Raw).2 = JRes.ok (c1Out, 4, [(c1Frag, 8)]) ∧
    (4 : Nat) ≠ 0 ∧
    subtreeIds c1Out 16 [4] = [4, 8, 5, 6, 7] ∧
    (∀ i ∈ subtreeIds c1Out 16 [4], c1Store.nextId ≤ i) ∧
    c1Out.get 0 = c1Store.get 0 ∧ c1Out.get 1 = c1Store.get 1 ∧
    c1Out.get 2 = c1Store.get 2 ∧ c1Out.get 3 = c1Store.get 3 := by
  decide

/-- C5 witness: the clone theorem applied at the concrete C1 run. -/
theorem c5_pre_clone_witness :
    (4 : Nat) = c1Store.nextId ∧
    (∀ j, j < c1Store.nextId → c1Out.get j = c1Store.get j) ∧
    (∀ fuel, ∀ i ∈ subtreeIds c1Out fuel [4], c1Store.nextId ≤ i) ∧
    (∀ pr ∈ [(c1Frag, 8)], c1Store.nextId ≤ pr.2 ∧ ∃ nd, c1Out.get pr.2 = some nd ∧
       nd.kind = NKind.element ∧ nd.tagName = pFragmentTag ∧
       nd.propIndex = (if pr.1.token ≠ [] then some pr.1.token else none)) :=
  c5_pre_clone c1Store 0 (preprocess c1Raw).2 c1Out 4 [(c1Frag, 8)]
    (by decide) (by decide)
